import Mathlib

/-!
# Explicit free-list allocator (`mm.c`): shallow embedding and verification

The C program manages one contiguous byte range obtained from a growth
primitive (`mem_sbrk`).  It is compiled for an LP64 target: `int` is 32 bits,
`size_t` and pointers are 64 bits, memory is little-endian, and the file is
built with `DRIVER` defined, so that `malloc`/`free` inside `mm_realloc` are
`mm_malloc`/`mm_free`.

Embedding conventions

* memory is a function from byte addresses to byte values (read modulo 256);
* `size_t` arithmetic is carried out modulo `2^64`, a store through `PUT`
  keeps the low 32 bits, and a size read through `GET_SIZE` is the `int`
  value converted to 64 bits;
* addresses are natural numbers (the managed range lies below `2^63`, so
  pointer arithmetic on block addresses does not wrap);
* the only loop of the allocator, the free-list walk of `find_fit`, is run
  with a bound taken from the size of the managed range; running out of the
  bound is reported as `none`, and is shown impossible in reachable states.
-/

namespace Malloc

/-! ## Memory -/

/-- Byte-addressed memory.  The value of a byte is the stored number modulo 256. -/
abbrev Mem := Nat → Nat

/-- Read one byte. -/
def rd8 (m : Mem) (a : Nat) : Nat := m a % 256

/-- Store the `k` low bytes of `v` at `a`, little-endian. -/
def wrBytes (k : Nat) (m : Mem) (a v : Nat) : Mem :=
  fun x => if a ≤ x ∧ x < a + k then (v / 256 ^ (x - a)) % 256 else m x

/-- Read of a 64-bit pointer, `*(void **)(p)`. -/
def rd64 (m : Mem) (p : Nat) : Nat :=
  rd8 m p + 256 * (rd8 m (p + 1) + 256 * (rd8 m (p + 2) + 256 * (rd8 m (p + 3)
    + 256 * (rd8 m (p + 4) + 256 * (rd8 m (p + 5) + 256 * (rd8 m (p + 6)
    + 256 * rd8 m (p + 7)))))))

/-- Store of a 64-bit pointer, `*(void **)(p) = v`. -/
def wr64 (m : Mem) (p v : Nat) : Mem := wrBytes 8 m p v

/-! ## Constants and macros of `mm.c` -/

def ALIGNMENT : Nat := 8
def WSIZE : Nat := 4
def DSIZE : Nat := 8
def CHUNKSIZE : Nat := 16
def BLOCKSIZE : Nat := 24

/-- `ALIGN(p) = ((size_t)(p) + (ALIGNMENT-1)) & ~0x7` in 64-bit unsigned arithmetic. -/
def ALIGN (p : Nat) : Nat := ((p + (ALIGNMENT - 1)) % 2 ^ 64) &&& 0xFFFFFFFFFFFFFFF8

def MAX (x y : Nat) : Nat := if x > y then x else y

/-- `PACK(size, alloc) = (size) | (alloc)`. -/
def PACK (size alloc : Nat) : Nat := size ||| alloc

/-- `GET(p) = *(int *)(p)`, as the 32-bit pattern of the `int`. -/
def GET (m : Mem) (p : Nat) : Nat :=
  rd8 m p + 256 * (rd8 m (p + 1) + 256 * (rd8 m (p + 2) + 256 * rd8 m (p + 3)))

/-- `PUT(p, val)`: `*(int *)(p) = val`, which keeps the low 32 bits of `val`. -/
def PUT (m : Mem) (p val : Nat) : Mem := wrBytes 4 m p val

/-- Conversion of an `int`, given by its 32-bit pattern, to a 64-bit value
(sign extension): what `size_t x = (int) w` and pointer-plus-`int` compute. -/
def int_to_size_t (w : Nat) : Nat := if w < 2 ^ 31 then w else w + (2 ^ 64 - 2 ^ 32)

/-- `GET_SIZE(p) = GET(p) & ~0x7`, converted to 64 bits. -/
def GET_SIZE (m : Mem) (p : Nat) : Nat := int_to_size_t (GET m p &&& 0xFFFFFFF8)

/-- `GET_ALLOC(p) = GET(p) & 0x1`. -/
def GET_ALLOC (m : Mem) (p : Nat) : Nat := GET m p &&& 1

def HDRP (bp : Nat) : Nat := bp - WSIZE

def FTRP (m : Mem) (bp : Nat) : Nat := bp + GET_SIZE m (HDRP bp) - DSIZE

def NEXT_BLKP (m : Mem) (bp : Nat) : Nat := bp + GET_SIZE m (HDRP bp)

def PREV_BLKP (m : Mem) (bp : Nat) : Nat := bp - GET_SIZE m (HDRP bp - WSIZE)

/-- `NEXT_FBLKP(bp) = *(void **)(bp + DSIZE)`. -/
def NEXT_FBLKP (m : Mem) (bp : Nat) : Nat := rd64 m (bp + DSIZE)

/-- `PREV_FBLKP(bp) = *(void **)(bp)`. -/
def PREV_FBLKP (m : Mem) (bp : Nat) : Nat := rd64 m bp

/-! ## Allocator state -/

/-- The globals of `mm.c` together with the state of the growth primitive. -/
structure State where
  /-- the bytes of the address space -/
  mem : Mem
  /-- first address of the managed range (what the first growth call returns) -/
  heap_lo : Nat
  /-- current end of the managed range -/
  brk : Nat
  /-- the range cannot grow beyond this address -/
  heap_max : Nat
  /-- `static char *heap_listp` -/
  heap_listp : Nat
  /-- `static char *free_listp` -/
  free_listp : Nat
  /-- byte counts passed to the growth primitive so far, most recent first -/
  sbrk_log : List Nat

/-- Modelled from the spec: the growth primitive `mem_sbrk` (its file is not
part of the sources).  It "extends the managed region by a requested byte
count and returns the old end address, or signals failure if the region
cannot grow"; a failed call leaves the range as it was.  Every call is
recorded in `sbrk_log`. -/
def mem_sbrk (s : State) (incr : Nat) : Option Nat × State :=
  if s.brk + incr ≤ s.heap_max then
    (some s.brk, { s with brk := s.brk + incr, sbrk_log := incr :: s.sbrk_log })
  else
    (none, { s with sbrk_log := incr :: s.sbrk_log })

/-- Modelled from the spec: the machine before `mm_init`.  The managed range
is empty, may grow up to `cap` bytes, and `m0` is the content of memory. -/
def machine (m0 : Mem) (lo cap : Nat) : State :=
  { mem := m0, heap_lo := lo, brk := lo, heap_max := lo + cap,
    heap_listp := 0, free_listp := 0, sbrk_log := [] }

/-! ## Free-list links -/

def insert_first (s : State) (bp : Nat) : State :=
  let m1 := wr64 s.mem (bp + DSIZE) s.free_listp
  let m2 := wr64 m1 s.free_listp bp
  let m3 := wr64 m2 bp 0
  { s with mem := m3, free_listp := bp }

def remove_block (s : State) (bp : Nat) : State :=
  if PREV_FBLKP s.mem bp ≠ 0 then
    let m1 := wr64 s.mem (PREV_FBLKP s.mem bp + DSIZE) (NEXT_FBLKP s.mem bp)
    let m2 := wr64 m1 (NEXT_FBLKP m1 bp) (PREV_FBLKP m1 bp)
    { s with mem := m2 }
  else
    let s1 := { s with free_listp := NEXT_FBLKP s.mem bp }
    let m2 := wr64 s1.mem (NEXT_FBLKP s1.mem bp) (PREV_FBLKP s1.mem bp)
    { s1 with mem := m2 }

/-! ## Coalescing -/

/-- The local `prev_alloc` of `coalesce`:
`GET_ALLOC(FTRP(PREV_BLKP(bp))) || PREV_BLKP(bp) == bp`. -/
def prev_alloc (s : State) (bp : Nat) : Bool :=
  (GET_ALLOC s.mem (FTRP s.mem (PREV_BLKP s.mem bp)) != 0) || (PREV_BLKP s.mem bp == bp)

/-- The local `next_alloc` of `coalesce`: `GET_ALLOC(HDRP(NEXT_BLKP(bp)))`. -/
def next_alloc (s : State) (bp : Nat) : Bool :=
  GET_ALLOC s.mem (HDRP (NEXT_BLKP s.mem bp)) != 0

def coalesce (s : State) (bp : Nat) : Nat × State :=
  let size := GET_SIZE s.mem (HDRP bp)
  if prev_alloc s bp && next_alloc s bp then
    (bp, insert_first s bp)
  else if prev_alloc s bp && !next_alloc s bp then
    let size := (size + GET_SIZE s.mem (HDRP (NEXT_BLKP s.mem bp))) % 2 ^ 64
    let s1 := remove_block s (NEXT_BLKP s.mem bp)
    let m2 := PUT s1.mem (HDRP bp) (PACK size 0)
    let m3 := PUT m2 (FTRP m2 bp) (PACK size 0)
    (bp, insert_first { s1 with mem := m3 } bp)
  else if !prev_alloc s bp && next_alloc s bp then
    let size := (size + GET_SIZE s.mem (HDRP (PREV_BLKP s.mem bp))) % 2 ^ 64
    let bp := PREV_BLKP s.mem bp
    let s1 := remove_block s bp
    let m2 := PUT s1.mem (HDRP bp) (PACK size 0)
    let m3 := PUT m2 (FTRP m2 bp) (PACK size 0)
    (bp, insert_first { s1 with mem := m3 } bp)
  else
    let size := (size + (GET_SIZE s.mem (HDRP (PREV_BLKP s.mem bp))
      + GET_SIZE s.mem (HDRP (NEXT_BLKP s.mem bp))) % 2 ^ 64) % 2 ^ 64
    let s1 := remove_block s (PREV_BLKP s.mem bp)
    let s2 := remove_block s1 (NEXT_BLKP s1.mem bp)
    let bp := PREV_BLKP s2.mem bp
    let m2 := PUT s2.mem (HDRP bp) (PACK size 0)
    let m3 := PUT m2 (FTRP m2 bp) (PACK size 0)
    (bp, insert_first { s2 with mem := m3 } bp)

/-! ## Growth, placement, search -/

/-- The function `extend_heap`.  The result address `0` is `NULL`. -/
def extend_heap (s : State) (words : Nat) : Nat × State :=
  let size := if words % 2 ≠ 0 then ((words + 1) * WSIZE) % 2 ^ 64 else (words * WSIZE) % 2 ^ 64
  let size := if size < BLOCKSIZE then BLOCKSIZE else size
  match mem_sbrk s size with
  | (none, s1) => (0, s1)
  | (some bp, s1) =>
    let m1 := PUT s1.mem (HDRP bp) (PACK size 0)
    let m2 := PUT m1 (FTRP m1 bp) (PACK size 0)
    let m3 := PUT m2 (HDRP (NEXT_BLKP m2 bp)) (PACK 0 1)
    coalesce { s1 with mem := m3 } bp

def place (s : State) (bp asize : Nat) : State :=
  let csize := GET_SIZE s.mem (HDRP bp)
  if (csize + 2 ^ 64 - asize) % 2 ^ 64 ≥ BLOCKSIZE then
    let m1 := PUT s.mem (HDRP bp) (PACK asize 1)
    let m2 := PUT m1 (FTRP m1 bp) (PACK asize 1)
    let s1 := remove_block { s with mem := m2 } bp
    let bp := NEXT_BLKP s1.mem bp
    let m3 := PUT s1.mem (HDRP bp) (PACK ((csize + 2 ^ 64 - asize) % 2 ^ 64) 0)
    let m4 := PUT m3 (FTRP m3 bp) (PACK ((csize + 2 ^ 64 - asize) % 2 ^ 64) 0)
    (coalesce { s1 with mem := m4 } bp).2
  else
    let m1 := PUT s.mem (HDRP bp) (PACK csize 1)
    let m2 := PUT m1 (FTRP m1 bp) (PACK csize 1)
    remove_block { s with mem := m2 } bp

/-- The loop of `find_fit`, started at `ptr`, with at most `bound` iterations;
`none` when the bound is used up, `some 0` for `NULL`. -/
def find_fit_loop (m : Mem) (asize : Nat) : Nat → Nat → Option Nat
  | 0, _ => none
  | bound + 1, ptr =>
    if GET_ALLOC m (HDRP ptr) = 0 then
      if asize ≤ GET_SIZE m (HDRP ptr) then some ptr
      else find_fit_loop m asize bound (NEXT_FBLKP m ptr)
    else some 0

/-- The function `find_fit`.  A free block takes at least one byte of the
managed range, which bounds the number of iterations in a well-formed heap. -/
def find_fit (s : State) (asize : Nat) : Option Nat :=
  find_fit_loop s.mem asize (s.brk - s.heap_lo + 1) s.free_listp

/-! ## Public operations -/

/-- The function `mm_init`: the returned `Int` is the C result (`0` or `-1`). -/
def mm_init (s : State) : Int × State :=
  match mem_sbrk s (2 * BLOCKSIZE) with
  | (none, s1) => (-1, s1)
  | (some p, s1) =>
    let heap_listp := p
    let m1 := PUT s1.mem heap_listp 0
    let m2 := PUT m1 (heap_listp + WSIZE) (PACK BLOCKSIZE 1)
    let m3 := PUT m2 (heap_listp + DSIZE) 0
    let m4 := PUT m3 (heap_listp + WSIZE + DSIZE) 0
    let m5 := PUT m4 (heap_listp + BLOCKSIZE) (PACK BLOCKSIZE 1)
    let m6 := PUT m5 (heap_listp + WSIZE + BLOCKSIZE) (PACK 0 1)
    let s2 := { s1 with mem := m6, heap_listp := heap_listp, free_listp := heap_listp + DSIZE }
    match extend_heap s2 (CHUNKSIZE / WSIZE) with
    | (0, s3) => (-1, s3)
    | (_ + 1, s3) => (0, s3)

/-- The adjusted block size `MAX(ALIGN(size) + DSIZE, BLOCKSIZE)`. -/
def adjusted (size : Nat) : Nat := MAX ((ALIGN size + DSIZE) % 2 ^ 64) BLOCKSIZE

/-- The function `mm_malloc`; `none` only if the free-list walk does not end. -/
def mm_malloc (s : State) (size : Nat) : Option (Nat × State) :=
  if size = 0 then some (0, s)
  else
    let asize := adjusted size
    match find_fit s asize with
    | none => none
    | some (bp + 1) => some (bp + 1, place s (bp + 1) asize)
    | some 0 =>
      let extendsize := MAX asize CHUNKSIZE
      match extend_heap s (extendsize / WSIZE) with
      | (0, s1) => some (0, s1)
      | (bp + 1, s1) => some (bp + 1, place s1 (bp + 1) asize)

def mm_free (s : State) (bp : Nat) : State :=
  if bp = 0 then s
  else
    let size := GET_SIZE s.mem (HDRP bp)
    let m1 := PUT s.mem (HDRP bp) (PACK size 0)
    let m2 := PUT m1 (FTRP m1 bp) (PACK size 0)
    (coalesce { s with mem := m2 } bp).2

/-- The library function `memcpy(dst, src, n)` for ranges that do not overlap. -/
def memcpy (m : Mem) (dst src n : Nat) : Mem :=
  fun x => if dst ≤ x ∧ x < dst + n then rd8 m (src + (x - dst)) else m x

/-- The library function `bzero(p, n)`. -/
def bzero (m : Mem) (p n : Nat) : Mem :=
  fun x => if p ≤ x ∧ x < p + n then 0 else m x

/-- The function `mm_realloc`; `none` only if the free-list walk does not end. -/
def mm_realloc (s : State) (ptr size : Nat) : Option (Nat × State) :=
  let asize := adjusted size
  if size = 0 then some (0, mm_free s ptr)
  else if ptr = 0 then mm_malloc s size
  else
    let oldsize := GET_SIZE s.mem (HDRP ptr)
    if asize = oldsize then some (ptr, s)
    else if asize ≤ oldsize then
      let size := asize
      if (oldsize + 2 ^ 64 - size) % 2 ^ 64 ≤ BLOCKSIZE then some (ptr, s)
      else
        let m1 := PUT s.mem (HDRP ptr) (PACK size 1)
        let m2 := PUT m1 (FTRP m1 ptr) (PACK size 1)
        let m3 := PUT m2 (HDRP (NEXT_BLKP m2 ptr)) (PACK ((oldsize + 2 ^ 64 - size) % 2 ^ 64) 1)
        some (ptr, mm_free { s with mem := m3 } (NEXT_BLKP m3 ptr))
    else
      match mm_malloc s size with
      | none => none
      | some (0, s1) => some (0, s1)
      | some (newptr + 1, s1) =>
        let oldsize := if size < oldsize then size else oldsize
        let m1 := memcpy s1.mem (newptr + 1) ptr oldsize
        some (newptr + 1, mm_free { s1 with mem := m1 } ptr)

/-- The function `mm_calloc`; `none` only if the free-list walk does not end. -/
def mm_calloc (s : State) (nmemb size : Nat) : Option (Nat × State) :=
  match mm_malloc s ((nmemb * size) % 2 ^ 64) with
  | none => none
  | some (ptr, s1) => some (ptr, { s1 with mem := bzero s1.mem ptr ((nmemb * size) % 2 ^ 64) })

/-- A store of one byte by the client program. -/
def store8 (m : Mem) (a v : Nat) : Mem := wrBytes 1 m a v

/-- The memory `m1` differs from `m` at most on the `k` bytes from `p`. -/
def sameOutside (m m1 : Mem) (p k : Nat) : Prop :=
  ∀ x, (x < p ∨ p + k ≤ x) → rd8 m1 x = rd8 m x

/-! ## Walks over the heap -/

/-- Address of the first block after the prologue: the first growth call of
`extend_heap` returns `heap_listp + 2*BLOCKSIZE`, and that address becomes the
first block pointer. -/
def first_block (s : State) : Nat := s.heap_listp + 2 * BLOCKSIZE

/-- Walk block by block, each step advancing by the size in the header, until a
header of size 0 (the epilogue) is met; gives the visited block pointers and the
pointer at which the walk stopped, `none` if the bound is used up. -/
def blocks_walk (m : Mem) : Nat → Nat → Option (List Nat × Nat)
  | 0, _ => none
  | bound + 1, bp =>
    if GET_SIZE m (HDRP bp) = 0 then some ([], bp)
    else (blocks_walk m bound (NEXT_BLKP m bp)).map (fun r => (bp :: r.1, r.2))

/-- The walk over the whole region, from the first block. -/
def heap_walk (s : State) : Option (List Nat × Nat) :=
  blocks_walk s.mem (s.brk - s.heap_lo + 1) (first_block s)

/-- Modelled from the spec: what the environment provides before `mm_init`.
The managed range lies in `[lo, lo + cap)` with `lo` not null, below `2^63`,
it is smaller than `2^31` bytes (a block size fits the `int` of a header), and
its bytes read as zero until they are written. -/
def fresh_machine (m0 : Mem) (lo cap : Nat) : Prop :=
  0 < lo ∧ lo + cap ≤ 2 ^ 63 ∧ cap < 2 ^ 31 ∧ ∀ a, lo ≤ a → a < lo + cap → m0 a % 256 = 0

/-- The call `mm_calloc(nmemb, size)` is defined: the range cleared by `bzero`
is empty, or lies inside the payload of the block that `mm_malloc` returned. -/
def calloc_defined (s : State) (nmemb size : Nat) : Prop :=
  match mm_malloc s ((nmemb * size) % 2 ^ 64) with
  | none => False
  | some (ptr, s1) =>
    (nmemb * size) % 2 ^ 64 = 0 ∨
      (ptr ≠ 0 ∧ (nmemb * size) % 2 ^ 64 ≤ GET_SIZE s1.mem (HDRP ptr) - DSIZE)

/-- The live pointers after `mm_realloc(p, n)` returned `q`. -/
def live_after_realloc (live : List Nat) (p n q : Nat) : List Nat :=
  if n = 0 then live.erase p else if q = 0 then live else q :: live.erase p

/-- States reachable from `mm_init` by valid calls, with the list of live
pointers (returned by an allocation and not freed since).  A valid call passes
`NULL` or a live pointer to `mm_free` and `mm_realloc`; between calls the client
may store bytes in the payload of a live block. -/
inductive Reachable : State → List Nat → Prop
  | init (m0 : Mem) (lo cap : Nat) (s : State) :
      fresh_machine m0 lo cap → mm_init (machine m0 lo cap) = (0, s) → Reachable s []
  | malloc (s : State) (live : List Nat) (n p : Nat) (s1 : State) :
      Reachable s live → n < 2 ^ 64 → mm_malloc s n = some (p, s1) →
      Reachable s1 (if p = 0 then live else p :: live)
  | free (s : State) (live : List Nat) (p : Nat) :
      Reachable s live → (p = 0 ∨ p ∈ live) → Reachable (mm_free s p) (live.erase p)
  | realloc (s : State) (live : List Nat) (p n q : Nat) (s1 : State) :
      Reachable s live → (p = 0 ∨ p ∈ live) → n < 2 ^ 64 →
      mm_realloc s p n = some (q, s1) → Reachable s1 (live_after_realloc live p n q)
  | calloc (s : State) (live : List Nat) (nmemb size p : Nat) (s1 : State) :
      Reachable s live → nmemb < 2 ^ 64 → size < 2 ^ 64 → calloc_defined s nmemb size →
      mm_calloc s nmemb size = some (p, s1) →
      Reachable s1 (if p = 0 then live else p :: live)
  | store (s : State) (live : List Nat) (p i v : Nat) :
      Reachable s live → p ∈ live → i < GET_SIZE s.mem (HDRP p) - DSIZE →
      Reachable { s with mem := store8 s.mem (p + i) v } live

/-! ## Abstract description of a well-formed heap -/

/-- A block of the heap: total size in bytes and allocation bit. -/
structure Blk where
  size : Nat
  alloc : Bool
  deriving DecidableEq, Repr

/-- The header (and footer) word of a block. -/
def Blk.word (b : Blk) : Nat := b.size + b.alloc.toNat

/-- End address of a run of blocks that starts at block pointer `a`. -/
def endAddr : Nat → List Blk → Nat
  | a, [] => a
  | a, b :: bs => endAddr (a + b.size) bs

/-- The blocks of a run with their block pointers. -/
def addrs : Nat → List Blk → List (Nat × Blk)
  | _, [] => []
  | a, b :: bs => (a, b) :: addrs (a + b.size) bs

/-- Memory holds the run of blocks `bs` from block pointer `a`: every block
has a legal size and equal header and footer words. -/
def heapBlocks (m : Mem) : Nat → List Blk → Prop
  | _, [] => True
  | a, b :: bs =>
    BLOCKSIZE ≤ b.size ∧ b.size % 8 = 0 ∧ GET m (a - 4) = b.word ∧
      GET m (a + b.size - 8) = b.word ∧ heapBlocks m (a + b.size) bs

/-- The doubly linked list that starts at `cur`, whose predecessor link should
be `prev`, visits exactly `fl` and then arrives at `stop`. -/
def freeChain (m : Mem) (stop : Nat) : Nat → Nat → List Nat → Prop
  | _, cur, [] => cur = stop
  | prev, cur, x :: xs =>
    cur = x ∧ PREV_FBLKP m x = prev ∧ freeChain m stop x (NEXT_FBLKP m x) xs

/-- The link fields of the entries of `l` (16 bytes from each block pointer)
lie above the link fields of `stop`, below `2^64`, and do not overlap each other. -/
def slotsSep (stop : Nat) (l : List Nat) : Prop :=
  (∀ y, y ∈ l → stop + 16 ≤ y ∧ y + 16 ≤ 2 ^ 64) ∧
    ∀ y, y ∈ l → ∀ z, z ∈ l → y = z ∨ y + 16 ≤ z ∨ z + 16 ≤ y

/-- No two neighbours are both free. -/
def noAdjFree (bs : List Blk) : Prop :=
  List.Chain' (fun b c : Blk => b.alloc = true ∨ c.alloc = true) bs

/-- Block pointers of the allocated blocks of a run. -/
def allocAddrs (a : Nat) (bs : List Blk) : List Nat :=
  ((addrs a bs).filter (fun x => x.2.alloc)).map Prod.fst

/-- Block pointers of the free blocks of a run. -/
def freeAddrs (a : Nat) (bs : List Blk) : List Nat :=
  ((addrs a bs).filter (fun x => !x.2.alloc)).map Prod.fst

/-- The state `s` holds the blocks `bs` (in address order, from the first block
to the end of the managed range) and the free list `fl` (in list order, ending
at the prologue); every entry of the free list is a block of `bs`. -/
structure HeapCore (s : State) (bs : List Blk) (fl : List Nat) : Prop where
  lo_pos : 0 < s.heap_lo
  listp : s.heap_listp = s.heap_lo
  brk_le : s.brk ≤ s.heap_max
  max_le : s.heap_max ≤ 2 ^ 63
  cap_lt : s.heap_max - s.heap_lo < 2 ^ 31
  pro_hdr : GET s.mem (s.heap_lo + 4) = 25
  pro_ftr : GET s.mem (s.heap_lo + 24) = 25
  gap : GET s.mem (s.heap_lo + 40) = 0
  blocks : heapBlocks s.mem (s.heap_lo + 48) bs
  brk_eq : s.brk = endAddr (s.heap_lo + 48) bs
  chain : freeChain s.mem (s.heap_lo + 8) 0 s.free_listp fl
  nodup : fl.Nodup
  fl_blk : ∀ x, x ∈ fl → ∃ b, (x, b) ∈ addrs (s.heap_lo + 48) bs

/-- A heap whose last word is the epilogue header. -/
structure Heap (s : State) (bs : List Blk) (fl : List Nat) extends HeapCore s bs fl : Prop where
  epilogue : GET s.mem (s.brk - 4) = 1

/-- The heap invariant between operations: the free list holds exactly the free
blocks, and no two neighbouring blocks are free. -/
structure Inv (s : State) (bs : List Blk) (fl : List Nat) extends Heap s bs fl : Prop where
  fl_iff : ∀ x, x ∈ fl ↔ x ∈ freeAddrs (s.heap_lo + 48) bs
  coalesced : noAdjFree bs

/-- The state `s1` has the same managed range and growth log as `s`. -/
def sameEnv (s s1 : State) : Prop :=
  s1.heap_lo = s.heap_lo ∧ s1.brk = s.brk ∧ s1.heap_max = s.heap_max ∧
    s1.heap_listp = s.heap_listp ∧ s1.sbrk_log = s.sbrk_log

/-- The state in which `coalesce` is called on the block `b` at the end of the
run `pre`: `b` is free and not yet linked, every other free block is linked,
and the blocks before and after `b` are coalesced. -/
structure PreCo (s : State) (pre : List Blk) (b : Blk) (post : List Blk) (fl : List Nat) :
    Prop where
  heap : Heap s (pre ++ [b] ++ post) fl
  free : b.alloc = false
  notin : endAddr (s.heap_lo + 48) pre ∉ fl
  fl_iff : ∀ y, y ∈ fl ↔ y ∈ freeAddrs (s.heap_lo + 48) pre ∨
    y ∈ freeAddrs (endAddr (s.heap_lo + 48) pre + b.size) post
  co_pre : noAdjFree pre
  co_post : noAdjFree post

/-- The memory `m1` differs from the memory of `s` only inside payloads of blocks
(footer excluded) and in the predecessor link of the prologue. -/
def payloadOnly (s : State) (bs : List Blk) (m1 : Mem) : Prop :=
  ∀ q, (q < s.heap_lo + 8 ∨ s.heap_lo + 16 ≤ q) →
    (∀ y b, (y, b) ∈ addrs (s.heap_lo + 48) bs → q < y ∨ y + b.size - 8 ≤ q) →
    rd8 m1 q = rd8 s.mem q

/-- The invariant of reachable states: a well-formed heap whose allocated blocks
are exactly the live pointers, each listed once. -/
def Good (s : State) (live : List Nat) : Prop :=
  live.Nodup ∧ ∃ bs fl, Inv s bs fl ∧ ∀ p, p ∈ live ↔ p ∈ allocAddrs (s.heap_lo + 48) bs

/-- Size of a neighbour of the block handed to `coalesce` if that neighbour is
a free block, and 0 if it is allocated or there is none. -/
def freeSize : Option Blk → Nat
  | some b => if b.alloc then 0 else b.size
  | none => 0

/-- The blocks before the block handed to `coalesce` that are not merged with it. -/
def dropFreeL (pre : List Blk) : List Blk :=
  match pre.getLast? with
  | some L => if L.alloc then pre else pre.dropLast
  | none => pre

/-- The blocks after the block handed to `coalesce` that are not merged with it. -/
def dropFreeR (post : List Blk) : List Blk :=
  match post with
  | R :: post1 => if R.alloc then post else post1
  | [] => []

/-! ## The consistency checker -/

/-- The diagnostics that `mm_checkheap` and `checkblock` print. -/
inductive Diag where
  | bad_prologue
  | not_aligned
  | hdr_ftr_mismatch
  | bad_epilogue
  deriving DecidableEq, Repr

/-- The function `checkblock`: the diagnostics it prints for `bp`. -/
def checkblock (m : Mem) (bp : Nat) : List Diag :=
  (if bp % 8 ≠ 0 then [Diag.not_aligned] else []) ++
    (if GET m (HDRP bp) ≠ GET m (FTRP m bp) then [Diag.hdr_ftr_mismatch] else [])

/-- Addresses of the words that `checkblock` reads for `bp`. -/
def checkblock_reads (m : Mem) (bp : Nat) : List Nat := [HDRP bp, FTRP m bp]

/-- The free-list loop of `mm_checkheap` from `bp`, with at most `bound`
iterations: the diagnostics printed, the addresses of the words read, and the
block at which the loop stopped. -/
def checkheap_loop (m : Mem) : Nat → Nat → Option (List Diag × List Nat × Nat)
  | 0, _ => none
  | bound + 1, bp =>
    if GET_ALLOC m (HDRP bp) = 0 then
      (checkheap_loop m bound (NEXT_FBLKP m bp)).map
        (fun r => (checkblock m bp ++ r.1,
          HDRP bp :: (checkblock_reads m bp ++ (bp + DSIZE) :: r.2.1), r.2.2))
    else some ([], [HDRP bp], bp)

/-- The function `mm_checkheap` called with `verbose = 0`: the diagnostics
printed, the addresses of the words read, and the block at which the free-list
loop stopped. -/
def mm_checkheap (s : State) : Option (List Diag × List Nat × Nat) :=
  let d1 :=
    if GET_SIZE s.mem (HDRP s.heap_listp) ≠ BLOCKSIZE ∨ GET_ALLOC s.mem (HDRP s.heap_listp) = 0
    then [Diag.bad_prologue] else []
  let d2 := checkblock s.mem s.heap_listp
  match checkheap_loop s.mem (s.brk - s.heap_lo + 1) s.free_listp with
  | none => none
  | some (d3, reads, bp) =>
    let d4 :=
      if GET_SIZE s.mem (HDRP bp) ≠ 0 ∨ GET_ALLOC s.mem (HDRP bp) = 0
      then [Diag.bad_epilogue] else []
    some (d1 ++ d2 ++ d3 ++ d4,
      HDRP s.heap_listp :: (checkblock_reads s.mem s.heap_listp ++ reads ++ [HDRP bp]), bp)

/-- The byte count that `extend_heap(words)` passes to the growth primitive:
an even number of words, and at least the minimum block size. -/
def ext_size (words : Nat) : Nat :=
  let size := if words % 2 ≠ 0 then ((words + 1) * WSIZE) % 2 ^ 64 else (words * WSIZE) % 2 ^ 64
  if size < BLOCKSIZE then BLOCKSIZE else size

/-! ## Observations used in the statements -/

/-- Between `s` and `s1` the growth primitive was called once and signalled
failure: one request was logged, and the range could not grow by that much. -/
def growth_failed (s s1 : State) : Prop :=
  ∃ k, s1.sbrk_log = k :: s.sbrk_log ∧ s.heap_max < s.brk + k

/-- Memory in which every byte is zero. -/
def zmem : Mem := fun _ => 0

/-- The heap right after `mm_init`, on a machine whose range starts at address
1000 and may grow to 4096 bytes. -/
def s0 : State := (mm_init (machine zmem 1000 4096)).2

/-- Memory whose bytes below address 1000 hold 1, and 0 from there on. -/
def lowmem : Mem := fun a => if a < 1000 then 1 else 0

/-- The heap right after `mm_init` on a machine whose range cannot grow beyond
the 72 bytes that `mm_init` takes. -/
def sfull : State := (mm_init (machine lowmem 1000 72)).2

/-- The state after a call that returned `r`; the state `s` itself if the call
did not return. -/
def stateOf (s : State) (r : Option (Nat × State)) : State :=
  match r with
  | some x => x.2
  | none => s

/-- The heap `s0` after `mm_malloc(100)`, which returns the block at 1048. -/
def s100 : State := stateOf s0 (mm_malloc s0 100)

/-- The heap `s100` after the client stored the byte 170 at offset 16 of the block. -/
def s100w : State := { s100 with mem := store8 s100.mem (1048 + 16) 170 }

/-- The heap `s100w` after `mm_realloc(1048, 2^64 - 1)`. -/
def s100r : State := stateOf s100w (mm_realloc s100w 1048 (2 ^ 64 - 1))

/-- The heap `s0` after `mm_malloc(40)`, which returns the block at 1048. -/
def s40 : State := stateOf s0 (mm_malloc s0 40)

theorem and_div8 (a b : Nat) : (a &&& b) / 8 = (a / 8) &&& (b / 8) := by
  have h : ∀ x : Nat, x / 8 = x / 2 / 2 / 2 := by intro x; omega
  rw [h, h a, h b, Nat.and_div_two, Nat.and_div_two, Nat.and_div_two]

theorem and_mask32 (w : Nat) (h : w < 2 ^ 32) : w &&& 0xFFFFFFF8 = w - w % 8 := by
  have h1 : (w &&& 0xFFFFFFF8) / 8 = w / 8 := by
    rw [and_div8]
    have : (0xFFFFFFF8 : Nat) / 8 = 2 ^ 29 - 1 := by norm_num
    rw [this, Nat.and_pow_two_sub_one_eq_mod]
    omega
  have h2 : (w &&& 0xFFFFFFF8) % 8 = 0 := by
    have e : (8 : Nat) = 2 ^ 3 := by norm_num
    rw [e, ← Nat.and_pow_two_sub_one_eq_mod, Nat.and_assoc]
    have : (0xFFFFFFF8 : Nat) &&& (2 ^ 3 - 1) = 0 := by decide
    rw [this, Nat.and_zero]
  omega

theorem and_mask64 (w : Nat) (h : w < 2 ^ 64) : w &&& 0xFFFFFFFFFFFFFFF8 = w - w % 8 := by
  have h1 : (w &&& 0xFFFFFFFFFFFFFFF8) / 8 = w / 8 := by
    rw [and_div8]
    have : (0xFFFFFFFFFFFFFFF8 : Nat) / 8 = 2 ^ 61 - 1 := by norm_num
    rw [this, Nat.and_pow_two_sub_one_eq_mod]
    omega
  have h2 : (w &&& 0xFFFFFFFFFFFFFFF8) % 8 = 0 := by
    have e : (8 : Nat) = 2 ^ 3 := by norm_num
    rw [e, ← Nat.and_pow_two_sub_one_eq_mod, Nat.and_assoc]
    have : (0xFFFFFFFFFFFFFFF8 : Nat) &&& (2 ^ 3 - 1) = 0 := by decide
    rw [this, Nat.and_zero]
  omega

theorem PACK_eq (sz a : Nat) (h : sz % 8 = 0) (ha : a < 8) : PACK sz a = sz + a := by
  unfold PACK
  have := Nat.mul_add_lt_is_or (i := 3) (b := a) (by simpa using ha) (sz / 8)
  have e : 2 ^ 3 * (sz / 8) = sz := by omega
  rw [e] at this
  exact this.symm

theorem ALIGN_eq (p : Nat) : ALIGN p = (p + 7) % 2 ^ 64 - ((p + 7) % 2 ^ 64) % 8 := by
  unfold ALIGN ALIGNMENT
  exact and_mask64 _ (Nat.mod_lt _ (by norm_num))

theorem adjusted_eq (n : Nat) (h0 : 0 < n) (h : n ≤ 2 ^ 64 - 16) :
    adjusted n = if n ≤ 16 then 24 else (n + 7) / 8 * 8 + 8 := by
  unfold adjusted MAX DSIZE BLOCKSIZE
  rw [ALIGN_eq]
  split <;> split <;> omega

theorem adjusted_wrap (n : Nat) (h : 2 ^ 64 - 16 < n) (h2 : n < 2 ^ 64) : adjusted n = 24 := by
  unfold adjusted MAX DSIZE BLOCKSIZE
  rw [ALIGN_eq]
  split <;> omega

/-- The adjusted size is a multiple of 8, at least 24, below `2^64`. -/
theorem adjusted_facts (n : Nat) :
    24 ≤ adjusted n ∧ adjusted n % 8 = 0 ∧ adjusted n < 2 ^ 64 := by
  unfold adjusted MAX DSIZE BLOCKSIZE
  rw [ALIGN_eq]
  split <;> omega

/-! ## Reads and writes -/

theorem rd8_lt (m : Mem) (a : Nat) : rd8 m a < 256 := Nat.mod_lt _ (by norm_num)

theorem rd8_wrBytes (k : Nat) (m : Mem) (a v x : Nat) :
    rd8 (wrBytes k m a v) x = if a ≤ x ∧ x < a + k then (v / 256 ^ (x - a)) % 256 else rd8 m x := by
  unfold rd8 wrBytes
  split
  · exact Nat.mod_mod _ _
  · rfl

theorem rd8_wrBytes_out (k : Nat) (m : Mem) (a v x : Nat) (h : x < a ∨ a + k ≤ x) :
    rd8 (wrBytes k m a v) x = rd8 m x := by
  rw [rd8_wrBytes, if_neg]; omega

theorem GET_lt (m : Mem) (p : Nat) : GET m p < 2 ^ 32 := by
  unfold GET
  have h0 := rd8_lt m p
  have h1 := rd8_lt m (p + 1)
  have h2 := rd8_lt m (p + 2)
  have h3 := rd8_lt m (p + 3)
  omega

theorem rd64_lt (m : Mem) (p : Nat) : rd64 m p < 2 ^ 64 := by
  unfold rd64
  have h0 := rd8_lt m p
  have h1 := rd8_lt m (p + 1)
  have h2 := rd8_lt m (p + 2)
  have h3 := rd8_lt m (p + 3)
  have h4 := rd8_lt m (p + 4)
  have h5 := rd8_lt m (p + 5)
  have h6 := rd8_lt m (p + 6)
  have h7 := rd8_lt m (p + 7)
  omega

/-- Two memories that agree on the four bytes at `p` give the same word. -/
theorem GET_congr (m m1 : Mem) (p : Nat)
    (h : ∀ x, p ≤ x → x < p + 4 → rd8 m1 x = rd8 m x) : GET m1 p = GET m p := by
  unfold GET
  rw [h p (by omega) (by omega), h (p + 1) (by omega) (by omega),
    h (p + 2) (by omega) (by omega), h (p + 3) (by omega) (by omega)]

/-- Two memories that agree on the eight bytes at `p` give the same pointer. -/
theorem rd64_congr (m m1 : Mem) (p : Nat)
    (h : ∀ x, p ≤ x → x < p + 8 → rd8 m1 x = rd8 m x) : rd64 m1 p = rd64 m p := by
  unfold rd64
  rw [h p (by omega) (by omega), h (p + 1) (by omega) (by omega),
    h (p + 2) (by omega) (by omega), h (p + 3) (by omega) (by omega),
    h (p + 4) (by omega) (by omega), h (p + 5) (by omega) (by omega),
    h (p + 6) (by omega) (by omega), h (p + 7) (by omega) (by omega)]

theorem GET_PUT_same (m : Mem) (p v : Nat) : GET (PUT m p v) p = v % 2 ^ 32 := by
  unfold GET PUT
  simp only [rd8_wrBytes]
  rw [if_pos (by omega), if_pos (by omega), if_pos (by omega), if_pos (by omega)]
  have e0 : p - p = 0 := by omega
  have e1 : p + 1 - p = 1 := by omega
  have e2 : p + 2 - p = 2 := by omega
  have e3 : p + 3 - p = 3 := by omega
  rw [e0, e1, e2, e3]
  norm_num
  omega

theorem rd64_wr64_same (m : Mem) (p v : Nat) : rd64 (wr64 m p v) p = v % 2 ^ 64 := by
  unfold rd64 wr64
  simp only [rd8_wrBytes]
  rw [if_pos (by omega), if_pos (by omega), if_pos (by omega), if_pos (by omega),
    if_pos (by omega), if_pos (by omega), if_pos (by omega), if_pos (by omega)]
  have e0 : p - p = 0 := by omega
  have e1 : p + 1 - p = 1 := by omega
  have e2 : p + 2 - p = 2 := by omega
  have e3 : p + 3 - p = 3 := by omega
  have e4 : p + 4 - p = 4 := by omega
  have e5 : p + 5 - p = 5 := by omega
  have e6 : p + 6 - p = 6 := by omega
  have e7 : p + 7 - p = 7 := by omega
  rw [e0, e1, e2, e3, e4, e5, e6, e7]
  norm_num
  omega

/-- The memory `m1` differs from `m` at most on the `k` bytes from `p`. -/
theorem sameOutside_wrBytes (k : Nat) (m : Mem) (p v : Nat) :
    sameOutside m (wrBytes k m p v) p k := by
  intro x hx
  exact rd8_wrBytes_out k m p v x hx

theorem GET_of_sameOutside {m m1 : Mem} {p k : Nat} (h : sameOutside m m1 p k) (q : Nat)
    (hq : q + 4 ≤ p ∨ p + k ≤ q) : GET m1 q = GET m q :=
  GET_congr m m1 q (fun x h1 h2 => h x (by omega))

theorem rd64_of_sameOutside {m m1 : Mem} {p k : Nat} (h : sameOutside m m1 p k) (q : Nat)
    (hq : q + 8 ≤ p ∨ p + k ≤ q) : rd64 m1 q = rd64 m q :=
  rd64_congr m m1 q (fun x h1 h2 => h x (by omega))

theorem GET_PUT_disj (m : Mem) (p v q : Nat) (h : q + 4 ≤ p ∨ p + 4 ≤ q) :
    GET (PUT m p v) q = GET m q :=
  GET_of_sameOutside (sameOutside_wrBytes 4 m p v) q h

theorem GET_wr64_disj (m : Mem) (p v q : Nat) (h : q + 4 ≤ p ∨ p + 8 ≤ q) :
    GET (wr64 m p v) q = GET m q :=
  GET_of_sameOutside (sameOutside_wrBytes 8 m p v) q h

theorem rd64_wr64_disj (m : Mem) (p v q : Nat) (h : q + 8 ≤ p ∨ p + 8 ≤ q) :
    rd64 (wr64 m p v) q = rd64 m q :=
  rd64_of_sameOutside (sameOutside_wrBytes 8 m p v) q h

theorem rd64_PUT_disj (m : Mem) (p v q : Nat) (h : q + 8 ≤ p ∨ p + 4 ≤ q) :
    rd64 (PUT m p v) q = rd64 m q :=
  rd64_of_sameOutside (sameOutside_wrBytes 4 m p v) q h

/-! ## Header words -/

theorem Blk.word_lt (b : Blk) (h : b.size < 2 ^ 31) (h8 : b.size % 8 = 0) : b.word < 2 ^ 31 := by
  unfold Blk.word
  cases b.alloc <;> simp <;> omega

/-- Reading the size field of a header that holds the word of `b`. -/
theorem GET_SIZE_word (m : Mem) (p : Nat) (b : Blk) (hg : GET m p = b.word)
    (h8 : b.size % 8 = 0) (hlt : b.size < 2 ^ 31) : GET_SIZE m p = b.size := by
  unfold GET_SIZE int_to_size_t
  have hw := Blk.word_lt b hlt h8
  rw [hg, and_mask32 _ (by omega)]
  unfold Blk.word at *
  cases b.alloc <;> simp at * <;> split <;> omega

/-- Reading the allocation bit of a header that holds the word of `b`. -/
theorem GET_ALLOC_word (m : Mem) (p : Nat) (b : Blk) (hg : GET m p = b.word)
    (h8 : b.size % 8 = 0) : GET_ALLOC m p = b.alloc.toNat := by
  unfold GET_ALLOC
  rw [hg, Nat.and_one_is_mod]
  unfold Blk.word
  cases b.alloc <;> simp <;> omega

theorem PACK_word (b : Blk) (h8 : b.size % 8 = 0) : PACK b.size b.alloc.toNat = b.word := by
  unfold Blk.word
  apply PACK_eq _ _ h8
  cases b.alloc <;> simp

/-! ## Runs of blocks -/

theorem endAddr_append (a : Nat) (xs ys : List Blk) :
    endAddr a (xs ++ ys) = endAddr (endAddr a xs) ys := by
  induction xs generalizing a with
  | nil => rfl
  | cons b xs ih => simp [endAddr, ih]

theorem le_endAddr (a : Nat) (bs : List Blk) : a ≤ endAddr a bs := by
  induction bs generalizing a with
  | nil => exact Nat.le_refl _
  | cons b bs ih => exact Nat.le_trans (Nat.le_add_right _ _) (ih _)

theorem addrs_append (a : Nat) (xs ys : List Blk) :
    addrs a (xs ++ ys) = addrs a xs ++ addrs (endAddr a xs) ys := by
  induction xs generalizing a with
  | nil => rfl
  | cons b xs ih => simp [addrs, endAddr, ih]

theorem heapBlocks_append (m : Mem) (a : Nat) (xs ys : List Blk) :
    heapBlocks m a (xs ++ ys) ↔ heapBlocks m a xs ∧ heapBlocks m (endAddr a xs) ys := by
  induction xs generalizing a with
  | nil => simp [heapBlocks, endAddr]
  | cons b xs ih => simp [heapBlocks, endAddr, ih, and_assoc]

theorem freeAddrs_append (a : Nat) (xs ys : List Blk) :
    freeAddrs a (xs ++ ys) = freeAddrs a xs ++ freeAddrs (endAddr a xs) ys := by
  simp [freeAddrs, addrs_append]

theorem allocAddrs_append (a : Nat) (xs ys : List Blk) :
    allocAddrs a (xs ++ ys) = allocAddrs a xs ++ allocAddrs (endAddr a xs) ys := by
  simp [allocAddrs, addrs_append]

theorem freeAddrs_cons (a : Nat) (b : Blk) (bs : List Blk) :
    freeAddrs a (b :: bs) =
      (if b.alloc then [] else [a]) ++ freeAddrs (a + b.size) bs := by
  cases h : b.alloc <;> simp [freeAddrs, addrs, List.filter, h]

theorem allocAddrs_cons (a : Nat) (b : Blk) (bs : List Blk) :
    allocAddrs a (b :: bs) =
      (if b.alloc then [a] else []) ++ allocAddrs (a + b.size) bs := by
  cases h : b.alloc <;> simp [allocAddrs, addrs, List.filter, h]

theorem mem_freeAddrs (a : Nat) (bs : List Blk) (y : Nat) :
    y ∈ freeAddrs a bs ↔ ∃ b, (y, b) ∈ addrs a bs ∧ b.alloc = false := by
  simp [freeAddrs]

theorem mem_allocAddrs (a : Nat) (bs : List Blk) (y : Nat) :
    y ∈ allocAddrs a bs ↔ ∃ b, (y, b) ∈ addrs a bs ∧ b.alloc = true := by
  simp [allocAddrs]

/-- A member of a run: where it lies and what memory holds for it. -/
theorem mem_addrs_facts (m : Mem) (a : Nat) (bs : List Blk) (y : Nat) (b : Blk)
    (hb : heapBlocks m a bs) (hy : (y, b) ∈ addrs a bs) :
    a ≤ y ∧ y + b.size ≤ endAddr a bs ∧ 24 ≤ b.size ∧ b.size % 8 = 0 ∧
      GET m (y - 4) = b.word ∧ GET m (y + b.size - 8) = b.word ∧ y % 8 = a % 8 := by
  induction bs generalizing a with
  | nil => simp [addrs] at hy
  | cons c bs ih =>
    simp only [heapBlocks, BLOCKSIZE] at hb
    obtain ⟨h1, h2, h3, h4, h5⟩ := hb
    simp only [addrs, List.mem_cons, Prod.mk.injEq] at hy
    rcases hy with ⟨rfl, rfl⟩ | hy
    · have := le_endAddr (y + b.size) bs
      simp only [endAddr]
      exact ⟨Nat.le_refl _, this, h1, h2, h3, h4, trivial⟩
    · have := ih (a + c.size) h5 hy
      simp only [endAddr]
      omega

/-- Every member of a run splits the run. -/
theorem addrs_split (a : Nat) (bs : List Blk) (y : Nat) (b : Blk)
    (hy : (y, b) ∈ addrs a bs) :
    ∃ pre post, bs = pre ++ b :: post ∧ y = endAddr a pre := by
  induction bs generalizing a with
  | nil => simp [addrs] at hy
  | cons c bs ih =>
    simp only [addrs, List.mem_cons, Prod.mk.injEq] at hy
    rcases hy with ⟨rfl, rfl⟩ | hy
    · exact ⟨[], bs, rfl, rfl⟩
    · obtain ⟨pre, post, h1, h2⟩ := ih (a + c.size) hy
      exact ⟨c :: pre, post, by simp [h1], by simp [endAddr, h2]⟩

theorem mem_addrs_mid (a : Nat) (pre post : List Blk) (b : Blk) :
    (endAddr a pre, b) ∈ addrs a (pre ++ b :: post) := by
  simp [addrs_append, addrs]

/-- Two members of a run are the same block or do not overlap. -/
theorem addrs_disjoint (m : Mem) (a : Nat) (bs : List Blk) (y z : Nat) (b c : Blk)
    (hb : heapBlocks m a bs) (hy : (y, b) ∈ addrs a bs) (hz : (z, c) ∈ addrs a bs) :
    (y = z ∧ b = c) ∨ y + b.size ≤ z ∨ z + c.size ≤ y := by
  induction bs generalizing a with
  | nil => simp [addrs] at hy
  | cons d bs ih =>
    have hb2 : heapBlocks m (a + d.size) bs := by
      simp only [heapBlocks] at hb; exact hb.2.2.2.2
    simp only [addrs, List.mem_cons, Prod.mk.injEq] at hy hz
    rcases hy with ⟨rfl, rfl⟩ | hy <;> rcases hz with ⟨rfl, rfl⟩ | hz
    · exact Or.inl ⟨rfl, rfl⟩
    · have := mem_addrs_facts m _ bs z c hb2 hz
      omega
    · have := mem_addrs_facts m _ bs y b hb2 hy
      omega
    · exact ih _ hb2 hy hz

/-- Memories that agree on the bytes of a run hold the same run. -/
theorem heapBlocks_of_agree (m m1 : Mem) (a : Nat) (bs : List Blk) (ha : 4 ≤ a)
    (h : ∀ x, a - 4 ≤ x → x < endAddr a bs - 4 → rd8 m1 x = rd8 m x)
    (hb : heapBlocks m a bs) : heapBlocks m1 a bs := by
  induction bs generalizing a with
  | nil => trivial
  | cons b bs ih =>
    simp only [heapBlocks, BLOCKSIZE] at hb ⊢
    obtain ⟨h1, h2, h3, h4, h5⟩ := hb
    have he := le_endAddr (a + b.size) bs
    simp only [endAddr] at h
    refine ⟨h1, h2, ?_, ?_, ?_⟩
    · rw [← h3]; exact GET_congr m m1 _ (fun x hx1 hx2 => h x (by omega) (by omega))
    · rw [← h4]; exact GET_congr m m1 _ (fun x hx1 hx2 => h x (by omega) (by omega))
    · exact ih (a + b.size) (by omega) (fun x hx1 hx2 => h x (by omega) (by omega)) h5

/-- A change confined to the payload of one block of the run keeps the run. -/
theorem heapBlocks_payload (m m1 : Mem) (a : Nat) (bs : List Blk) (p k y : Nat) (b : Blk)
    (ha : 4 ≤ a) (hs : sameOutside m m1 p k) (hy : (y, b) ∈ addrs a bs)
    (h1 : y ≤ p) (h2 : p + k ≤ y + b.size - 8)
    (hb : heapBlocks m a bs) : heapBlocks m1 a bs := by
  obtain ⟨pre, post, rfl, rfl⟩ := addrs_split a bs y b hy
  rw [heapBlocks_append] at hb ⊢
  obtain ⟨hpre, hmid⟩ := hb
  have hle := le_endAddr a pre
  simp only [heapBlocks, BLOCKSIZE] at hmid ⊢
  obtain ⟨g1, g2, g3, g4, g5⟩ := hmid
  refine ⟨?_, g1, g2, ?_, ?_, ?_⟩
  · exact heapBlocks_of_agree m m1 a pre ha (fun x hx1 hx2 => hs x (by omega)) hpre
  · rw [← g3]; exact GET_of_sameOutside hs _ (by omega)
  · rw [← g4]; exact GET_of_sameOutside hs _ (by omega)
  · exact heapBlocks_of_agree m m1 _ post (by omega) (fun x hx1 hx2 => hs x (by omega)) g5

/-- A change outside the bytes of the run keeps the run. -/
theorem heapBlocks_outside (m m1 : Mem) (a : Nat) (bs : List Blk) (p k : Nat)
    (ha : 4 ≤ a) (hs : sameOutside m m1 p k)
    (h : p + k ≤ a - 4 ∨ endAddr a bs - 4 ≤ p)
    (hb : heapBlocks m a bs) : heapBlocks m1 a bs :=
  heapBlocks_of_agree m m1 a bs ha (fun x hx1 hx2 => hs x (by omega)) hb

/-! ## The free list as a chain of links -/

theorem freeChain_congr (m m1 : Mem) (stop : Nat) (fl : List Nat) (p c : Nat)
    (h : ∀ y, y ∈ fl → rd64 m1 y = rd64 m y ∧ rd64 m1 (y + 8) = rd64 m (y + 8))
    (hc : freeChain m stop p c fl) : freeChain m1 stop p c fl := by
  induction fl generalizing p c with
  | nil => exact hc
  | cons x xs ih =>
    simp only [freeChain, PREV_FBLKP, NEXT_FBLKP, DSIZE] at hc ⊢
    obtain ⟨h1, h2, h3⟩ := hc
    have hx := h x (List.mem_cons_self _ _)
    refine ⟨h1, by rw [hx.1]; exact h2, ?_⟩
    rw [hx.2]
    exact ih _ _ (fun y hy => h y (List.mem_cons_of_mem _ hy)) h3

theorem freeChain_append (m : Mem) (stop : Nat) (l1 l2 : List Nat) (p c : Nat) :
    freeChain m stop p c (l1 ++ l2) ↔
      ∃ mid, freeChain m mid p c l1 ∧ freeChain m stop (l1.getLastD p) mid l2 := by
  induction l1 generalizing p c with
  | nil => simp [freeChain]
  | cons x xs ih =>
    show freeChain m stop p c (x :: (xs ++ l2)) ↔ _
    simp only [freeChain, List.getLastD_cons]
    rw [ih]
    constructor
    · rintro ⟨h1, h2, mid, h3, h4⟩
      exact ⟨mid, ⟨h1, h2, h3⟩, h4⟩
    · rintro ⟨mid, ⟨h1, h2, h3⟩, h4⟩
      exact ⟨h1, h2, mid, h3, h4⟩

/-- A chain is a chain towards wherever its last successor link points. -/
theorem freeChain_retarget (m : Mem) (stop : Nat) (fl : List Nat) (p c : Nat)
    (hc : freeChain m stop p c fl) (hne : fl ≠ []) (stop1 : Nat)
    (hl : NEXT_FBLKP m (fl.getLastD p) = stop1) : freeChain m stop1 p c fl := by
  induction fl generalizing p c with
  | nil => exact absurd rfl hne
  | cons x xs ih =>
    simp only [freeChain] at hc ⊢
    obtain ⟨h1, h2, h3⟩ := hc
    refine ⟨h1, h2, ?_⟩
    cases xs with
    | nil =>
      simp only [freeChain]
      simpa using hl
    | cons y ys =>
      apply ih _ _ h3 (by simp)
      simpa using hl

theorem slotsSep_sub (stop : Nat) (l l1 : List Nat) (h : slotsSep stop l)
    (hs : ∀ y, y ∈ l1 → y ∈ l) : slotsSep stop l1 :=
  ⟨fun y hy => h.1 y (hs y hy), fun y hy z hz => h.2 y (hs y hy) z (hs z hz)⟩

/-- Storing a new predecessor link in the block the chain starts at. -/
theorem freeChain_set_prev (m : Mem) (stop : Nat) (fl : List Nat) (q n v : Nat)
    (hv : v < 2 ^ 64) (hsep : slotsSep stop fl) (hnd : fl.Nodup)
    (hc : freeChain m stop q n fl) : freeChain (wr64 m n v) stop v n fl := by
  cases fl with
  | nil => exact hc
  | cons y ys =>
    simp only [freeChain, PREV_FBLKP, NEXT_FBLKP, DSIZE] at hc ⊢
    obtain ⟨h1, h2, h3⟩ := hc
    subst h1
    refine ⟨rfl, ?_, ?_⟩
    · rw [rd64_wr64_same]; omega
    · rw [rd64_wr64_disj _ _ _ _ (by omega)]
      apply freeChain_congr m _ stop ys _ _ _ h3
      intro z hz
      have hzy := hsep.2 z (List.mem_cons_of_mem _ hz) n (List.mem_cons_self _ _)
      have hne : z ≠ n := by
        rintro rfl
        exact (List.nodup_cons.mp hnd).1 hz
      exact ⟨rd64_wr64_disj _ _ _ _ (by omega), rd64_wr64_disj _ _ _ _ (by omega)⟩

theorem getLastD_mem (l : List Nat) (p : Nat) (h : l ≠ []) : l.getLastD p ∈ l := by
  induction l generalizing p with
  | nil => exact absurd rfl h
  | cons x xs ih =>
    rw [List.getLastD_cons]
    cases xs with
    | nil => simp
    | cons y ys => exact List.mem_cons_of_mem _ (ih _ (by simp))

/-- Storing a new successor link in the last block of a chain. -/
theorem freeChain_set_next (m : Mem) (stop : Nat) (fl : List Nat) (p c n : Nat)
    (hn : n < 2 ^ 64) (hsep : slotsSep stop fl) (hnd : fl.Nodup) (hne : fl ≠ [])
    (mid : Nat) (hc : freeChain m mid p c fl) :
    freeChain (wr64 m (fl.getLastD p + 8) n) n p c fl := by
  induction fl generalizing p c with
  | nil => exact absurd rfl hne
  | cons x xs ih =>
    simp only [freeChain, PREV_FBLKP, NEXT_FBLKP, DSIZE, List.getLastD_cons] at hc ⊢
    obtain ⟨h1, h2, h3⟩ := hc
    have hxs : slotsSep stop xs := slotsSep_sub stop _ _ hsep (fun y hy => List.mem_cons_of_mem _ hy)
    have hnd2 := (List.nodup_cons.mp hnd)
    cases xs with
    | nil =>
      simp only [List.getLastD_nil, freeChain]
      refine ⟨h1, ?_, ?_⟩
      · rw [rd64_wr64_disj _ _ _ _ (by omega)]; exact h2
      · rw [rd64_wr64_same]; omega
    | cons y ys =>
      have hl : (y :: ys).getLastD x ∈ (y :: ys) := getLastD_mem _ _ (by simp)
      have hne : (y :: ys).getLastD x ≠ x := by
        intro e
        rw [e] at hl
        exact hnd2.1 hl
      have hs := hsep.2 _ (List.mem_cons_of_mem _ hl) x (List.mem_cons_self _ _)
      refine ⟨h1, ?_, ?_⟩
      · rw [rd64_wr64_disj _ _ _ _ (by omega)]; exact h2
      · rw [rd64_wr64_disj _ _ _ _ (by omega)]
        exact ih _ _ hxs hnd2.2 (by simp) h3


theorem remove_block_head (s : State) (x : Nat) (h : PREV_FBLKP s.mem x = 0) :
    remove_block s x =
      { s with free_listp := NEXT_FBLKP s.mem x, mem := wr64 s.mem (NEXT_FBLKP s.mem x) 0 } := by
  unfold remove_block
  rw [if_neg (by simp [h])]
  simp only [h]

theorem remove_block_inner (s : State) (x z : Nat) (h : PREV_FBLKP s.mem x = z) (hz : z ≠ 0)
    (hzx : z + 16 ≤ x ∨ x + 16 ≤ z) :
    remove_block s x =
      { s with mem := wr64 (wr64 s.mem (z + 8) (NEXT_FBLKP s.mem x)) (NEXT_FBLKP s.mem x) z } := by
  unfold remove_block
  rw [if_pos (by rw [h]; exact hz)]
  have e1 : NEXT_FBLKP (wr64 s.mem (z + 8) (NEXT_FBLKP s.mem x)) x = NEXT_FBLKP s.mem x := by
    unfold NEXT_FBLKP DSIZE
    exact rd64_wr64_disj _ _ _ _ (by omega)
  have e2 : PREV_FBLKP (wr64 s.mem (z + 8) (NEXT_FBLKP s.mem x)) x = z := by
    unfold PREV_FBLKP at h ⊢
    rw [rd64_wr64_disj _ _ _ _ (by omega)]; exact h
  simp only [h, DSIZE, e1, e2]

/-- Unlinking an entry of the free list: the chain now visits the other entries,
and memory changed at most in link fields of entries and of the stop block. -/
theorem remove_block_chain (s : State) (stop : Nat) (fl : List Nat) (x : Nat)
    (hc : freeChain s.mem stop 0 s.free_listp fl) (hx : x ∈ fl) (hnd : fl.Nodup)
    (hsep : slotsSep stop fl) :
    freeChain (remove_block s x).mem stop 0 (remove_block s x).free_listp (fl.erase x) ∧
    (∀ q, (∀ y, y ∈ fl → q < y ∨ y + 16 ≤ q) → (q < stop ∨ stop + 8 ≤ q) →
      rd8 (remove_block s x).mem q = rd8 s.mem q) ∧
    (remove_block s x).heap_lo = s.heap_lo ∧ (remove_block s x).brk = s.brk ∧
    (remove_block s x).heap_max = s.heap_max ∧ (remove_block s x).heap_listp = s.heap_listp ∧
    (remove_block s x).sbrk_log = s.sbrk_log := by
  obtain ⟨l1, l2, rfl⟩ := List.append_of_mem hx
  have hnd1 := List.nodup_append.mp hnd
  have hxl1 : x ∉ l1 := fun h => hnd1.2.2 h (List.mem_cons_self _ _)
  have hnd2 := List.nodup_cons.mp hnd1.2.1
  have herase : (l1 ++ x :: l2).erase x = l1 ++ l2 := by
    rw [List.erase_append_right _ hxl1, List.erase_cons_head]
  rw [herase]
  rw [freeChain_append] at hc
  obtain ⟨mid, hc1, hc2⟩ := hc
  simp only [freeChain] at hc2
  obtain ⟨rfl, hprev, hc3⟩ := hc2
  have hsep2 : slotsSep stop l2 := slotsSep_sub stop _ _ hsep (by intro y hy; simp [hy])
  have hsep1 : slotsSep stop l1 := slotsSep_sub stop _ _ hsep (by intro y hy; simp [hy])
  have hnlt : NEXT_FBLKP s.mem mid < 2 ^ 64 := rd64_lt _ _
  -- the successor of `mid` is the head of `l2` or the stop block
  have hn : (NEXT_FBLKP s.mem mid = stop ∧ l2 = []) ∨ NEXT_FBLKP s.mem mid ∈ l2 := by
    cases l2 with
    | nil => left; exact ⟨hc3, rfl⟩
    | cons y ys => right; simp only [freeChain] at hc3; rw [hc3.1]; exact List.mem_cons_self _ _
  have hxs := hsep.1 mid (by simp)
  by_cases hne : l1 = []
  · subst hne
    simp only [List.getLastD_nil] at hprev
    rw [remove_block_head s mid hprev]
    simp only [List.nil_append]
    refine ⟨freeChain_set_prev _ stop l2 _ _ 0 (by norm_num) hsep2 hnd2.2 hc3, ?_, by simp⟩
    intro q hq1 hq2
    apply rd8_wrBytes_out
    rcases hn with ⟨e, _⟩ | hmem
    · rw [e]; omega
    · have := hq1 (NEXT_FBLKP s.mem mid) (by simp [hmem]); omega
  · have hzmem : l1.getLastD 0 ∈ l1 := getLastD_mem l1 0 hne
    have hzs := hsep.1 (l1.getLastD 0) (List.mem_append_left _ hzmem)
    have hzx := hsep.2 (l1.getLastD 0) (List.mem_append_left _ hzmem) mid (by simp)
    have hzne : l1.getLastD 0 ≠ mid := fun e => hxl1 (e ▸ hzmem)
    rw [remove_block_inner s mid _ hprev (by omega) (by omega)]
    refine ⟨?_, ?_, by simp⟩
    · simp only
      rw [freeChain_append]
      refine ⟨NEXT_FBLKP s.mem mid, ?_, ?_⟩
      · have h1 := freeChain_set_next s.mem stop l1 0 s.free_listp (NEXT_FBLKP s.mem mid) hnlt
          hsep1 hnd1.1 hne mid hc1
        apply freeChain_congr _ _ _ l1 _ _ _ h1
        intro y hy
        have hyn : y ≠ NEXT_FBLKP s.mem mid := by
          intro e
          rcases hn with ⟨e2, _⟩ | hmem
          · have := hsep.1 y (by simp [hy]); omega
          · exact hnd1.2.2 hy (List.mem_cons_of_mem _ (e ▸ hmem))
        have hys : y + 16 ≤ NEXT_FBLKP s.mem mid ∨ NEXT_FBLKP s.mem mid + 8 ≤ y := by
          rcases hn with ⟨e2, _⟩ | hmem
          · have := hsep.1 y (by simp [hy]); omega
          · have := hsep.2 y (by simp [hy]) _ (List.mem_append_right _ (List.mem_cons_of_mem _ hmem))
            omega
        exact ⟨rd64_wr64_disj _ _ _ _ (by omega), rd64_wr64_disj _ _ _ _ (by omega)⟩
      · apply freeChain_set_prev _ stop l2 mid _ _ (by omega) hsep2 hnd2.2
        apply freeChain_congr _ _ _ l2 _ _ _ hc3
        intro y hy
        have := hsep.2 y (by simp [hy]) _ (List.mem_append_left _ hzmem)
        have hyz : y ≠ l1.getLastD 0 := by
          intro e
          exact hnd1.2.2 hzmem (List.mem_cons_of_mem _ (e ▸ hy))
        exact ⟨rd64_wr64_disj _ _ _ _ (by omega), rd64_wr64_disj _ _ _ _ (by omega)⟩
    · intro q hq1 hq2
      simp only [wr64]
      rw [rd8_wrBytes_out, rd8_wrBytes_out]
      · have := hq1 _ (List.mem_append_left _ hzmem); omega
      · rcases hn with ⟨e, _⟩ | hmem
        · rw [e]; omega
        · have := hq1 (NEXT_FBLKP s.mem mid) (by simp [hmem]); omega

/-- Linking a new block before the head of the free list. -/
theorem insert_first_chain (s : State) (stop : Nat) (fl : List Nat) (x : Nat)
    (hc : freeChain s.mem stop 0 s.free_listp fl) (hx : x ∉ fl) (hnd : fl.Nodup)
    (hsep : slotsSep stop (x :: fl)) (hstop : stop < 2 ^ 64) :
    freeChain (insert_first s x).mem stop 0 x (x :: fl) ∧
    (insert_first s x).free_listp = x ∧
    (∀ q, (∀ y, y ∈ x :: fl → q < y ∨ y + 16 ≤ q) → (q < stop ∨ stop + 8 ≤ q) →
      rd8 (insert_first s x).mem q = rd8 s.mem q) := by
  have hxs := hsep.1 x (List.mem_cons_self _ _)
  have hsep2 : slotsSep stop fl := slotsSep_sub stop _ _ hsep (fun y hy => List.mem_cons_of_mem _ hy)
  -- the old head is the first entry or the stop block
  have hh : (s.free_listp = stop ∧ fl = []) ∨ s.free_listp ∈ fl := by
    cases fl with
    | nil => left; exact ⟨hc, rfl⟩
    | cons y ys => right; simp only [freeChain] at hc; rw [hc.1]; exact List.mem_cons_self _ _
  have hhx : s.free_listp + 8 ≤ x ∨ x + 16 ≤ s.free_listp := by
    rcases hh with ⟨e, _⟩ | hmem
    · omega
    · have := hsep.2 _ (List.mem_cons_of_mem _ hmem) x (List.mem_cons_self _ _)
      have : s.free_listp ≠ x := fun e => hx (e ▸ hmem)
      omega
  have hhlt : s.free_listp < 2 ^ 64 := by
    rcases hh with ⟨e, _⟩ | hmem
    · omega
    · have := hsep.1 _ (List.mem_cons_of_mem _ hmem); omega
  unfold insert_first
  simp only [DSIZE]
  refine ⟨?_, trivial, ?_⟩
  · simp only [freeChain, PREV_FBLKP, NEXT_FBLKP, DSIZE]
    refine ⟨trivial, ?_, ?_⟩
    · rw [rd64_wr64_same]; norm_num
    · rw [rd64_wr64_disj _ _ _ _ (by omega), rd64_wr64_disj _ _ _ _ (by omega), rd64_wr64_same,
        Nat.mod_eq_of_lt hhlt]
      have h1 : freeChain (wr64 s.mem (x + 8) s.free_listp) stop 0 s.free_listp fl := by
        apply freeChain_congr _ _ _ fl _ _ _ hc
        intro y hy
        have := hsep.2 y (List.mem_cons_of_mem _ hy) x (List.mem_cons_self _ _)
        have : y ≠ x := fun e => hx (e ▸ hy)
        exact ⟨rd64_wr64_disj _ _ _ _ (by omega), rd64_wr64_disj _ _ _ _ (by omega)⟩
      have h2 := freeChain_set_prev _ stop fl 0 s.free_listp x (by omega) hsep2 hnd h1
      apply freeChain_congr _ _ _ fl _ _ _ h2
      intro y hy
      have := hsep.2 y (List.mem_cons_of_mem _ hy) x (List.mem_cons_self _ _)
      have : y ≠ x := fun e => hx (e ▸ hy)
      exact ⟨rd64_wr64_disj _ _ _ _ (by omega), rd64_wr64_disj _ _ _ _ (by omega)⟩
  · intro q hq1 hq2
    simp only [wr64]
    have hqx := hq1 x (List.mem_cons_self _ _)
    rw [rd8_wrBytes_out _ _ _ _ _ (by omega), rd8_wrBytes_out, rd8_wrBytes_out _ _ _ _ _ (by omega)]
    rcases hh with ⟨e, _⟩ | hmem
    · rw [e]; omega
    · have := hq1 _ (List.mem_cons_of_mem _ hmem); omega

/-! ## Consequences of the heap description -/

theorem HeapCore.bounds {s : State} {bs : List Blk} {fl : List Nat} (h : HeapCore s bs fl) :
    s.heap_lo + 48 ≤ s.brk ∧ s.brk ≤ 2 ^ 63 ∧ s.brk - s.heap_lo < 2 ^ 31 := by
  have h1 := le_endAddr (s.heap_lo + 48) bs
  have h2 := h.brk_eq
  have h3 := h.brk_le
  have h4 := h.max_le
  have h5 := h.cap_lt
  omega

/-- What the heap description says about one of its blocks. -/
theorem HeapCore.mem_facts {s : State} {bs : List Blk} {fl : List Nat} (h : HeapCore s bs fl)
    {y : Nat} {b : Blk} (hy : (y, b) ∈ addrs (s.heap_lo + 48) bs) :
    s.heap_lo + 48 ≤ y ∧ y + b.size ≤ s.brk ∧ 24 ≤ b.size ∧ b.size % 8 = 0 ∧
      b.size < 2 ^ 31 ∧ GET s.mem (y - 4) = b.word ∧ GET s.mem (y + b.size - 8) = b.word ∧
      GET_SIZE s.mem (y - 4) = b.size ∧ GET_ALLOC s.mem (y - 4) = b.alloc.toNat ∧
      GET_SIZE s.mem (y + b.size - 8) = b.size ∧
      GET_ALLOC s.mem (y + b.size - 8) = b.alloc.toNat ∧ y % 8 = s.heap_lo % 8 := by
  obtain ⟨h1, h2, h3, h4, h5, h6, h7⟩ := mem_addrs_facts s.mem _ bs y b h.blocks hy
  have hb := h.bounds
  have hbrk := h.brk_eq
  have hlt : b.size < 2 ^ 31 := by omega
  exact ⟨h1, by omega, h3, h4, hlt, h5, h6, GET_SIZE_word _ _ b h5 h4 hlt,
    GET_ALLOC_word _ _ b h5 h4, GET_SIZE_word _ _ b h6 h4 hlt, GET_ALLOC_word _ _ b h6 h4,
    by omega⟩

/-- The link fields of block pointers of the heap do not overlap. -/
theorem HeapCore.sep {s : State} {bs : List Blk} {fl : List Nat} (h : HeapCore s bs fl)
    (l : List Nat) (hl : ∀ y, y ∈ l → ∃ b, (y, b) ∈ addrs (s.heap_lo + 48) bs) :
    slotsSep (s.heap_lo + 8) l := by
  have hb := h.bounds
  constructor
  · intro y hy
    obtain ⟨b, hyb⟩ := hl y hy
    have := h.mem_facts hyb
    omega
  · intro y hy z hz
    obtain ⟨b, hyb⟩ := hl y hy
    obtain ⟨c, hzc⟩ := hl z hz
    have h1 := h.mem_facts hyb
    have h2 := h.mem_facts hzc
    rcases addrs_disjoint s.mem _ bs y z b c h.blocks hyb hzc with ⟨rfl, rfl⟩ | hd | hd <;> omega

theorem HeapCore.sep_fl {s : State} {bs : List Blk} {fl : List Nat} (h : HeapCore s bs fl) :
    slotsSep (s.heap_lo + 8) fl :=
  h.sep fl h.fl_blk

/-- A change that leaves every header and footer byte of a run alone keeps the run. -/
theorem heapBlocks_of_tags (m m1 : Mem) (a : Nat) (bs : List Blk) (ha : 4 ≤ a)
    (h : ∀ y b, (y, b) ∈ addrs a bs → ∀ q,
      (y - 4 ≤ q ∧ q < y) ∨ (y + b.size - 8 ≤ q ∧ q < y + b.size - 4) → rd8 m1 q = rd8 m q)
    (hb : heapBlocks m a bs) : heapBlocks m1 a bs := by
  induction bs generalizing a with
  | nil => trivial
  | cons b bs ih =>
    simp only [heapBlocks, BLOCKSIZE] at hb ⊢
    obtain ⟨h1, h2, h3, h4, h5⟩ := hb
    have hm : (a, b) ∈ addrs a (b :: bs) := by simp [addrs]
    refine ⟨h1, h2, ?_, ?_, ?_⟩
    · rw [← h3]; exact GET_congr m m1 _ (fun x hx1 hx2 => h a b hm x (by omega))
    · rw [← h4]; exact GET_congr m m1 _ (fun x hx1 hx2 => h a b hm x (by omega))
    · exact ih (a + b.size) (by omega)
        (fun y c hy q hq => h y c (by simp [addrs, hy]) q hq) h5

/-- A change confined to payloads keeps the prologue, the gap word, every
header and footer, and the epilogue. -/
theorem Heap.static_frame {s : State} {bs : List Blk} {fl : List Nat} (h : Heap s bs fl)
    (m1 : Mem) (hf : payloadOnly s bs m1) :
    GET m1 (s.heap_lo + 4) = 25 ∧ GET m1 (s.heap_lo + 24) = 25 ∧ GET m1 (s.heap_lo + 40) = 0 ∧
      heapBlocks m1 (s.heap_lo + 48) bs ∧ GET m1 (s.brk - 4) = 1 := by
  have hb := h.bounds
  have out : ∀ q, (q < s.heap_lo + 8 ∨ s.heap_lo + 16 ≤ q) →
      (q < s.heap_lo + 44 ∨ s.brk - 4 ≤ q) → rd8 m1 q = rd8 s.mem q := by
    intro q hq1 hq2
    apply hf q hq1
    intro y b hy
    have := h.toHeapCore.mem_facts hy
    omega
  refine ⟨?_, ?_, ?_, ?_, ?_⟩
  · rw [← h.pro_hdr]; exact GET_congr _ _ _ (fun x h1 h2 => out x (by omega) (by omega))
  · rw [← h.pro_ftr]; exact GET_congr _ _ _ (fun x h1 h2 => out x (by omega) (by omega))
  · rw [← h.gap]; exact GET_congr _ _ _ (fun x h1 h2 => out x (by omega) (by omega))
  · apply heapBlocks_of_tags s.mem m1 _ bs (by omega) _ h.blocks
    intro y b hy q hq
    have hyf := h.toHeapCore.mem_facts hy
    apply hf q (by omega)
    intro z c hz
    have hzf := h.toHeapCore.mem_facts hz
    rcases addrs_disjoint s.mem _ bs y z b c h.blocks hy hz with ⟨rfl, rfl⟩ | hd | hd <;> omega
  · rw [← h.epilogue]; exact GET_congr _ _ _ (fun x h1 h2 => out x (by omega) (by omega))

/-- Unlinking an entry keeps the heap, with the entry erased from the free list. -/
theorem Heap.remove_block {s : State} {bs : List Blk} {fl : List Nat} (h : Heap s bs fl)
    {x : Nat} (hx : x ∈ fl) :
    Heap (remove_block s x) bs (fl.erase x) ∧
      (∀ q, (∀ y, y ∈ fl → q < y ∨ y + 16 ≤ q) → (q < s.heap_lo + 8 ∨ s.heap_lo + 16 ≤ q) →
        rd8 (Malloc.remove_block s x).mem q = rd8 s.mem q) ∧
      (Malloc.remove_block s x).heap_lo = s.heap_lo ∧ (Malloc.remove_block s x).brk = s.brk ∧
      (Malloc.remove_block s x).heap_max = s.heap_max ∧
      (Malloc.remove_block s x).sbrk_log = s.sbrk_log := by
  obtain ⟨hc, hfr, e1, e2, e3, e4, e5⟩ :=
    remove_block_chain s (s.heap_lo + 8) fl x h.chain hx h.nodup h.toHeapCore.sep_fl
  have hpo : payloadOnly s bs (Malloc.remove_block s x).mem := by
    intro q hq1 hq2
    apply hfr q _ hq1
    intro y hy
    obtain ⟨b, hyb⟩ := h.fl_blk y hy
    have := h.toHeapCore.mem_facts hyb
    have := hq2 y b hyb
    omega
  obtain ⟨g1, g2, g3, g4, g5⟩ := h.static_frame _ hpo
  refine ⟨⟨⟨?_, ?_, ?_, ?_, ?_, ?_, ?_, ?_, ?_, ?_, ?_, ?_, ?_⟩, ?_⟩, hfr, e1, e2, e3, e5⟩
  · rw [e1]; exact h.lo_pos
  · rw [e1, e4]; exact h.listp
  · rw [e2, e3]; exact h.brk_le
  · rw [e3]; exact h.max_le
  · rw [e1, e3]; exact h.cap_lt
  · rw [e1]; exact g1
  · rw [e1]; exact g2
  · rw [e1]; exact g3
  · rw [e1]; exact g4
  · rw [e1, e2]; exact h.brk_eq
  · rw [e1]; exact hc
  · exact h.nodup.erase x
  · intro y hy
    rw [e1]
    exact h.fl_blk y (List.mem_of_mem_erase hy)
  · rw [e2]; exact g5

/-- Linking a block of the heap that is not yet an entry keeps the heap, with
the block as the new head of the free list. -/
theorem Heap.insert_first {s : State} {bs : List Blk} {fl : List Nat} (h : Heap s bs fl)
    {x : Nat} (hx : x ∉ fl) (hxb : ∃ b, (x, b) ∈ addrs (s.heap_lo + 48) bs) :
    Heap (insert_first s x) bs (x :: fl) ∧ (Malloc.insert_first s x).free_listp = x ∧
      (∀ q, (∀ y, y ∈ x :: fl → q < y ∨ y + 16 ≤ q) → (q < s.heap_lo + 8 ∨ s.heap_lo + 16 ≤ q) →
        rd8 (Malloc.insert_first s x).mem q = rd8 s.mem q) := by
  have hblk : ∀ y, y ∈ x :: fl → ∃ b, (y, b) ∈ addrs (s.heap_lo + 48) bs := by
    intro y hy
    rcases List.mem_cons.mp hy with rfl | hy
    · exact hxb
    · exact h.fl_blk y hy
  have hb := h.bounds
  obtain ⟨hc, hfp, hfr⟩ := insert_first_chain s (s.heap_lo + 8) fl x h.chain hx h.nodup
    (h.toHeapCore.sep _ hblk) (by omega)
  have hpo : payloadOnly s bs (Malloc.insert_first s x).mem := by
    intro q hq1 hq2
    apply hfr q _ hq1
    intro y hy
    obtain ⟨b, hyb⟩ := hblk y hy
    have := h.toHeapCore.mem_facts hyb
    have := hq2 y b hyb
    omega
  obtain ⟨g1, g2, g3, g4, g5⟩ := h.static_frame _ hpo
  refine ⟨⟨⟨h.lo_pos, h.listp, h.brk_le, h.max_le, h.cap_lt, g1, g2, g3, g4, h.brk_eq, ?_, ?_, ?_⟩,
    g5⟩, hfp, hfr⟩
  · rw [hfp]; exact hc
  · exact List.nodup_cons.mpr ⟨hx, h.nodup⟩
  · exact hblk

/-! ## Rewriting the tags of a run of blocks -/

theorem heapBlocks_total (m : Mem) (a : Nat) (bs : List Blk) (hb : heapBlocks m a bs) :
    (endAddr a bs - a) % 8 = 0 ∧ (bs ≠ [] → a + 24 ≤ endAddr a bs) := by
  induction bs generalizing a with
  | nil => simp [endAddr]
  | cons b bs ih =>
    simp only [heapBlocks, BLOCKSIZE] at hb
    obtain ⟨h1, h2, _, _, h5⟩ := hb
    have := ih _ h5
    have hle := le_endAddr (a + b.size) bs
    simp only [endAddr]
    refine ⟨by omega, fun _ => by omega⟩

theorem mem_addrs_append3 (a : Nat) (pre mid post : List Blk) (y : Nat) (b : Blk) :
    (y, b) ∈ addrs a (pre ++ mid ++ post) ↔
      (y, b) ∈ addrs a pre ∨ (y, b) ∈ addrs (endAddr a pre) mid ∨
        (y, b) ∈ addrs (endAddr (endAddr a pre) mid) post := by
  rw [List.append_assoc, addrs_append, addrs_append]
  simp [List.mem_append]

/-- Replacing the run `mid` by a run `mid1` of the same length in bytes. -/
theorem Heap.retag {s : State} {pre mid post : List Blk} {fl : List Nat}
    (h : Heap s (pre ++ mid ++ post) fl) (mid1 : List Blk) (m1 : Mem)
    (hout : ∀ q, (q < endAddr (s.heap_lo + 48) pre - 4 ∨
      endAddr (endAddr (s.heap_lo + 48) pre) mid - 4 ≤ q) → rd8 m1 q = rd8 s.mem q)
    (hmid : heapBlocks m1 (endAddr (s.heap_lo + 48) pre) mid1)
    (he : endAddr (endAddr (s.heap_lo + 48) pre) mid1 = endAddr (endAddr (s.heap_lo + 48) pre) mid)
    (hfl : ∀ y, y ∈ fl → ∀ b, (y, b) ∈ addrs (endAddr (s.heap_lo + 48) pre) mid →
      (∃ b1, (y, b1) ∈ addrs (endAddr (s.heap_lo + 48) pre) mid1) ∧
        ∀ q, y ≤ q → q < y + 16 → rd8 m1 q = rd8 s.mem q) :
    Heap { s with mem := m1 } (pre ++ mid1 ++ post) fl := by
  have hb := h.bounds
  have hblocks := h.blocks
  rw [List.append_assoc, heapBlocks_append, heapBlocks_append] at hblocks
  obtain ⟨hpre, hmid0, hpost⟩ := hblocks
  have hx := le_endAddr (s.heap_lo + 48) pre
  have hxe := le_endAddr (endAddr (s.heap_lo + 48) pre) mid
  have hee := le_endAddr (endAddr (endAddr (s.heap_lo + 48) pre) mid) post
  have hbrk := h.brk_eq
  rw [List.append_assoc, endAddr_append, endAddr_append] at hbrk
  have slot : ∀ y, y ∈ fl → ∀ q, y ≤ q → q < y + 16 → rd8 m1 q = rd8 s.mem q := by
    intro y hy q hq1 hq2
    obtain ⟨b, hyb⟩ := h.fl_blk y hy
    rcases (mem_addrs_append3 _ pre mid post y b).mp hyb with h1 | h1 | h1
    · have := mem_addrs_facts s.mem _ pre y b hpre h1
      exact hout q (by omega)
    · exact (hfl y hy b h1).2 q hq1 hq2
    · have := mem_addrs_facts s.mem _ post y b hpost h1
      exact hout q (by omega)
  refine ⟨⟨h.lo_pos, h.listp, h.brk_le, h.max_le, h.cap_lt, ?_, ?_, ?_, ?_, ?_, ?_, h.nodup, ?_⟩, ?_⟩
  · show GET m1 (s.heap_lo + 4) = 25
    rw [← h.pro_hdr]; exact GET_congr _ _ _ (fun x h1 h2 => hout x (by omega))
  · show GET m1 (s.heap_lo + 24) = 25
    rw [← h.pro_ftr]; exact GET_congr _ _ _ (fun x h1 h2 => hout x (by omega))
  · show GET m1 (s.heap_lo + 40) = 0
    rw [← h.gap]; exact GET_congr _ _ _ (fun x h1 h2 => hout x (by omega))
  · show heapBlocks m1 (s.heap_lo + 48) (pre ++ mid1 ++ post)
    rw [List.append_assoc, heapBlocks_append, heapBlocks_append]
    refine ⟨?_, hmid, ?_⟩
    · exact heapBlocks_of_agree _ _ _ pre (by omega) (fun x h1 h2 => hout x (by omega)) hpre
    · rw [he]
      exact heapBlocks_of_agree _ _ _ post (by omega) (fun x h1 h2 => hout x (by omega)) hpost
  · show s.brk = endAddr (s.heap_lo + 48) (pre ++ mid1 ++ post)
    rw [List.append_assoc, endAddr_append, endAddr_append, he]; exact hbrk
  · show freeChain m1 (s.heap_lo + 8) 0 s.free_listp fl
    apply freeChain_congr s.mem m1 _ fl _ _ _ h.chain
    intro y hy
    exact ⟨rd64_congr _ _ _ (fun q h1 h2 => slot y hy q (by omega) (by omega)),
      rd64_congr _ _ _ (fun q h1 h2 => slot y hy q (by omega) (by omega))⟩
  · intro y hy
    show ∃ b, (y, b) ∈ addrs (s.heap_lo + 48) (pre ++ mid1 ++ post)
    obtain ⟨b, hyb⟩ := h.fl_blk y hy
    rcases (mem_addrs_append3 _ pre mid post y b).mp hyb with h1 | h1 | h1
    · exact ⟨b, (mem_addrs_append3 _ pre mid1 post y b).mpr (Or.inl h1)⟩
    · obtain ⟨b1, hb1⟩ := (hfl y hy b h1).1
      exact ⟨b1, (mem_addrs_append3 _ pre mid1 post y b1).mpr (Or.inr (Or.inl hb1))⟩
    · exact ⟨b, (mem_addrs_append3 _ pre mid1 post y b).mpr (Or.inr (Or.inr (he ▸ h1)))⟩
  · show GET m1 (s.brk - 4) = 1
    rw [← h.epilogue]; exact GET_congr _ _ _ (fun x h1 h2 => hout x (by omega))

theorem GET_PUT_PACK (m : Mem) (p sz a : Nat) (h8 : sz % 8 = 0) (hlt : sz < 2 ^ 31)
    (ha : a ≤ 1) : GET (PUT m p (PACK sz a)) p = sz + a := by
  rw [GET_PUT_same, PACK_eq sz a h8 (by omega)]
  omega

theorem GET_SIZE_PUT_PACK (m : Mem) (p sz a : Nat) (h8 : sz % 8 = 0) (hlt : sz < 2 ^ 31)
    (ha : a ≤ 1) : GET_SIZE (PUT m p (PACK sz a)) p = sz := by
  have hg := GET_PUT_PACK m p sz a h8 hlt ha
  unfold GET_SIZE int_to_size_t
  rw [hg, and_mask32 _ (by omega)]
  split <;> omega

theorem toNat_le_one (b : Bool) : b.toNat ≤ 1 := by cases b <;> simp

/-- Writing one header and footer over the run `mid`: flipping the allocation
bit of a block, or merging neighbours into one block. -/
theorem Heap.settag {s : State} {pre mid post : List Blk} {fl : List Nat}
    (h : Heap s (pre ++ mid ++ post) fl) (hne : mid ≠ []) (al : Bool) (x total : Nat)
    (hx : x = endAddr (s.heap_lo + 48) pre) (ht : x + total = endAddr x mid)
    (hfl : ∀ y, y ∈ fl → ∀ b, (y, b) ∈ addrs x mid → y = x) :
    Heap { s with mem := (PUT (PUT s.mem (x - 4) (PACK total al.toNat)) (x + total - 8)
      (PACK total al.toNat)) } (pre ++ [⟨total, al⟩] ++ post) fl := by
  subst hx
  have hb := h.bounds
  have hblocks := h.blocks
  rw [List.append_assoc, heapBlocks_append, heapBlocks_append] at hblocks
  obtain ⟨hpre, hmid0, hpost⟩ := hblocks
  have hbrk := h.brk_eq
  rw [List.append_assoc, endAddr_append, endAddr_append] at hbrk
  have hx := le_endAddr (s.heap_lo + 48) pre
  have hee := le_endAddr (endAddr (endAddr (s.heap_lo + 48) pre) mid) post
  obtain ⟨ht8, ht24⟩ := heapBlocks_total _ _ mid hmid0
  have ht24 := ht24 hne
  have hal := toNat_le_one al
  apply h.retag
  · intro q hq
    simp only [PUT]
    rw [rd8_wrBytes_out _ _ _ _ _ (by omega), rd8_wrBytes_out _ _ _ _ _ (by omega)]
  · simp only [heapBlocks, BLOCKSIZE, Blk.word, and_true]
    refine ⟨by omega, by omega, ?_, ?_⟩
    · rw [GET_PUT_disj _ _ _ _ (by omega), GET_PUT_PACK _ _ _ _ (by omega) (by omega) hal]
    · rw [GET_PUT_PACK _ _ _ _ (by omega) (by omega) hal]
  · simp only [endAddr]; exact ht
  · intro y hy b hyb
    have := hfl y hy b hyb
    subst this
    refine ⟨⟨⟨total, al⟩, by simp [addrs]⟩, ?_⟩
    intro q hq1 hq2
    simp only [PUT]
    rw [rd8_wrBytes_out _ _ _ _ _ (by omega), rd8_wrBytes_out _ _ _ _ _ (by omega)]

/-- Writing the tags of a block cut in two. -/
theorem Heap.split {s : State} {pre post : List Blk} {c : Blk} {fl : List Nat}
    (h : Heap s (pre ++ [c] ++ post) fl) (a1 a2 : Bool) (x asize : Nat)
    (hx : x = endAddr (s.heap_lo + 48) pre)
    (h24 : 24 ≤ asize) (h8 : asize % 8 = 0) (hrest : asize + 24 ≤ c.size) :
    Heap { s with mem := (PUT (PUT (PUT (PUT s.mem (x - 4) (PACK asize a1.toNat))
        (x + asize - 8) (PACK asize a1.toNat))
        (x + asize - 4) (PACK (c.size - asize) a2.toNat))
        (x + c.size - 8) (PACK (c.size - asize) a2.toNat)) }
      (pre ++ [⟨asize, a1⟩, ⟨c.size - asize, a2⟩] ++ post) fl := by
  subst hx
  have hb := h.bounds
  have hc := h.toHeapCore.mem_facts
    ((mem_addrs_append3 _ pre [c] post (endAddr (s.heap_lo + 48) pre) c).mpr
      (Or.inr (Or.inl (by simp [addrs]))))
  have hx := le_endAddr (s.heap_lo + 48) pre
  have hal1 := toNat_le_one a1
  have hal2 := toNat_le_one a2
  apply h.retag
  · intro q hq
    simp only [endAddr] at hq
    simp only [PUT]
    rw [rd8_wrBytes_out _ _ _ _ _ (by omega), rd8_wrBytes_out _ _ _ _ _ (by omega),
      rd8_wrBytes_out _ _ _ _ _ (by omega), rd8_wrBytes_out _ _ _ _ _ (by omega)]
  · simp only [heapBlocks, BLOCKSIZE, Blk.word, and_true]
    have e1 : endAddr (s.heap_lo + 48) pre + asize + (c.size - asize) - 8
        = endAddr (s.heap_lo + 48) pre + c.size - 8 := by omega
    have e2 : endAddr (s.heap_lo + 48) pre + asize - 4
        = endAddr (s.heap_lo + 48) pre + asize - 4 := rfl
    refine ⟨by omega, h8, ?_, ?_, by omega, by omega, ?_, ?_⟩
    · rw [GET_PUT_disj _ _ _ _ (by omega), GET_PUT_disj _ _ _ _ (by omega),
        GET_PUT_disj _ _ _ _ (by omega), GET_PUT_PACK _ _ _ _ h8 (by omega) hal1]
    · rw [GET_PUT_disj _ _ _ _ (by omega), GET_PUT_disj _ _ _ _ (by omega),
        GET_PUT_PACK _ _ _ _ h8 (by omega) hal1]
    · rw [GET_PUT_disj _ _ _ _ (by omega), GET_PUT_PACK _ _ _ _ (by omega) (by omega) hal2]
    · rw [e1, GET_PUT_PACK _ _ _ _ (by omega) (by omega) hal2]
  · simp only [endAddr]; omega
  · intro y hy b hyb
    simp only [addrs, List.mem_singleton, Prod.mk.injEq, List.mem_cons, List.not_mem_nil,
      or_false] at hyb
    obtain ⟨rfl, rfl⟩ := hyb
    refine ⟨⟨⟨asize, a1⟩, by simp [addrs]⟩, ?_⟩
    intro q hq1 hq2
    simp only [PUT]
    rw [rd8_wrBytes_out _ _ _ _ _ (by omega), rd8_wrBytes_out _ _ _ _ _ (by omega),
      rd8_wrBytes_out _ _ _ _ _ (by omega), rd8_wrBytes_out _ _ _ _ _ (by omega)]

/-! ## What the macros read in a well-formed heap -/

theorem Heap.read_block {s : State} {bs : List Blk} {fl : List Nat} (h : Heap s bs fl)
    {y : Nat} {b : Blk} (hy : (y, b) ∈ addrs (s.heap_lo + 48) bs) :
    GET_SIZE s.mem (HDRP y) = b.size ∧ GET_ALLOC s.mem (HDRP y) = b.alloc.toNat ∧
      NEXT_BLKP s.mem y = y + b.size ∧ FTRP s.mem y = y + b.size - 8 := by
  have hf := h.toHeapCore.mem_facts hy
  unfold NEXT_BLKP FTRP HDRP WSIZE DSIZE
  obtain ⟨_, _, _, _, _, _, _, h8, h9, _⟩ := hf
  rw [h8, h9]
  exact ⟨rfl, rfl, rfl, rfl⟩

theorem Heap.read_prev {s : State} {bs : List Blk} {fl : List Nat} (h : Heap s bs fl)
    {y : Nat} {L : Blk} (hy : (y, L) ∈ addrs (s.heap_lo + 48) bs) :
    PREV_BLKP s.mem (y + L.size) = y ∧
      GET_ALLOC s.mem (FTRP s.mem y) = L.alloc.toNat := by
  have hf := h.toHeapCore.mem_facts hy
  have hr := h.read_block hy
  obtain ⟨_, _, h24, _, _, _, _, h8, h9, h10, h11, _⟩ := hf
  unfold PREV_BLKP HDRP WSIZE
  have e : y + L.size - 4 - 4 = y + L.size - 8 := by omega
  rw [e, h10, hr.2.2.2, h11]
  exact ⟨by omega, rfl⟩

theorem Heap.read_prev_first {s : State} {bs : List Blk} {fl : List Nat} (h : Heap s bs fl) :
    PREV_BLKP s.mem (s.heap_lo + 48) = s.heap_lo + 48 := by
  unfold PREV_BLKP HDRP WSIZE GET_SIZE
  have e : s.heap_lo + 48 - 4 - 4 = s.heap_lo + 40 := by omega
  rw [e, h.gap]
  simp [int_to_size_t]

theorem Heap.read_epilogue {s : State} {bs : List Blk} {fl : List Nat} (h : Heap s bs fl) :
    GET_ALLOC s.mem (s.brk - 4) = 1 := by
  unfold GET_ALLOC
  rw [h.epilogue]
  rfl

theorem toNat_bne_zero (b : Bool) : (b.toNat != 0) = b := by cases b <;> rfl

/-- The block `b` at the end of `pre` is in the heap. -/
theorem mem_mid (a : Nat) (pre post : List Blk) (b : Blk) :
    (endAddr a pre, b) ∈ addrs a (pre ++ [b] ++ post) := by
  simp [addrs_append, addrs]

theorem mem_left (a : Nat) (pre1 post : List Blk) (L b : Blk) :
    (endAddr a pre1, L) ∈ addrs a (pre1 ++ [L] ++ [b] ++ post) := by
  simp [addrs_append, addrs]

theorem mem_right (a : Nat) (pre post1 : List Blk) (b R : Blk) :
    (endAddr a pre + b.size, R) ∈ addrs a (pre ++ [b] ++ R :: post1) := by
  simp [addrs_append, addrs]

theorem prev_alloc_nil {s : State} {b : Blk} {post : List Blk} {fl : List Nat}
    (h : Heap s ([] ++ [b] ++ post) fl) : prev_alloc s (s.heap_lo + 48) = true := by
  unfold prev_alloc
  rw [h.read_prev_first]
  simp

theorem prev_alloc_snoc {s : State} {pre1 post : List Blk} {L b : Blk} {fl : List Nat}
    (h : Heap s (pre1 ++ [L] ++ [b] ++ post) fl) :
    prev_alloc s (endAddr (s.heap_lo + 48) pre1 + L.size) = L.alloc := by
  have hm := mem_left (s.heap_lo + 48) pre1 post L b
  have hf := h.toHeapCore.mem_facts hm
  have hr := h.read_prev hm
  unfold prev_alloc
  rw [hr.1, hr.2, toNat_bne_zero]
  have : (endAddr (s.heap_lo + 48) pre1 == endAddr (s.heap_lo + 48) pre1 + L.size) = false := by
    simp; omega
  rw [this, Bool.or_false]

theorem next_alloc_nil {s : State} {pre : List Blk} {b : Blk} {fl : List Nat}
    (h : Heap s (pre ++ [b] ++ []) fl) :
    next_alloc s (endAddr (s.heap_lo + 48) pre) = true := by
  have hm := mem_mid (s.heap_lo + 48) pre [] b
  have hr := h.read_block hm
  have hbrk := h.brk_eq
  rw [endAddr_append, endAddr_append] at hbrk
  simp only [endAddr] at hbrk
  unfold next_alloc
  rw [hr.2.2.1]
  unfold HDRP WSIZE
  rw [← hbrk, h.read_epilogue]
  rfl

theorem next_alloc_cons {s : State} {pre post1 : List Blk} {b R : Blk} {fl : List Nat}
    (h : Heap s (pre ++ [b] ++ R :: post1) fl) :
    next_alloc s (endAddr (s.heap_lo + 48) pre) = R.alloc := by
  have hm := mem_mid (s.heap_lo + 48) pre (R :: post1) b
  have hr := h.read_block hm
  have hr2 := h.read_block (mem_right (s.heap_lo + 48) pre post1 b R)
  unfold next_alloc
  rw [hr.2.2.1, hr2.2.1, toNat_bne_zero]

/-! ## The four cases of `coalesce` -/

theorem coalesce_eq1 (s : State) (bp : Nat) (hp : prev_alloc s bp = true)
    (hn : next_alloc s bp = true) : coalesce s bp = (bp, insert_first s bp) := by
  unfold coalesce
  simp [hp, hn]

theorem coalesce_eq2 (s : State) (bp : Nat) (hp : prev_alloc s bp = true)
    (hn : next_alloc s bp = false) :
    coalesce s bp =
      (bp, insert_first { remove_block s (NEXT_BLKP s.mem bp) with
        mem := (PUT (PUT (remove_block s (NEXT_BLKP s.mem bp)).mem (HDRP bp)
            (PACK ((GET_SIZE s.mem (HDRP bp) + GET_SIZE s.mem (HDRP (NEXT_BLKP s.mem bp)))
              % 2 ^ 64) 0))
          (FTRP (PUT (remove_block s (NEXT_BLKP s.mem bp)).mem (HDRP bp)
            (PACK ((GET_SIZE s.mem (HDRP bp) + GET_SIZE s.mem (HDRP (NEXT_BLKP s.mem bp)))
              % 2 ^ 64) 0)) bp)
          (PACK ((GET_SIZE s.mem (HDRP bp) + GET_SIZE s.mem (HDRP (NEXT_BLKP s.mem bp)))
              % 2 ^ 64) 0)) } bp) := by
  unfold coalesce
  simp [hp, hn]

theorem coalesce_eq3 (s : State) (bp : Nat) (hp : prev_alloc s bp = false)
    (hn : next_alloc s bp = true) :
    coalesce s bp =
      (PREV_BLKP s.mem bp, insert_first { remove_block s (PREV_BLKP s.mem bp) with
        mem := (PUT (PUT (remove_block s (PREV_BLKP s.mem bp)).mem (HDRP (PREV_BLKP s.mem bp))
            (PACK ((GET_SIZE s.mem (HDRP bp) + GET_SIZE s.mem (HDRP (PREV_BLKP s.mem bp)))
              % 2 ^ 64) 0))
          (FTRP (PUT (remove_block s (PREV_BLKP s.mem bp)).mem (HDRP (PREV_BLKP s.mem bp))
            (PACK ((GET_SIZE s.mem (HDRP bp) + GET_SIZE s.mem (HDRP (PREV_BLKP s.mem bp)))
              % 2 ^ 64) 0)) (PREV_BLKP s.mem bp))
          (PACK ((GET_SIZE s.mem (HDRP bp) + GET_SIZE s.mem (HDRP (PREV_BLKP s.mem bp)))
              % 2 ^ 64) 0)) } (PREV_BLKP s.mem bp)) := by
  unfold coalesce
  simp [hp, hn]

theorem nil_or_snoc (l : List Blk) : l = [] ∨ ∃ l1 a, l = l1 ++ [a] := by
  rcases List.eq_nil_or_concat l with h | ⟨l1, a, h⟩
  · exact Or.inl h
  · exact Or.inr ⟨l1, a, by rw [h, List.concat_eq_append]⟩

theorem prev_alloc_of_last {s : State} {pre post : List Blk} {b : Blk} {fl : List Nat}
    (h : Heap s (pre ++ [b] ++ post) fl) (hL : ∀ L, L ∈ pre.getLast? → L.alloc = true) :
    prev_alloc s (endAddr (s.heap_lo + 48) pre) = true := by
  rcases nil_or_snoc pre with rfl | ⟨pre1, L, rfl⟩
  · exact prev_alloc_nil h
  · rw [endAddr_append]
    simp only [endAddr]
    rw [prev_alloc_snoc h]
    exact hL L (by simp)

theorem next_alloc_of_head {s : State} {pre post : List Blk} {b : Blk} {fl : List Nat}
    (h : Heap s (pre ++ [b] ++ post) fl) (hR : ∀ R, R ∈ post.head? → R.alloc = true) :
    next_alloc s (endAddr (s.heap_lo + 48) pre) = true := by
  cases post with
  | nil => exact next_alloc_nil h
  | cons R post1 =>
    rw [next_alloc_cons h]
    exact hR R (by simp)

theorem noAdjFree_mid (pre post : List Blk) (c : Blk) :
    noAdjFree (pre ++ [c] ++ post) ↔
      noAdjFree pre ∧ noAdjFree post ∧ (∀ L, L ∈ pre.getLast? → L.alloc = true ∨ c.alloc = true) ∧
        (∀ R, R ∈ post.head? → c.alloc = true ∨ R.alloc = true) := by
  unfold noAdjFree
  rw [List.append_assoc, List.chain'_append, List.singleton_append, List.chain'_cons']
  simp only [List.head?_cons, Option.mem_def, Option.some.injEq]
  constructor
  · rintro ⟨h1, ⟨h2, h3⟩, h4⟩
    exact ⟨h1, h3, fun L hL => h4 L hL c rfl, h2⟩
  · rintro ⟨h1, h2, h3, h4⟩
    exact ⟨h1, ⟨h4, h2⟩, fun L hL c1 hc => hc ▸ h3 L hL⟩

theorem mem_freeAddrs_range (m : Mem) (a : Nat) (bs : List Blk) (y : Nat)
    (hb : heapBlocks m a bs) (hy : y ∈ freeAddrs a bs) : a ≤ y ∧ y + 24 ≤ endAddr a bs := by
  obtain ⟨b, hyb, _⟩ := (mem_freeAddrs a bs y).mp hy
  have := mem_addrs_facts m a bs y b hb hyb
  omega

theorem mem_allocAddrs_range (m : Mem) (a : Nat) (bs : List Blk) (y : Nat)
    (hb : heapBlocks m a bs) (hy : y ∈ allocAddrs a bs) : a ≤ y ∧ y + 24 ≤ endAddr a bs := by
  obtain ⟨b, hyb, _⟩ := (mem_allocAddrs a bs y).mp hy
  have := mem_addrs_facts m a bs y b hb hyb
  omega

/-- Parts of the heap around the block handed to `coalesce`. -/
theorem PreCo.parts {s : State} {pre post : List Blk} {b : Blk} {fl : List Nat}
    (h : PreCo s pre b post fl) :
    heapBlocks s.mem (s.heap_lo + 48) pre ∧
      heapBlocks s.mem (endAddr (s.heap_lo + 48) pre + b.size) post ∧
      s.heap_lo + 48 ≤ endAddr (s.heap_lo + 48) pre ∧
      endAddr (s.heap_lo + 48) pre + b.size ≤ s.brk ∧
      s.brk = endAddr (endAddr (s.heap_lo + 48) pre + b.size) post ∧
      24 ≤ b.size ∧ b.size % 8 = 0 := by
  have hbl := h.heap.blocks
  rw [List.append_assoc, heapBlocks_append] at hbl
  simp only [List.singleton_append, heapBlocks] at hbl
  have hf := h.heap.toHeapCore.mem_facts (mem_mid (s.heap_lo + 48) pre post b)
  have hbrk := h.heap.brk_eq
  rw [List.append_assoc, endAddr_append] at hbrk
  simp only [List.singleton_append, endAddr] at hbrk
  exact ⟨hbl.1, hbl.2.2.2.2.2, hf.1, hf.2.1, hbrk, hf.2.2.1, hf.2.2.2.1⟩

/-- Case 1 of `coalesce`: both neighbours allocated. -/
theorem coalesce_case1 {s : State} {pre post : List Blk} {b : Blk} {fl : List Nat}
    (h : PreCo s pre b post fl)
    (hL : ∀ L, L ∈ pre.getLast? → L.alloc = true) (hR : ∀ R, R ∈ post.head? → R.alloc = true) :
    (coalesce s (endAddr (s.heap_lo + 48) pre)).1 = endAddr (s.heap_lo + 48) pre ∧
      Inv (coalesce s (endAddr (s.heap_lo + 48) pre)).2 (pre ++ [b] ++ post)
        (endAddr (s.heap_lo + 48) pre :: fl) ∧
      (coalesce s (endAddr (s.heap_lo + 48) pre)).2 =
        insert_first s (endAddr (s.heap_lo + 48) pre) := by
  rw [coalesce_eq1 s _ (prev_alloc_of_last h.heap hL) (next_alloc_of_head h.heap hR)]
  obtain ⟨hh, hfp, _⟩ := h.heap.insert_first h.notin ⟨b, mem_mid _ pre post b⟩
  obtain ⟨p1, p2, p3, p4, p5, p6, p7⟩ := h.parts
  refine ⟨rfl, ⟨hh, ?_, ?_⟩, rfl⟩
  · intro y
    show y ∈ _ :: fl ↔ y ∈ freeAddrs (s.heap_lo + 48) (pre ++ [b] ++ post)
    rw [List.append_assoc, freeAddrs_append, List.singleton_append, freeAddrs_cons, h.free]
    simp only [Bool.false_eq_true, if_false, List.mem_cons, List.mem_append, h.fl_iff y,
      List.singleton_append]
    tauto
  · rw [noAdjFree_mid]
    exact ⟨h.co_pre, h.co_post, fun L hl => Or.inl (hL L hl), fun R hr => Or.inr (hR R hr)⟩


theorem sameEnv_refl (s : State) : sameEnv s s := ⟨rfl, rfl, rfl, rfl, rfl⟩

theorem sameEnv_trans {s s1 s2 : State} (h1 : sameEnv s s1) (h2 : sameEnv s1 s2) :
    sameEnv s s2 := by
  unfold sameEnv at *
  obtain ⟨a1, a2, a3, a4, a5⟩ := h1
  obtain ⟨b1, b2, b3, b4, b5⟩ := h2
  exact ⟨b1.trans a1, b2.trans a2, b3.trans a3, b4.trans a4, b5.trans a5⟩

theorem sameEnv_mem (s : State) (m : Mem) : sameEnv s { s with mem := m } :=
  ⟨rfl, rfl, rfl, rfl, rfl⟩

theorem remove_block_sameEnv (s : State) (bp : Nat) : sameEnv s (remove_block s bp) := by
  unfold remove_block
  split <;> exact ⟨rfl, rfl, rfl, rfl, rfl⟩

theorem insert_first_sameEnv (s : State) (bp : Nat) : sameEnv s (insert_first s bp) :=
  ⟨rfl, rfl, rfl, rfl, rfl⟩

theorem coalesce_sameEnv (s : State) (bp : Nat) : sameEnv s (coalesce s bp).2 := by
  unfold coalesce
  simp only
  split
  · exact insert_first_sameEnv _ _
  · split
    · exact sameEnv_trans (sameEnv_trans (remove_block_sameEnv _ _) (sameEnv_mem _ _))
        (insert_first_sameEnv _ _)
    · split
      · exact sameEnv_trans (sameEnv_trans (remove_block_sameEnv _ _) (sameEnv_mem _ _))
          (insert_first_sameEnv _ _)
      · exact sameEnv_trans (sameEnv_trans (sameEnv_trans (remove_block_sameEnv _ _)
          (remove_block_sameEnv _ _)) (sameEnv_mem _ _)) (insert_first_sameEnv _ _)

theorem coalesce_eq2b (s : State) (bp sb sr : Nat) (hp : prev_alloc s bp = true)
    (hn : next_alloc s bp = false)
    (h1 : GET_SIZE s.mem (HDRP bp) = sb) (h2 : NEXT_BLKP s.mem bp = bp + sb)
    (h3 : GET_SIZE s.mem (HDRP (bp + sb)) = sr) (hsz : sb + sr < 2 ^ 31)
    (h8 : (sb + sr) % 8 = 0) :
    coalesce s bp =
      (bp, insert_first { remove_block s (bp + sb) with
        mem := (PUT (PUT (remove_block s (bp + sb)).mem (bp - 4) (PACK (sb + sr) 0))
          (bp + (sb + sr) - 8) (PACK (sb + sr) 0)) } bp) := by
  have hF : ∀ m : Mem, FTRP (PUT m (bp - 4) (PACK (sb + sr) 0)) bp = bp + (sb + sr) - 8 := by
    intro m
    unfold FTRP DSIZE HDRP WSIZE
    rw [GET_SIZE_PUT_PACK _ _ _ _ h8 hsz (by omega)]
  have hm : (sb + sr) % 2 ^ 64 = sb + sr := by omega
  unfold coalesce
  simp only [hp, hn, h1, h2, h3, hm, Bool.and_false, Bool.false_eq_true, if_false,
    Bool.not_false, Bool.and_true, if_true]
  have e5 : HDRP bp = bp - 4 := rfl
  rw [e5, hF]

theorem mem_freeAddrs_cons (a : Nat) (c : Blk) (post : List Blk) (y : Nat) :
    y ∈ freeAddrs a (c :: post) ↔
      (c.alloc = false ∧ y = a) ∨ y ∈ freeAddrs (a + c.size) post := by
  rw [freeAddrs_cons]
  cases c.alloc <;> simp

theorem mem_freeAddrs_mid (a : Nat) (pre post : List Blk) (c : Blk) (y : Nat) :
    y ∈ freeAddrs a (pre ++ [c] ++ post) ↔
      y ∈ freeAddrs a pre ∨ (c.alloc = false ∧ y = endAddr a pre) ∨
        y ∈ freeAddrs (endAddr a pre + c.size) post := by
  rw [List.append_assoc, freeAddrs_append, List.singleton_append, List.mem_append,
    mem_freeAddrs_cons]

theorem mem_allocAddrs_cons (a : Nat) (c : Blk) (post : List Blk) (y : Nat) :
    y ∈ allocAddrs a (c :: post) ↔
      (c.alloc = true ∧ y = a) ∨ y ∈ allocAddrs (a + c.size) post := by
  rw [allocAddrs_cons]
  cases c.alloc <;> simp

theorem mem_allocAddrs_mid (a : Nat) (pre post : List Blk) (c : Blk) (y : Nat) :
    y ∈ allocAddrs a (pre ++ [c] ++ post) ↔
      y ∈ allocAddrs a pre ∨ (c.alloc = true ∧ y = endAddr a pre) ∨
        y ∈ allocAddrs (endAddr a pre + c.size) post := by
  rw [List.append_assoc, allocAddrs_append, List.singleton_append, List.mem_append,
    mem_allocAddrs_cons]

/-- Membership in the free list after one entry was unlinked and `x` linked. -/
theorem mem_cons_erase_iff (fl : List Nat) (hnd : fl.Nodup) (x xR y : Nat) (P Q : Prop)
    (hfl : y ∈ fl ↔ P ∨ y = xR ∨ Q) (hP : P → y ≠ xR) (hQ : Q → y ≠ xR) :
    y ∈ x :: fl.erase xR ↔ P ∨ y = x ∨ Q := by
  rw [List.mem_cons, hnd.mem_erase_iff, hfl]
  constructor
  · rintro (h | ⟨h1, h2 | h2 | h2⟩)
    · exact Or.inr (Or.inl h)
    · exact Or.inl h2
    · exact absurd h2 h1
    · exact Or.inr (Or.inr h2)
  · rintro (h | h | h)
    · exact Or.inr ⟨hP h, Or.inl h⟩
    · exact Or.inl h
    · exact Or.inr ⟨hQ h, Or.inr (Or.inr h)⟩

/-- Frame of unlinking, writing two tags, and linking `x`. -/
theorem frame_compose {s s1 : State} {fl fl1 : List Nat} {x a1 a2 v1 v2 : Nat} {m3 : Mem}
    (hlo : s1.heap_lo = s.heap_lo) (hsub : ∀ y, y ∈ fl1 → y ∈ fl)
    (hfr1 : ∀ q, (∀ y, y ∈ fl → q < y ∨ y + 16 ≤ q) →
      (q < s.heap_lo + 8 ∨ s.heap_lo + 16 ≤ q) → rd8 s1.mem q = rd8 s.mem q)
    (hfr3 : ∀ q, (∀ y, y ∈ x :: fl1 → q < y ∨ y + 16 ≤ q) →
      (q < s1.heap_lo + 8 ∨ s1.heap_lo + 16 ≤ q) →
      rd8 m3 q = rd8 (PUT (PUT s1.mem a1 v1) a2 v2) q) :
    ∀ q, (q < s.heap_lo + 8 ∨ s.heap_lo + 16 ≤ q) →
      (∀ y, y ∈ x :: fl → q < y ∨ y + 16 ≤ q) →
      (q < a1 ∨ a1 + 4 ≤ q) → (q < a2 ∨ a2 + 4 ≤ q) → rd8 m3 q = rd8 s.mem q := by
  intro q hq1 hq2 hq3 hq4
  rw [hfr3 q (fun y hy => hq2 y (by
      rcases List.mem_cons.mp hy with rfl | hy
      · exact List.mem_cons_self _ _
      · exact List.mem_cons_of_mem _ (hsub y hy))) (by rw [hlo]; exact hq1)]
  simp only [PUT]
  rw [rd8_wrBytes_out _ _ _ _ _ (by omega), rd8_wrBytes_out _ _ _ _ _ (by omega)]
  exact hfr1 q (fun y hy => hq2 y (List.mem_cons_of_mem _ hy)) hq1

/-- Case 2 of `coalesce`: the right neighbour is free. -/
theorem coalesce_case2 {s : State} {pre post1 : List Blk} {b R : Blk} {fl : List Nat}
    (h : PreCo s pre b (R :: post1) fl)
    (hL : ∀ L, L ∈ pre.getLast? → L.alloc = true) (hR : R.alloc = false) :
    (coalesce s (endAddr (s.heap_lo + 48) pre)).1 = endAddr (s.heap_lo + 48) pre ∧
      Inv (coalesce s (endAddr (s.heap_lo + 48) pre)).2
        (pre ++ [⟨b.size + R.size, false⟩] ++ post1)
        (endAddr (s.heap_lo + 48) pre :: fl.erase (endAddr (s.heap_lo + 48) pre + b.size)) ∧
      ∀ q, (q < s.heap_lo + 8 ∨ s.heap_lo + 16 ≤ q) →
        (∀ y, y ∈ endAddr (s.heap_lo + 48) pre :: fl → q < y ∨ y + 16 ≤ q) →
        (q < endAddr (s.heap_lo + 48) pre - 4 ∨ endAddr (s.heap_lo + 48) pre - 4 + 4 ≤ q) →
        (q < endAddr (s.heap_lo + 48) pre + (b.size + R.size) - 8 ∨
          endAddr (s.heap_lo + 48) pre + (b.size + R.size) - 8 + 4 ≤ q) →
        rd8 (coalesce s (endAddr (s.heap_lo + 48) pre)).2.mem q = rd8 s.mem q := by
  have hp := prev_alloc_of_last h.heap hL
  have hn : next_alloc s (endAddr (s.heap_lo + 48) pre) = false := by
    rw [next_alloc_cons h.heap]; exact hR
  obtain ⟨p1, p2, p3, p4, p5, p6, p7⟩ := h.parts
  have hb := h.heap.bounds
  have hmb := mem_mid (s.heap_lo + 48) pre (R :: post1) b
  have hmR := mem_right (s.heap_lo + 48) pre post1 b R
  have rb := h.heap.read_block hmb
  have rR := h.heap.read_block hmR
  have fR := h.heap.toHeapCore.mem_facts hmR
  have hRfl : endAddr (s.heap_lo + 48) pre + b.size ∈ fl := by
    rw [h.fl_iff]; right
    rw [freeAddrs_cons, hR]; simp
  rw [coalesce_eq2b s _ b.size R.size hp hn rb.1 rb.2.2.1 rR.1 (by omega) (by omega)]
  obtain ⟨h1, hfr1, e1, e2, e3, e4⟩ := h.heap.remove_block hRfl
  generalize remove_block s (endAddr (s.heap_lo + 48) pre + b.size) = s1 at h1 hfr1 e1 e2 e3 e4 ⊢
  have hbs : pre ++ [b] ++ R :: post1 = pre ++ [b, R] ++ post1 := by simp
  rw [hbs] at h1
  have hx0 : endAddr (s.heap_lo + 48) pre = endAddr (s1.heap_lo + 48) pre := by rw [e1]
  have ht0 : endAddr (s.heap_lo + 48) pre + (b.size + R.size) =
      endAddr (endAddr (s.heap_lo + 48) pre) [b, R] := by
    simp only [endAddr]; omega
  have hfl0 : ∀ y, y ∈ fl.erase (endAddr (s.heap_lo + 48) pre + b.size) →
      ∀ c, (y, c) ∈ addrs (endAddr (s.heap_lo + 48) pre) [b, R] →
      y = endAddr (s.heap_lo + 48) pre := by
    intro y hy c hyc
    simp only [addrs, List.mem_cons, Prod.mk.injEq, List.not_mem_nil, or_false] at hyc
    rcases hyc with ⟨rfl, _⟩ | ⟨rfl, _⟩
    · rfl
    · exact absurd hy (List.Nodup.not_mem_erase h.heap.nodup)
  have h2 := h1.settag (by simp) false (endAddr (s.heap_lo + 48) pre) (b.size + R.size)
    hx0 ht0 hfl0
  have hx1 : endAddr (s.heap_lo + 48) pre ∉ fl.erase (endAddr (s.heap_lo + 48) pre + b.size) :=
    fun hh => h.notin (List.mem_of_mem_erase hh)
  have hmem1 : ∃ c, (endAddr (s.heap_lo + 48) pre, c) ∈
      addrs (s1.heap_lo + 48) (pre ++ [⟨b.size + R.size, false⟩] ++ post1) := by
    rw [e1]; exact ⟨_, mem_mid _ pre post1 _⟩
  obtain ⟨h3, hfp, hfr3⟩ := h2.insert_first hx1 hmem1
  refine ⟨rfl, ⟨h3, ?_, ?_⟩, frame_compose e1 (fun y hy => List.mem_of_mem_erase hy) hfr1 hfr3⟩
  · intro y
    show y ∈ endAddr (s.heap_lo + 48) pre ::
        fl.erase (endAddr (s.heap_lo + 48) pre + b.size) ↔
      y ∈ freeAddrs (s1.heap_lo + 48) (pre ++ [⟨b.size + R.size, false⟩] ++ post1)
    rw [e1, mem_freeAddrs_mid]
    have hp2 : heapBlocks s.mem (endAddr (s.heap_lo + 48) pre + b.size + R.size) post1 := by
      simp only [heapBlocks] at p2; exact p2.2.2.2.2
    have e6 : endAddr (s.heap_lo + 48) pre + (b.size + R.size)
        = endAddr (s.heap_lo + 48) pre + b.size + R.size := by omega
    have hfl := h.fl_iff y
    rw [mem_freeAddrs_cons] at hfl
    simp only [hR, true_and] at hfl
    show _ ↔ _ ∨ (_ ∧ _) ∨ y ∈ freeAddrs (endAddr (s.heap_lo + 48) pre + (b.size + R.size)) post1
    rw [e6]
    simp only [true_and]
    apply mem_cons_erase_iff fl h.heap.nodup _ _ y _ _ hfl
    · intro hy
      have := mem_freeAddrs_range s.mem _ pre y p1 hy
      clear * - this
      omega
    · intro hy
      have := mem_freeAddrs_range s.mem _ post1 y hp2 hy
      have hR24 := fR.2.2.1
      clear * - this hR24
      omega
  · rw [noAdjFree_mid]
    have hcp := h.co_post
    unfold noAdjFree at hcp
    rw [List.chain'_cons'] at hcp
    refine ⟨h.co_pre, hcp.2, fun L hl => Or.inl (hL L hl), fun R1 hr => ?_⟩
    rcases hcp.1 R1 hr with hh | hh
    · rw [hR] at hh; exact absurd hh (by simp)
    · exact Or.inr hh

theorem coalesce_eq3b (s : State) (bp sb sl xl : Nat) (hp : prev_alloc s bp = false)
    (hn : next_alloc s bp = true)
    (h1 : GET_SIZE s.mem (HDRP bp) = sb) (h2 : PREV_BLKP s.mem bp = xl)
    (h3 : GET_SIZE s.mem (HDRP xl) = sl) (hsz : sl + sb < 2 ^ 31)
    (h8 : (sl + sb) % 8 = 0) :
    coalesce s bp =
      (xl, insert_first { remove_block s xl with
        mem := (PUT (PUT (remove_block s xl).mem (xl - 4) (PACK (sl + sb) 0))
          (xl + (sl + sb) - 8) (PACK (sl + sb) 0)) } xl) := by
  have hF : ∀ m : Mem, FTRP (PUT m (xl - 4) (PACK (sl + sb) 0)) xl = xl + (sl + sb) - 8 := by
    intro m
    unfold FTRP DSIZE HDRP WSIZE
    rw [GET_SIZE_PUT_PACK _ _ _ _ h8 hsz (by omega)]
  have hm : (sb + sl) % 2 ^ 64 = sl + sb := by omega
  unfold coalesce
  simp only [hp, hn, h1, h2, h3, hm, Bool.and_false, Bool.false_eq_true, if_false,
    Bool.not_false, Bool.and_true, if_true, Bool.false_and, Bool.true_and, Bool.not_true]
  have e5 : HDRP xl = xl - 4 := rfl
  rw [e5, hF]

theorem coalesce_eq4b (s : State) (bp sb sl sr xl : Nat) (hp : prev_alloc s bp = false)
    (hn : next_alloc s bp = false)
    (h1 : GET_SIZE s.mem (HDRP bp) = sb) (h2 : PREV_BLKP s.mem bp = xl)
    (h3 : GET_SIZE s.mem (HDRP xl) = sl)
    (h4 : NEXT_BLKP s.mem bp = bp + sb) (h5 : GET_SIZE s.mem (HDRP (bp + sb)) = sr)
    (h6 : NEXT_BLKP (remove_block s xl).mem bp = bp + sb)
    (h7 : PREV_BLKP (remove_block (remove_block s xl) (bp + sb)).mem bp = xl)
    (hsz : sl + sb + sr < 2 ^ 31) (h8 : (sl + sb + sr) % 8 = 0) :
    coalesce s bp =
      (xl, insert_first { remove_block (remove_block s xl) (bp + sb) with
        mem := (PUT (PUT (remove_block (remove_block s xl) (bp + sb)).mem (xl - 4)
            (PACK (sl + sb + sr) 0))
          (xl + (sl + sb + sr) - 8) (PACK (sl + sb + sr) 0)) } xl) := by
  have hF : ∀ m : Mem,
      FTRP (PUT m (xl - 4) (PACK (sl + sb + sr) 0)) xl = xl + (sl + sb + sr) - 8 := by
    intro m
    unfold FTRP DSIZE HDRP WSIZE
    rw [GET_SIZE_PUT_PACK _ _ _ _ h8 hsz (by omega)]
  have hm : (sb + (sl + sr) % 2 ^ 64) % 2 ^ 64 = sl + sb + sr := by omega
  unfold coalesce
  simp only [hp, hn, h1, h2, h3, h4, h5, h6, h7, hm, Bool.and_false, Bool.false_eq_true,
    if_false, Bool.not_false, Bool.and_true, if_true, Bool.false_and, Bool.true_and,
    Bool.not_true]
  have e5 : HDRP xl = xl - 4 := rfl
  rw [e5, hF]

theorem noAdjFree_snoc (pre1 : List Blk) (L : Blk) (h : noAdjFree (pre1 ++ [L]))
    (hL : L.alloc = false) :
    noAdjFree pre1 ∧ ∀ L1, L1 ∈ pre1.getLast? → L1.alloc = true := by
  have h2 : noAdjFree (pre1 ++ [L] ++ []) := by simpa using h
  rw [noAdjFree_mid] at h2
  refine ⟨h2.1, fun L1 h1 => ?_⟩
  rcases h2.2.2.1 L1 h1 with hh | hh
  · exact hh
  · rw [hL] at hh; exact absurd hh (by simp)

theorem noAdjFree_cons (post1 : List Blk) (R : Blk) (h : noAdjFree (R :: post1))
    (hR : R.alloc = false) :
    noAdjFree post1 ∧ ∀ R1, R1 ∈ post1.head? → R1.alloc = true := by
  unfold noAdjFree at *
  rw [List.chain'_cons'] at h
  refine ⟨h.2, fun R1 h1 => ?_⟩
  rcases h.1 R1 h1 with hh | hh
  · rw [hR] at hh; exact absurd hh (by simp)
  · exact hh

theorem mem_freeAddrs_snoc (a : Nat) (pre1 : List Blk) (L : Blk) (y : Nat) :
    y ∈ freeAddrs a (pre1 ++ [L]) ↔
      y ∈ freeAddrs a pre1 ∨ (L.alloc = false ∧ y = endAddr a pre1) := by
  have := mem_freeAddrs_mid a pre1 [] L y
  simp only [List.append_nil] at this
  rw [this]
  simp [freeAddrs, addrs]

/-- Case 3 of `coalesce`: the left neighbour is free. -/
theorem coalesce_case3 {s : State} {pre1 post : List Blk} {L b : Blk} {fl : List Nat}
    (h : PreCo s (pre1 ++ [L]) b post fl)
    (hL : L.alloc = false) (hR : ∀ R, R ∈ post.head? → R.alloc = true) :
    (coalesce s (endAddr (s.heap_lo + 48) pre1 + L.size)).1 = endAddr (s.heap_lo + 48) pre1 ∧
      Inv (coalesce s (endAddr (s.heap_lo + 48) pre1 + L.size)).2
        (pre1 ++ [⟨L.size + b.size, false⟩] ++ post)
        (endAddr (s.heap_lo + 48) pre1 :: fl.erase (endAddr (s.heap_lo + 48) pre1)) ∧
      ∀ q, (q < s.heap_lo + 8 ∨ s.heap_lo + 16 ≤ q) →
        (∀ y, y ∈ endAddr (s.heap_lo + 48) pre1 :: fl → q < y ∨ y + 16 ≤ q) →
        (q < endAddr (s.heap_lo + 48) pre1 - 4 ∨ endAddr (s.heap_lo + 48) pre1 - 4 + 4 ≤ q) →
        (q < endAddr (s.heap_lo + 48) pre1 + (L.size + b.size) - 8 ∨
          endAddr (s.heap_lo + 48) pre1 + (L.size + b.size) - 8 + 4 ≤ q) →
        rd8 (coalesce s (endAddr (s.heap_lo + 48) pre1 + L.size)).2.mem q = rd8 s.mem q := by
  have hx : endAddr (s.heap_lo + 48) (pre1 ++ [L]) = endAddr (s.heap_lo + 48) pre1 + L.size := by
    rw [endAddr_append]; rfl
  have hn := next_alloc_of_head h.heap hR
  have hp : prev_alloc s (endAddr (s.heap_lo + 48) pre1 + L.size) = false := by
    rw [prev_alloc_snoc h.heap]; exact hL
  obtain ⟨p1, p2, p3, p4, p5, p6, p7⟩ := h.parts
  rw [hx] at hn p2 p3 p4 p5
  have hb := h.heap.bounds
  have hmb := mem_mid (s.heap_lo + 48) (pre1 ++ [L]) post b
  rw [hx] at hmb
  have hmL := mem_left (s.heap_lo + 48) pre1 post L b
  have rb := h.heap.read_block hmb
  have rL := h.heap.read_block hmL
  have rP := h.heap.read_prev hmL
  have fL := h.heap.toHeapCore.mem_facts hmL
  have hL24 := fL.2.2.1
  have hL8 := fL.2.2.2.1
  have hxL := fL.1
  have hfl0 := h.fl_iff
  have hnotin := h.notin
  rw [hx] at hfl0 hnotin
  have hLfl : endAddr (s.heap_lo + 48) pre1 ∈ fl := by
    rw [hfl0]; left
    rw [mem_freeAddrs_snoc]; right; exact ⟨hL, rfl⟩
  rw [coalesce_eq3b s _ b.size L.size _ hp hn rb.1 rP.1 rL.1
    (by clear * - hb p4 hxL; omega) (by clear * - p7 hL8; omega)]
  obtain ⟨h1, hfr1, e1, e2, e3, e4⟩ := h.heap.remove_block hLfl
  generalize remove_block s (endAddr (s.heap_lo + 48) pre1) = s1 at h1 hfr1 e1 e2 e3 e4 ⊢
  have hbs : pre1 ++ [L] ++ [b] ++ post = pre1 ++ [L, b] ++ post := by simp
  rw [hbs] at h1
  have hx0 : endAddr (s.heap_lo + 48) pre1 = endAddr (s1.heap_lo + 48) pre1 := by rw [e1]
  have ht0 : endAddr (s.heap_lo + 48) pre1 + (L.size + b.size) =
      endAddr (endAddr (s.heap_lo + 48) pre1) [L, b] := by
    simp only [endAddr]; omega
  have hfl1 : ∀ y, y ∈ fl.erase (endAddr (s.heap_lo + 48) pre1) →
      ∀ c, (y, c) ∈ addrs (endAddr (s.heap_lo + 48) pre1) [L, b] →
      y = endAddr (s.heap_lo + 48) pre1 := by
    intro y hy c hyc
    simp only [addrs, List.mem_cons, Prod.mk.injEq, List.not_mem_nil, or_false] at hyc
    rcases hyc with ⟨rfl, _⟩ | ⟨rfl, _⟩
    · rfl
    · exact absurd (List.mem_of_mem_erase hy) hnotin
  have h2 := h1.settag (by simp) false (endAddr (s.heap_lo + 48) pre1) (L.size + b.size)
    hx0 ht0 hfl1
  have hx1 : endAddr (s.heap_lo + 48) pre1 ∉ fl.erase (endAddr (s.heap_lo + 48) pre1) :=
    List.Nodup.not_mem_erase h.heap.nodup
  have hmem1 : ∃ c, (endAddr (s.heap_lo + 48) pre1, c) ∈
      addrs (s1.heap_lo + 48) (pre1 ++ [⟨L.size + b.size, false⟩] ++ post) := by
    rw [e1]; exact ⟨_, mem_mid _ pre1 post _⟩
  obtain ⟨h3, hfp, hfr3⟩ := h2.insert_first hx1 hmem1
  have hcp := noAdjFree_snoc pre1 L h.co_pre hL
  refine ⟨rfl, ⟨h3, ?_, ?_⟩, frame_compose e1 (fun y hy => List.mem_of_mem_erase hy) hfr1 hfr3⟩
  · intro y
    show y ∈ endAddr (s.heap_lo + 48) pre1 :: fl.erase (endAddr (s.heap_lo + 48) pre1) ↔
      y ∈ freeAddrs (s1.heap_lo + 48) (pre1 ++ [⟨L.size + b.size, false⟩] ++ post)
    rw [e1, mem_freeAddrs_mid]
    have e6 : endAddr (s.heap_lo + 48) pre1 + (L.size + b.size)
        = endAddr (s.heap_lo + 48) pre1 + L.size + b.size := by omega
    have hfl := hfl0 y
    rw [mem_freeAddrs_snoc] at hfl
    simp only [hL, true_and, or_assoc] at hfl
    show _ ↔ _ ∨ (_ ∧ _) ∨
      y ∈ freeAddrs (endAddr (s.heap_lo + 48) pre1 + (L.size + b.size)) post
    rw [e6]
    simp only [true_and]
    have hpre1 : heapBlocks s.mem (s.heap_lo + 48) pre1 := by
      rw [heapBlocks_append] at p1; exact p1.1
    apply mem_cons_erase_iff fl h.heap.nodup _ _ y _ _ hfl
    · intro hy
      have := mem_freeAddrs_range s.mem _ pre1 y hpre1 hy
      clear * - this
      omega
    · intro hy
      have := mem_freeAddrs_range s.mem _ post y p2 hy
      clear * - this hL24
      omega
  · rw [noAdjFree_mid]
    exact ⟨hcp.1, h.co_post, fun L1 hl => Or.inl (hcp.2 L1 hl), fun R hr => Or.inr (hR R hr)⟩

theorem mem_left2 (a : Nat) (pre1 post1 : List Blk) (L b R : Blk) :
    (endAddr a pre1, L) ∈ addrs a (pre1 ++ [L] ++ [b] ++ R :: post1) ∧
    (endAddr a pre1 + L.size, b) ∈ addrs a (pre1 ++ [L] ++ [b] ++ R :: post1) ∧
    (endAddr a pre1 + L.size + b.size, R) ∈ addrs a (pre1 ++ [L] ++ [b] ++ R :: post1) := by
  simp [addrs_append, addrs, endAddr_append, endAddr]

/-- Membership in the free list after two entries were unlinked and `x` linked. -/
theorem mem_cons_erase2_iff (fl : List Nat) (hnd : fl.Nodup) (x xR y : Nat) (P Q : Prop)
    (hfl : y ∈ fl ↔ (P ∨ y = x) ∨ y = xR ∨ Q) (hP : P → y ≠ xR ∧ y ≠ x) (hQ : Q → y ≠ xR ∧ y ≠ x) :
    y ∈ x :: (fl.erase x).erase xR ↔ P ∨ y = x ∨ Q := by
  rw [List.mem_cons, (hnd.erase x).mem_erase_iff, hnd.mem_erase_iff, hfl]
  constructor
  · rintro (h | ⟨h1, h0, (h2 | h2) | h2 | h2⟩)
    · exact Or.inr (Or.inl h)
    · exact Or.inl h2
    · exact absurd h2 h0
    · exact absurd h2 h1
    · exact Or.inr (Or.inr h2)
  · rintro (h | h | h)
    · exact Or.inr ⟨(hP h).1, (hP h).2, Or.inl (Or.inl h)⟩
    · exact Or.inl h
    · exact Or.inr ⟨(hQ h).1, (hQ h).2, Or.inr (Or.inr h)⟩

/-- Case 4 of `coalesce`: both neighbours are free. -/
theorem coalesce_case4 {s : State} {pre1 post1 : List Blk} {L b R : Blk} {fl : List Nat}
    (h : PreCo s (pre1 ++ [L]) b (R :: post1) fl)
    (hL : L.alloc = false) (hR : R.alloc = false) :
    (coalesce s (endAddr (s.heap_lo + 48) pre1 + L.size)).1 = endAddr (s.heap_lo + 48) pre1 ∧
      Inv (coalesce s (endAddr (s.heap_lo + 48) pre1 + L.size)).2
        (pre1 ++ [⟨L.size + b.size + R.size, false⟩] ++ post1)
        (endAddr (s.heap_lo + 48) pre1 ::
          (fl.erase (endAddr (s.heap_lo + 48) pre1)).erase
            (endAddr (s.heap_lo + 48) pre1 + L.size + b.size)) ∧
      ∀ q, (q < s.heap_lo + 8 ∨ s.heap_lo + 16 ≤ q) →
        (∀ y, y ∈ endAddr (s.heap_lo + 48) pre1 :: fl → q < y ∨ y + 16 ≤ q) →
        (q < endAddr (s.heap_lo + 48) pre1 - 4 ∨ endAddr (s.heap_lo + 48) pre1 - 4 + 4 ≤ q) →
        (q < endAddr (s.heap_lo + 48) pre1 + (L.size + b.size + R.size) - 8 ∨
          endAddr (s.heap_lo + 48) pre1 + (L.size + b.size + R.size) - 8 + 4 ≤ q) →
        rd8 (coalesce s (endAddr (s.heap_lo + 48) pre1 + L.size)).2.mem q = rd8 s.mem q := by
  have hx : endAddr (s.heap_lo + 48) (pre1 ++ [L]) = endAddr (s.heap_lo + 48) pre1 + L.size := by
    rw [endAddr_append]; rfl
  have hn : next_alloc s (endAddr (s.heap_lo + 48) (pre1 ++ [L])) = false := by
    rw [next_alloc_cons h.heap]; exact hR
  have hp : prev_alloc s (endAddr (s.heap_lo + 48) pre1 + L.size) = false := by
    rw [prev_alloc_snoc h.heap]; exact hL
  obtain ⟨p1, p2, p3, p4, p5, p6, p7⟩ := h.parts
  rw [hx] at hn p2 p3 p4 p5
  have hb := h.heap.bounds
  obtain ⟨hmL, hmb, hmR⟩ := mem_left2 (s.heap_lo + 48) pre1 post1 L b R
  have rb := h.heap.read_block hmb
  have rL := h.heap.read_block hmL
  have rR := h.heap.read_block hmR
  have rP := h.heap.read_prev hmL
  have fL := h.heap.toHeapCore.mem_facts hmL
  have fR := h.heap.toHeapCore.mem_facts hmR
  have hL24 := fL.2.2.1
  have hL8 := fL.2.2.2.1
  have hR24 := fR.2.2.1
  have hR8 := fR.2.2.2.1
  have hRend := fR.2.1
  have hxL := fL.1
  have hfl0 := h.fl_iff
  have hnotin := h.notin
  rw [hx] at hfl0 hnotin
  have hLfl : endAddr (s.heap_lo + 48) pre1 ∈ fl := by
    rw [hfl0]; left
    rw [mem_freeAddrs_snoc]; right; exact ⟨hL, rfl⟩
  have hRfl : endAddr (s.heap_lo + 48) pre1 + L.size + b.size ∈ fl := by
    rw [hfl0]; right
    rw [freeAddrs_cons, hR]; simp
  have hRfl1 : endAddr (s.heap_lo + 48) pre1 + L.size + b.size ∈
      fl.erase (endAddr (s.heap_lo + 48) pre1) := by
    rw [h.heap.nodup.mem_erase_iff]
    refine ⟨?_, hRfl⟩
    clear * - hL24 p6
    omega
  obtain ⟨s1, hs1⟩ : ∃ s1, s1 = remove_block s (endAddr (s.heap_lo + 48) pre1) := ⟨_, rfl⟩
  obtain ⟨h1, hfr1, e1, -, -, -⟩ := h.heap.remove_block hLfl
  rw [← hs1] at h1 e1 hfr1
  have hmb1 : (endAddr (s.heap_lo + 48) pre1 + L.size, b) ∈
      addrs (s1.heap_lo + 48) (pre1 ++ [L] ++ [b] ++ R :: post1) := by rw [e1]; exact hmb
  have h6 : NEXT_BLKP s1.mem (endAddr (s.heap_lo + 48) pre1 + L.size) =
      endAddr (s.heap_lo + 48) pre1 + L.size + b.size := (h1.read_block hmb1).2.2.1
  obtain ⟨s2, hs2⟩ : ∃ s2, s2 = remove_block s1
    (endAddr (s.heap_lo + 48) pre1 + L.size + b.size) := ⟨_, rfl⟩
  obtain ⟨h1b, hfr1b, e1b, -, -, -⟩ := h1.remove_block hRfl1
  rw [← hs2] at h1b e1b hfr1b
  have hfr2 : ∀ q, (∀ y, y ∈ fl → q < y ∨ y + 16 ≤ q) →
      (q < s.heap_lo + 8 ∨ s.heap_lo + 16 ≤ q) → rd8 s2.mem q = rd8 s.mem q := by
    intro q hq1 hq2
    rw [hfr1b q (fun y hy => hq1 y (List.mem_of_mem_erase hy)) (by rw [e1]; exact hq2)]
    exact hfr1 q hq1 hq2
  have e1c : s2.heap_lo = s.heap_lo := e1b.trans e1
  have hmL2 : (endAddr (s.heap_lo + 48) pre1, L) ∈
      addrs (s2.heap_lo + 48) (pre1 ++ [L] ++ [b] ++ R :: post1) := by rw [e1c]; exact hmL
  have h7 : PREV_BLKP s2.mem (endAddr (s.heap_lo + 48) pre1 + L.size) =
      endAddr (s.heap_lo + 48) pre1 := (h1b.read_prev hmL2).1
  rw [hs1] at h6 hs2
  rw [hs2] at h7
  rw [coalesce_eq4b s _ b.size L.size R.size _ hp hn rb.1 rP.1 rL.1 rb.2.2.1 rR.1 h6 h7
    (by clear * - hb hRend hxL; omega) (by clear * - p7 hL8 hR8; omega)]
  rw [← hs2]
  clear h6 h7 hs2 hs1 h1 e1 e1b hmb1 hmL2 hfr1 hfr1b s1
  have hbs : pre1 ++ [L] ++ [b] ++ R :: post1 = pre1 ++ [L, b, R] ++ post1 := by simp
  rw [hbs] at h1b
  have hx0 : endAddr (s.heap_lo + 48) pre1 = endAddr (s2.heap_lo + 48) pre1 := by rw [e1c]
  have ht0 : endAddr (s.heap_lo + 48) pre1 + (L.size + b.size + R.size) =
      endAddr (endAddr (s.heap_lo + 48) pre1) [L, b, R] := by
    simp only [endAddr]; omega
  have hfl1 : ∀ y, y ∈ (fl.erase (endAddr (s.heap_lo + 48) pre1)).erase
        (endAddr (s.heap_lo + 48) pre1 + L.size + b.size) →
      ∀ c, (y, c) ∈ addrs (endAddr (s.heap_lo + 48) pre1) [L, b, R] →
      y = endAddr (s.heap_lo + 48) pre1 := by
    intro y hy c hyc
    simp only [addrs, List.mem_cons, Prod.mk.injEq, List.not_mem_nil, or_false] at hyc
    rcases hyc with ⟨rfl, _⟩ | ⟨rfl, _⟩ | ⟨rfl, _⟩
    · rfl
    · exact absurd (List.mem_of_mem_erase (List.mem_of_mem_erase hy)) hnotin
    · exact absurd hy (List.Nodup.not_mem_erase (h.heap.nodup.erase _))
  have h2 := h1b.settag (by simp) false (endAddr (s.heap_lo + 48) pre1)
    (L.size + b.size + R.size) hx0 ht0 hfl1
  have hx1 : endAddr (s.heap_lo + 48) pre1 ∉ (fl.erase (endAddr (s.heap_lo + 48) pre1)).erase
      (endAddr (s.heap_lo + 48) pre1 + L.size + b.size) :=
    fun hh => (List.Nodup.not_mem_erase h.heap.nodup) (List.mem_of_mem_erase hh)
  have hmem1 : ∃ c, (endAddr (s.heap_lo + 48) pre1, c) ∈
      addrs (s2.heap_lo + 48) (pre1 ++ [⟨L.size + b.size + R.size, false⟩] ++ post1) := by
    rw [e1c]; exact ⟨_, mem_mid _ pre1 post1 _⟩
  obtain ⟨h3, hfp, hfr3⟩ := h2.insert_first hx1 hmem1
  have hcp := noAdjFree_snoc pre1 L h.co_pre hL
  have hcq := noAdjFree_cons post1 R h.co_post hR
  refine ⟨rfl, ⟨h3, ?_, ?_⟩, frame_compose e1c
    (fun y hy => List.mem_of_mem_erase (List.mem_of_mem_erase hy)) hfr2 hfr3⟩
  · intro y
    show y ∈ endAddr (s.heap_lo + 48) pre1 :: (fl.erase (endAddr (s.heap_lo + 48) pre1)).erase
        (endAddr (s.heap_lo + 48) pre1 + L.size + b.size) ↔
      y ∈ freeAddrs (s2.heap_lo + 48) (pre1 ++ [⟨L.size + b.size + R.size, false⟩] ++ post1)
    rw [e1c, mem_freeAddrs_mid]
    have e6 : endAddr (s.heap_lo + 48) pre1 + (L.size + b.size + R.size)
        = endAddr (s.heap_lo + 48) pre1 + L.size + b.size + R.size := by omega
    have hfl := hfl0 y
    rw [mem_freeAddrs_snoc, mem_freeAddrs_cons] at hfl
    simp only [hL, hR, true_and] at hfl
    show _ ↔ _ ∨ (_ ∧ _) ∨
      y ∈ freeAddrs (endAddr (s.heap_lo + 48) pre1 + (L.size + b.size + R.size)) post1
    rw [e6]
    simp only [true_and]
    have hpre1 : heapBlocks s.mem (s.heap_lo + 48) pre1 := by
      rw [heapBlocks_append] at p1; exact p1.1
    have hp2 : heapBlocks s.mem (endAddr (s.heap_lo + 48) pre1 + L.size + b.size + R.size)
        post1 := by
      simp only [heapBlocks] at p2; exact p2.2.2.2.2
    apply mem_cons_erase2_iff fl h.heap.nodup _ _ y _ _ hfl
    · intro hy
      have := mem_freeAddrs_range s.mem _ pre1 y hpre1 hy
      clear * - this hL24 p6
      omega
    · intro hy
      have := mem_freeAddrs_range s.mem _ post1 y hp2 hy
      clear * - this hL24 hR24 p6
      omega
  · rw [noAdjFree_mid]
    exact ⟨hcp.1, hcq.1, fun L1 hl => Or.inl (hcp.2 L1 hl), fun R1 hr => Or.inr (hcq.2 R1 hr)⟩

/-! ## The result of `coalesce`, in one statement -/

theorem left_cases (pre : List Blk) :
    (∀ L, L ∈ pre.getLast? → L.alloc = true) ∨ ∃ pre1 L, pre = pre1 ++ [L] ∧ L.alloc = false := by
  rcases nil_or_snoc pre with rfl | ⟨pre1, L, rfl⟩
  · left; simp
  · cases hL : L.alloc
    · right; exact ⟨pre1, L, rfl, hL⟩
    · left; intro L1 h1
      simp at h1
      rw [← h1]; exact hL

theorem right_cases (post : List Blk) :
    (∀ R, R ∈ post.head? → R.alloc = true) ∨ ∃ R post1, post = R :: post1 ∧ R.alloc = false := by
  cases post with
  | nil => left; simp
  | cons R post1 =>
    cases hR : R.alloc
    · right; exact ⟨R, post1, rfl, hR⟩
    · left; intro R1 h1
      simp at h1
      rw [← h1]; exact hR

theorem freeSize_of_alloc (o : Option Blk) (h : ∀ L, L ∈ o → L.alloc = true) : freeSize o = 0 := by
  cases o with
  | none => rfl
  | some L => simp [freeSize, h L rfl]

theorem dropFreeL_of_alloc (pre : List Blk) (h : ∀ L, L ∈ pre.getLast? → L.alloc = true) :
    dropFreeL pre = pre := by
  unfold dropFreeL
  cases hl : pre.getLast? with
  | none => rfl
  | some L => simp [h L (by rw [hl]; rfl)]

theorem dropFreeR_of_alloc (post : List Blk) (h : ∀ R, R ∈ post.head? → R.alloc = true) :
    dropFreeR post = post := by
  cases post with
  | nil => rfl
  | cons R post1 => simp [dropFreeR, h R (by simp)]

theorem freeSize_snoc (pre1 : List Blk) (L : Blk) (hL : L.alloc = false) :
    freeSize (pre1 ++ [L]).getLast? = L.size := by
  simp [freeSize, hL]

theorem dropFreeL_snoc (pre1 : List Blk) (L : Blk) (hL : L.alloc = false) :
    dropFreeL (pre1 ++ [L]) = pre1 := by
  simp [dropFreeL, hL]

theorem freeSize_cons (post1 : List Blk) (R : Blk) (hR : R.alloc = false) :
    freeSize (R :: post1).head? = R.size := by
  simp [freeSize, hR]

theorem dropFreeR_cons (post1 : List Blk) (R : Blk) (hR : R.alloc = false) :
    dropFreeR (R :: post1) = post1 := by
  simp [dropFreeR, hR]

/-- The bytes of an allocated block lie outside every free block. -/
theorem alloc_free_sep {s : State} {bs : List Blk} {fl : List Nat} (h : HeapCore s bs fl)
    {y z : Nat} {c d : Blk} (hy : (y, c) ∈ addrs (s.heap_lo + 48) bs) (hc : c.alloc = true)
    (hz : (z, d) ∈ addrs (s.heap_lo + 48) bs) (hd : d.alloc = false) (q : Nat)
    (hq1 : y - 4 ≤ q) (hq2 : q < y + c.size - 4) :
    (q < z - 4 ∨ z + d.size - 4 ≤ q) ∧ 24 ≤ d.size ∧ s.heap_lo + 48 ≤ z ∧ s.heap_lo + 44 ≤ q := by
  have f1 := h.mem_facts hy
  have f2 := h.mem_facts hz
  rcases addrs_disjoint s.mem _ bs y z c d h.blocks hy hz with ⟨rfl, rfl⟩ | hd1 | hd1
  · rw [hc] at hd; exact absurd hd (by simp)
  · omega
  · omega

theorem PreCo.fl_free_blk {s : State} {pre post : List Blk} {b : Blk} {fl : List Nat}
    (h : PreCo s pre b post fl) (z : Nat) (hz : z ∈ endAddr (s.heap_lo + 48) pre :: fl) :
    ∃ d, (z, d) ∈ addrs (s.heap_lo + 48) (pre ++ [b] ++ post) ∧ d.alloc = false := by
  rcases List.mem_cons.mp hz with rfl | hz
  · exact ⟨b, mem_mid _ pre post b, h.free⟩
  · rw [← mem_freeAddrs, mem_freeAddrs_mid]
    rcases (h.fl_iff z).mp hz with h1 | h1
    · exact Or.inl h1
    · exact Or.inr (Or.inr h1)

/-- From the frame of the link and tag writes to the frame of allocated blocks. -/
theorem PreCo.frame_alloc {s : State} {pre post : List Blk} {b : Blk} {fl : List Nat}
    (h : PreCo s pre b post fl) (m3 : Mem) (a1 a2 : Nat)
    (ha1 : ∃ z d, (z, d) ∈ addrs (s.heap_lo + 48) (pre ++ [b] ++ post) ∧ d.alloc = false ∧
      z - 4 ≤ a1 ∧ a1 + 4 ≤ z + d.size - 4)
    (ha2 : ∃ z d, (z, d) ∈ addrs (s.heap_lo + 48) (pre ++ [b] ++ post) ∧ d.alloc = false ∧
      z - 4 ≤ a2 ∧ a2 + 4 ≤ z + d.size - 4)
    (hfr : ∀ q, (q < s.heap_lo + 8 ∨ s.heap_lo + 16 ≤ q) →
      (∀ y, y ∈ endAddr (s.heap_lo + 48) pre :: fl → q < y ∨ y + 16 ≤ q) →
      (q < a1 ∨ a1 + 4 ≤ q) → (q < a2 ∨ a2 + 4 ≤ q) → rd8 m3 q = rd8 s.mem q) :
    ∀ y c, (y, c) ∈ addrs (s.heap_lo + 48) (pre ++ [b] ++ post) → c.alloc = true →
      ∀ q, y - 4 ≤ q → q < y + c.size - 4 → rd8 m3 q = rd8 s.mem q := by
  intro y c hy hc q hq1 hq2
  obtain ⟨z1, d1, hz1, hd1, g1, g2⟩ := ha1
  obtain ⟨z2, d2, hz2, hd2, g3, g4⟩ := ha2
  have s1 := alloc_free_sep h.heap.toHeapCore hy hc hz1 hd1 q hq1 hq2
  have s2 := alloc_free_sep h.heap.toHeapCore hy hc hz2 hd2 q hq1 hq2
  apply hfr q (by omega) _ (by omega) (by omega)
  intro z hz
  obtain ⟨d, hzd, hd⟩ := h.fl_free_blk z hz
  have s3 := alloc_free_sep h.heap.toHeapCore hy hc hzd hd q hq1 hq2
  omega

theorem endAddr_snoc (a : Nat) (pre1 : List Blk) (L : Blk) :
    endAddr a (pre1 ++ [L]) = endAddr a pre1 + L.size := by
  rw [endAddr_append]; rfl

/-- What `coalesce` does to a freed block that is not yet linked: the block is
merged with its free neighbours, the merged block is the new head of the free
list, the heap is well formed again, and no byte of an allocated block changed. -/
theorem coalesce_spec {s : State} {pre post : List Blk} {b : Blk} {fl : List Nat}
    (h : PreCo s pre b post fl) :
    (coalesce s (endAddr (s.heap_lo + 48) pre)).1 =
        endAddr (s.heap_lo + 48) pre - freeSize pre.getLast? ∧
      Inv (coalesce s (endAddr (s.heap_lo + 48) pre)).2
        (dropFreeL pre ++ [⟨freeSize pre.getLast? + b.size + freeSize post.head?, false⟩] ++
          dropFreeR post)
        ((endAddr (s.heap_lo + 48) pre - freeSize pre.getLast?) ::
          (fl.erase (endAddr (s.heap_lo + 48) pre - freeSize pre.getLast?)).erase
            (endAddr (s.heap_lo + 48) pre + b.size)) ∧
      ∀ y c, (y, c) ∈ addrs (s.heap_lo + 48) (pre ++ [b] ++ post) → c.alloc = true →
        ∀ q, y - 4 ≤ q → q < y + c.size - 4 →
          rd8 (coalesce s (endAddr (s.heap_lo + 48) pre)).2.mem q = rd8 s.mem q := by
  obtain ⟨p1, p2, p3, p4, p5, p6, p7⟩ := h.parts
  have hxnot : endAddr (s.heap_lo + 48) pre ∉ fl := h.notin
  -- the address after `b` is in the free list only if the right neighbour is free
  have hRnot : (∀ R, R ∈ post.head? → R.alloc = true) →
      ∀ l : List Nat, (∀ y, y ∈ l → y ∈ fl) → endAddr (s.heap_lo + 48) pre + b.size ∉ l := by
    intro hR l hl hmem
    rcases (h.fl_iff _).mp (hl _ hmem) with h1 | h1
    · have := mem_freeAddrs_range s.mem _ pre _ p1 h1
      omega
    · cases post with
      | nil => simp [freeAddrs, addrs] at h1
      | cons R post1 =>
        rw [mem_freeAddrs_cons] at h1
        rcases h1 with ⟨h2, _⟩ | h2
        · rw [hR R (by simp)] at h2; exact absurd h2 (by simp)
        · simp only [heapBlocks, BLOCKSIZE] at p2
          have := mem_freeAddrs_range s.mem _ post1 _ p2.2.2.2.2 h2
          omega
  have hbm := mem_mid (s.heap_lo + 48) pre post b
  have fb := h.heap.toHeapCore.mem_facts hbm
  rcases left_cases pre with hL | ⟨pre1, L, rfl, hL⟩ <;>
    rcases right_cases post with hR | ⟨R, post1, rfl, hR⟩
  · -- case 1
    obtain ⟨c1, c2, c3⟩ := coalesce_case1 h hL hR
    rw [freeSize_of_alloc _ hL, freeSize_of_alloc _ hR, dropFreeL_of_alloc _ hL,
      dropFreeR_of_alloc _ hR, Nat.sub_zero, List.erase_of_not_mem hxnot,
      List.erase_of_not_mem (hRnot hR fl (fun y hy => hy))]
    have e : (⟨0 + b.size + 0, false⟩ : Blk) = b := by
      have hf := h.free
      cases b with
      | mk sz al => simp only at hf; simp [hf]
    rw [e]
    refine ⟨c1, c2, ?_⟩
    rw [c3]
    obtain ⟨-, -, hfr⟩ := h.heap.insert_first h.notin ⟨b, hbm⟩
    exact h.frame_alloc _ (endAddr (s.heap_lo + 48) pre - 4) (endAddr (s.heap_lo + 48) pre - 4)
      ⟨_, b, hbm, h.free, Nat.le_refl _, by omega⟩ ⟨_, b, hbm, h.free, Nat.le_refl _, by omega⟩
      (fun q h1 h2 _ _ => hfr q h2 h1)
  · -- case 2
    obtain ⟨c1, c2, c3⟩ := coalesce_case2 h hL hR
    rw [freeSize_of_alloc _ hL, freeSize_cons _ _ hR, dropFreeL_of_alloc _ hL,
      dropFreeR_cons _ _ hR, Nat.sub_zero, List.erase_of_not_mem hxnot, Nat.zero_add]
    have hRm := mem_right (s.heap_lo + 48) pre post1 b R
    have fR := h.heap.toHeapCore.mem_facts hRm
    exact ⟨c1, c2, h.frame_alloc _ _ _ ⟨_, b, hbm, h.free, Nat.le_refl _, by omega⟩
      ⟨_, R, hRm, hR, by omega, by omega⟩ c3⟩
  · -- case 3
    have hx := endAddr_snoc (s.heap_lo + 48) pre1 L
    have hLm := mem_left (s.heap_lo + 48) pre1 post L b
    have fL := h.heap.toHeapCore.mem_facts hLm
    have hh := h
    rw [hx] at hbm fb
    obtain ⟨c1, c2, c3⟩ := coalesce_case3 h hL hR
    have hnot2 := hRnot hR (fl.erase (endAddr (s.heap_lo + 48) pre1))
      (fun y hy => List.mem_of_mem_erase hy)
    rw [freeSize_snoc _ _ hL, freeSize_of_alloc _ hR, dropFreeL_snoc _ _ hL,
      dropFreeR_of_alloc _ hR, hx, Nat.add_sub_cancel, Nat.add_zero]
    rw [hx] at hnot2
    rw [List.erase_of_not_mem hnot2]
    refine ⟨c1, c2, ?_⟩
    have := hh.frame_alloc (coalesce s (endAddr (s.heap_lo + 48) pre1 + L.size)).2.mem
      (endAddr (s.heap_lo + 48) pre1 - 4)
      (endAddr (s.heap_lo + 48) pre1 + (L.size + b.size) - 8)
      ⟨_, L, hLm, hL, Nat.le_refl _, by omega⟩ ⟨_, b, hbm, h.free, by omega, by omega⟩
    apply this
    intro q h1 h2 h3 h4
    apply c3 q h1 _ h3 h4
    intro y hy
    apply h2 y
    rcases List.mem_cons.mp hy with rfl | hy
    · apply List.mem_cons_of_mem
      rw [h.fl_iff]; left
      rw [mem_freeAddrs_snoc]; right; exact ⟨hL, rfl⟩
    · exact List.mem_cons_of_mem _ hy
  · -- case 4
    have hx := endAddr_snoc (s.heap_lo + 48) pre1 L
    obtain ⟨hLm, hbm2, hRm⟩ := mem_left2 (s.heap_lo + 48) pre1 post1 L b R
    have fL := h.heap.toHeapCore.mem_facts hLm
    have fR := h.heap.toHeapCore.mem_facts hRm
    have hh := h
    obtain ⟨c1, c2, c3⟩ := coalesce_case4 h hL hR
    rw [freeSize_snoc _ _ hL, freeSize_cons _ _ hR, dropFreeL_snoc _ _ hL,
      dropFreeR_cons _ _ hR, hx, Nat.add_sub_cancel]
    refine ⟨c1, c2, ?_⟩
    have := hh.frame_alloc (coalesce s (endAddr (s.heap_lo + 48) pre1 + L.size)).2.mem
      (endAddr (s.heap_lo + 48) pre1 - 4)
      (endAddr (s.heap_lo + 48) pre1 + (L.size + b.size + R.size) - 8)
      ⟨_, L, hLm, hL, Nat.le_refl _, by omega⟩ ⟨_, R, hRm, hR, by omega, by omega⟩
    apply this
    intro q h1 h2 h3 h4
    apply c3 q h1 _ h3 h4
    intro y hy
    apply h2 y
    rcases List.mem_cons.mp hy with rfl | hy
    · apply List.mem_cons_of_mem
      rw [h.fl_iff]; left
      rw [mem_freeAddrs_snoc]; right; exact ⟨hL, rfl⟩
    · exact List.mem_cons_of_mem _ hy

/-- The bytes that `coalesce` may change: link fields of free-list entries, of
the block itself and of the prologue, and, when blocks are merged, the header
and the footer of the merged block. -/
theorem coalesce_frame {s : State} {pre post : List Blk} {b : Blk} {fl : List Nat}
    (h : PreCo s pre b post fl) :
    ∀ q, (q < s.heap_lo + 8 ∨ s.heap_lo + 16 ≤ q) →
      (∀ y, y ∈ endAddr (s.heap_lo + 48) pre :: fl → q < y ∨ y + 16 ≤ q) →
      (freeSize pre.getLast? + freeSize post.head? ≠ 0 →
        (q < endAddr (s.heap_lo + 48) pre - freeSize pre.getLast? - 4 ∨
          endAddr (s.heap_lo + 48) pre - freeSize pre.getLast? ≤ q) ∧
        (q < endAddr (s.heap_lo + 48) pre + b.size + freeSize post.head? - 8 ∨
          endAddr (s.heap_lo + 48) pre + b.size + freeSize post.head? - 4 ≤ q)) →
      rd8 (coalesce s (endAddr (s.heap_lo + 48) pre)).2.mem q = rd8 s.mem q := by
  have hbm := mem_mid (s.heap_lo + 48) pre post b
  have fb := h.heap.toHeapCore.mem_facts hbm
  rcases left_cases pre with hL | ⟨pre1, L, rfl, hL⟩ <;>
    rcases right_cases post with hR | ⟨R, post1, rfl, hR⟩
  · obtain ⟨c1, c2, c3⟩ := coalesce_case1 h hL hR
    rw [c3]
    obtain ⟨-, -, hfr⟩ := h.heap.insert_first h.notin ⟨b, hbm⟩
    intro q h1 h2 _
    exact hfr q h2 h1
  · obtain ⟨c1, c2, c3⟩ := coalesce_case2 h hL hR
    have fR := h.heap.toHeapCore.mem_facts (mem_right (s.heap_lo + 48) pre post1 b R)
    rw [freeSize_of_alloc _ hL, freeSize_cons _ _ hR]
    intro q h1 h2 h3
    have h4 := h3 (by omega)
    exact c3 q h1 h2 (by omega) (by omega)
  · have hx := endAddr_snoc (s.heap_lo + 48) pre1 L
    have fL := h.heap.toHeapCore.mem_facts (mem_left (s.heap_lo + 48) pre1 post L b)
    obtain ⟨c1, c2, c3⟩ := coalesce_case3 h hL hR
    rw [freeSize_snoc _ _ hL, freeSize_of_alloc _ hR, hx]
    intro q h1 h2 h3
    have h4 := h3 (by omega)
    apply c3 q h1 _ (by omega) (by omega)
    intro y hy
    apply h2 y
    rcases List.mem_cons.mp hy with rfl | hy
    · apply List.mem_cons_of_mem
      rw [h.fl_iff]; left
      rw [mem_freeAddrs_snoc]; right; exact ⟨hL, rfl⟩
    · exact List.mem_cons_of_mem _ hy
  · have hx := endAddr_snoc (s.heap_lo + 48) pre1 L
    obtain ⟨hLm, hbm2, hRm⟩ := mem_left2 (s.heap_lo + 48) pre1 post1 L b R
    have fL := h.heap.toHeapCore.mem_facts hLm
    have fR := h.heap.toHeapCore.mem_facts hRm
    obtain ⟨c1, c2, c3⟩ := coalesce_case4 h hL hR
    rw [freeSize_snoc _ _ hL, freeSize_cons _ _ hR, hx]
    intro q h1 h2 h3
    have h4 := h3 (by omega)
    apply c3 q h1 _ (by omega) (by omega)
    intro y hy
    apply h2 y
    rcases List.mem_cons.mp hy with rfl | hy
    · apply List.mem_cons_of_mem
      rw [h.fl_iff]; left
      rw [mem_freeAddrs_snoc]; right; exact ⟨hL, rfl⟩
    · exact List.mem_cons_of_mem _ hy

/-! ## Writes inside the payload of an allocated block -/

theorem Inv.payload_write {s : State} {bs : List Blk} {fl : List Nat} (h : Inv s bs fl)
    {y : Nat} {b : Blk} (hy : (y, b) ∈ addrs (s.heap_lo + 48) bs) (hb : b.alloc = true)
    (m1 : Mem) (hm : ∀ q, (q < y ∨ y + b.size - 8 ≤ q) → rd8 m1 q = rd8 s.mem q) :
    Inv { s with mem := m1 } bs fl := by
  have hpo : payloadOnly s bs m1 := fun q _ hq2 => hm q (hq2 y b hy)
  obtain ⟨g1, g2, g3, g4, g5⟩ := h.toHeap.static_frame m1 hpo
  have fy := h.toHeap.toHeapCore.mem_facts hy
  refine ⟨⟨⟨h.lo_pos, h.listp, h.brk_le, h.max_le, h.cap_lt, g1, g2, g3, g4, h.brk_eq, ?_,
    h.nodup, h.fl_blk⟩, g5⟩, h.fl_iff, h.coalesced⟩
  show freeChain m1 (s.heap_lo + 8) 0 s.free_listp fl
  apply freeChain_congr s.mem m1 _ fl _ _ _ h.chain
  intro z hz
  obtain ⟨d, hzd, hd⟩ := (mem_freeAddrs _ _ _).mp ((h.fl_iff z).mp hz)
  have fz := h.toHeap.toHeapCore.mem_facts hzd
  have hsep : ∀ q, z ≤ q → q < z + 16 → rd8 m1 q = rd8 s.mem q := by
    intro q hq1 hq2
    apply hm
    rcases addrs_disjoint s.mem _ bs y z b d h.blocks hy hzd with ⟨rfl, rfl⟩ | hd1 | hd1
    · rw [hb] at hd; exact absurd hd (by simp)
    · omega
    · omega
  exact ⟨rd64_congr _ _ _ (fun q h1 h2 => hsep q (by omega) (by omega)),
    rd64_congr _ _ _ (fun q h1 h2 => hsep q (by omega) (by omega))⟩

/-! ## Growing the heap -/

theorem ext_size_facts (words : Nat) :
    24 ≤ ext_size words ∧ ext_size words % 8 = 0 ∧ ext_size words < 2 ^ 64 := by
  unfold ext_size WSIZE BLOCKSIZE
  simp only
  split <;> split <;> omega

theorem ext_size_of_size (a : Nat) (h8 : a % 8 = 0) (h24 : 24 ≤ a) (hlt : a < 2 ^ 64) :
    ext_size (a / WSIZE) = a := by
  unfold ext_size WSIZE BLOCKSIZE
  simp only
  split <;> split <;> omega

theorem ext_size_init : ext_size (CHUNKSIZE / WSIZE) = 24 := by decide

theorem extend_heap_unfold (s : State) (words : Nat) :
    extend_heap s words =
      match mem_sbrk s (ext_size words) with
      | (none, s1) => (0, s1)
      | (some bp, s1) =>
        coalesce { s1 with mem := (PUT (PUT (PUT s1.mem (HDRP bp) (PACK (ext_size words) 0))
          (FTRP (PUT s1.mem (HDRP bp) (PACK (ext_size words) 0)) bp) (PACK (ext_size words) 0))
          (HDRP (NEXT_BLKP (PUT (PUT s1.mem (HDRP bp) (PACK (ext_size words) 0))
            (FTRP (PUT s1.mem (HDRP bp) (PACK (ext_size words) 0)) bp)
            (PACK (ext_size words) 0)) bp)) (PACK 0 1)) } bp := rfl

theorem extend_heap_fail (s : State) (words : Nat) (h : s.heap_max < s.brk + ext_size words) :
    extend_heap s words = (0, { s with sbrk_log := ext_size words :: s.sbrk_log }) := by
  rw [extend_heap_unfold]
  unfold mem_sbrk
  rw [if_neg (by omega)]

theorem GET_SIZE_PUT_disj (m : Mem) (p v q : Nat) (h : q + 4 ≤ p ∨ p + 4 ≤ q) :
    GET_SIZE (PUT m p v) q = GET_SIZE m q := by
  unfold GET_SIZE
  rw [GET_PUT_disj _ _ _ _ h]

theorem extend_heap_ok (s : State) (words : Nat)
    (hfit : s.brk + ext_size words ≤ s.heap_max) (hlt : ext_size words < 2 ^ 31)
    (hbrk : 4 ≤ s.brk) :
    extend_heap s words =
      coalesce { s with brk := s.brk + ext_size words,
                        sbrk_log := ext_size words :: s.sbrk_log,
                        mem := (PUT (PUT (PUT s.mem (s.brk - 4) (PACK (ext_size words) 0))
                          (s.brk + ext_size words - 8) (PACK (ext_size words) 0))
                          (s.brk + ext_size words - 4) (PACK 0 1)) } s.brk := by
  obtain ⟨h24, h8, _⟩ := ext_size_facts words
  have hF : FTRP (PUT s.mem (s.brk - 4) (PACK (ext_size words) 0)) s.brk =
      s.brk + ext_size words - 8 := by
    unfold FTRP HDRP WSIZE DSIZE
    rw [GET_SIZE_PUT_PACK _ _ _ _ h8 hlt (by omega)]
  have hN : ∀ v, NEXT_BLKP (PUT (PUT s.mem (s.brk - 4) (PACK (ext_size words) 0))
      (s.brk + ext_size words - 8) v) s.brk = s.brk + ext_size words := by
    intro v
    unfold NEXT_BLKP HDRP WSIZE
    rw [GET_SIZE_PUT_disj _ _ _ _ (by omega), GET_SIZE_PUT_PACK _ _ _ _ h8 hlt (by omega)]
  rw [extend_heap_unfold]
  unfold mem_sbrk
  rw [if_pos hfit]
  simp only
  have e : HDRP s.brk = s.brk - 4 := rfl
  rw [e, hF, hN]
  rfl

/-- The state in which `extend_heap` calls `coalesce`. -/
theorem HeapCore.extend {s : State} {bs : List Blk} {fl : List Nat} (h : HeapCore s bs fl)
    (hfl : ∀ x, x ∈ fl ↔ x ∈ freeAddrs (s.heap_lo + 48) bs) (hco : noAdjFree bs)
    (sz : Nat) (h24 : 24 ≤ sz) (h8 : sz % 8 = 0) (hfit : s.brk + sz ≤ s.heap_max) :
    PreCo { s with brk := s.brk + sz, sbrk_log := sz :: s.sbrk_log,
                   mem := (PUT (PUT (PUT s.mem (s.brk - 4) (PACK sz 0))
                     (s.brk + sz - 8) (PACK sz 0)) (s.brk + sz - 4) (PACK 0 1)) }
      bs ⟨sz, false⟩ [] fl := by
  have hb := h.bounds
  have hmax := h.max_le
  have hcap := h.cap_lt
  have hlo := h.lo_pos
  have hbrk := h.brk_eq
  have hszlt : sz < 2 ^ 31 := by omega
  have out : ∀ q, q < s.brk - 4 →
      rd8 (PUT (PUT (PUT s.mem (s.brk - 4) (PACK sz 0)) (s.brk + sz - 8) (PACK sz 0))
        (s.brk + sz - 4) (PACK 0 1)) q = rd8 s.mem q := by
    intro q hq
    simp only [PUT]
    rw [rd8_wrBytes_out _ _ _ _ _ (by omega), rd8_wrBytes_out _ _ _ _ _ (by omega),
      rd8_wrBytes_out _ _ _ _ _ (by omega)]
  have hnotin : endAddr (s.heap_lo + 48) bs ∉ fl := by
    intro hmem
    obtain ⟨d, hd⟩ := h.fl_blk _ hmem
    have := h.mem_facts hd
    omega
  refine ⟨⟨⟨hlo, h.listp, hfit, hmax, hcap, ?_, ?_, ?_, ?_, ?_, ?_, h.nodup, ?_⟩, ?_⟩, rfl,
    hnotin, ?_, hco, ?_⟩
  · show GET _ (s.heap_lo + 4) = 25
    rw [← h.pro_hdr]; exact GET_congr _ _ _ (fun x h1 h2 => out x (by omega))
  · show GET _ (s.heap_lo + 24) = 25
    rw [← h.pro_ftr]; exact GET_congr _ _ _ (fun x h1 h2 => out x (by omega))
  · show GET _ (s.heap_lo + 40) = 0
    exact Eq.trans (GET_congr _ _ _ (fun x h1 h2 => out x (by omega))) h.gap
  · show heapBlocks _ (s.heap_lo + 48) (bs ++ [⟨sz, false⟩] ++ [])
    rw [List.append_nil, heapBlocks_append]
    refine ⟨heapBlocks_of_agree _ _ _ bs (by omega)
      (fun x h1 h2 => out x (by omega)) h.blocks, ?_⟩
    rw [← hbrk]
    simp only [heapBlocks, BLOCKSIZE, Blk.word, and_true]
    refine ⟨h24, h8, ?_, ?_⟩
    · rw [GET_PUT_disj _ _ _ _ (by omega), GET_PUT_disj _ _ _ _ (by omega),
        GET_PUT_PACK _ _ _ _ h8 hszlt (by omega)]
      simp
    · rw [GET_PUT_disj _ _ _ _ (by omega), GET_PUT_PACK _ _ _ _ h8 hszlt (by omega)]
      simp
  · show s.brk + sz = endAddr (s.heap_lo + 48) (bs ++ [⟨sz, false⟩] ++ [])
    rw [List.append_nil, endAddr_snoc, ← hbrk]
  · show freeChain _ (s.heap_lo + 8) 0 s.free_listp fl
    apply freeChain_congr s.mem _ _ fl _ _ _ h.chain
    intro z hz
    obtain ⟨d, hd⟩ := h.fl_blk _ hz
    have := h.mem_facts hd
    exact ⟨rd64_congr _ _ _ (fun q h1 h2 => out q (by omega)),
      rd64_congr _ _ _ (fun q h1 h2 => out q (by omega))⟩
  · intro z hz
    obtain ⟨d, hd⟩ := h.fl_blk _ hz
    refine ⟨d, ?_⟩
    show (z, d) ∈ addrs (s.heap_lo + 48) (bs ++ [⟨sz, false⟩] ++ [])
    rw [List.append_nil, addrs_append]
    exact List.mem_append_left _ hd
  · show GET _ (s.brk + sz - 4) = 1
    rw [GET_PUT_PACK _ _ _ _ (by norm_num) (by norm_num) (by omega)]
  · intro y
    show y ∈ fl ↔ y ∈ freeAddrs (s.heap_lo + 48) bs ∨ y ∈ freeAddrs _ []
    rw [hfl y]
    simp [freeAddrs, addrs]
  · exact List.chain'_nil

theorem freeSize_last_bound {s : State} {bs : List Blk} {fl : List Nat} (h : HeapCore s bs fl) :
    freeSize bs.getLast? = 0 ∨
      (24 ≤ freeSize bs.getLast? ∧ s.heap_lo + 48 + freeSize bs.getLast? ≤ s.brk) := by
  rcases left_cases bs with hL | ⟨pre1, L, rfl, hL⟩
  · left; exact freeSize_of_alloc _ hL
  · right
    rw [freeSize_snoc _ _ hL]
    have hm : (endAddr (s.heap_lo + 48) pre1, L) ∈ addrs (s.heap_lo + 48) (pre1 ++ [L]) := by
      simp [addrs_append, addrs]
    have := h.mem_facts hm
    omega

theorem endAddr_dropFreeL (a : Nat) (bs : List Blk) :
    endAddr a (dropFreeL bs) = endAddr a bs - freeSize bs.getLast? := by
  rcases left_cases bs with hL | ⟨pre1, L, rfl, hL⟩
  · rw [dropFreeL_of_alloc _ hL, freeSize_of_alloc _ hL, Nat.sub_zero]
  · rw [dropFreeL_snoc _ _ hL, freeSize_snoc _ _ hL, endAddr_snoc, Nat.add_sub_cancel]

/-- Allocated blocks are not touched by dropping a free last block. -/
theorem allocAddrs_dropFreeL (a : Nat) (bs : List Blk) :
    allocAddrs a (dropFreeL bs) = allocAddrs a bs := by
  rcases left_cases bs with hL | ⟨pre1, L, rfl, hL⟩
  · rw [dropFreeL_of_alloc _ hL]
  · rw [dropFreeL_snoc _ _ hL, allocAddrs_append, allocAddrs_cons, hL]
    simp [allocAddrs, addrs]

theorem allocAddrs_dropFreeR (a : Nat) (post : List Blk) :
    allocAddrs (a + freeSize post.head?) (dropFreeR post) = allocAddrs a post := by
  rcases right_cases post with hR | ⟨R, post1, rfl, hR⟩
  · rw [dropFreeR_of_alloc _ hR, freeSize_of_alloc _ hR, Nat.add_zero]
  · rw [dropFreeR_cons _ _ hR, freeSize_cons _ _ hR, allocAddrs_cons, hR]
    simp

theorem freeSize_none : freeSize none = 0 := rfl

theorem dropFreeR_nil : dropFreeR [] = [] := rfl

/-- What a successful `extend_heap` does. -/
theorem extend_heap_spec {s : State} {bs : List Blk} {fl : List Nat} (h : HeapCore s bs fl)
    (hfl : ∀ x, x ∈ fl ↔ x ∈ freeAddrs (s.heap_lo + 48) bs) (hco : noAdjFree bs)
    (words : Nat) (hfit : s.brk + ext_size words ≤ s.heap_max) :
    (extend_heap s words).1 = s.brk - freeSize bs.getLast? ∧
      Inv (extend_heap s words).2
        (dropFreeL bs ++ [⟨freeSize bs.getLast? + ext_size words, false⟩])
        ((s.brk - freeSize bs.getLast?) :: fl.erase (s.brk - freeSize bs.getLast?)) ∧
      (extend_heap s words).2.heap_lo = s.heap_lo ∧
      (extend_heap s words).2.brk = s.brk + ext_size words ∧
      (extend_heap s words).2.heap_max = s.heap_max ∧
      (extend_heap s words).2.sbrk_log = ext_size words :: s.sbrk_log ∧
      (∀ y c, (y, c) ∈ addrs (s.heap_lo + 48) bs → c.alloc = true →
        ∀ q, y - 4 ≤ q → q < y + c.size - 4 →
          rd8 (extend_heap s words).2.mem q = rd8 s.mem q) ∧
      GET (extend_heap s words).2.mem (s.brk - 4) = ext_size words := by
  obtain ⟨h24, h8, _⟩ := ext_size_facts words
  have hb := h.bounds
  have hmax := h.max_le
  have hcap := h.cap_lt
  have hbrk := h.brk_eq
  have hszlt : ext_size words < 2 ^ 31 := by omega
  have hpre := h.extend hfl hco (ext_size words) h24 h8 hfit
  rw [extend_heap_ok s words hfit hszlt (by omega)]
  generalize hs1 : ({ s with brk := s.brk + ext_size words,
                              sbrk_log := ext_size words :: s.sbrk_log,
                              mem := (PUT (PUT (PUT s.mem (s.brk - 4) (PACK (ext_size words) 0))
                                (s.brk + ext_size words - 8) (PACK (ext_size words) 0))
                                (s.brk + ext_size words - 4) (PACK 0 1)) } : State) = s1 at hpre ⊢
  have e1 : s1.heap_lo = s.heap_lo := by rw [← hs1]
  have e2 : s1.brk = s.brk + ext_size words := by rw [← hs1]
  have e3 : s1.heap_max = s.heap_max := by rw [← hs1]
  have e4 : s1.sbrk_log = ext_size words :: s.sbrk_log := by rw [← hs1]
  have e5 : s1.mem = PUT (PUT (PUT s.mem (s.brk - 4) (PACK (ext_size words) 0))
        (s.brk + ext_size words - 8) (PACK (ext_size words) 0))
        (s.brk + ext_size words - 4) (PACK 0 1) := by rw [← hs1]
  clear hs1
  have out : ∀ q, q < s.brk - 4 → rd8 s1.mem q = rd8 s.mem q := by
    intro q hq
    rw [e5]
    simp only [PUT]
    rw [rd8_wrBytes_out _ _ _ _ _ (by omega), rd8_wrBytes_out _ _ _ _ _ (by omega),
      rd8_wrBytes_out _ _ _ _ _ (by omega)]
  have hx : endAddr (s1.heap_lo + 48) bs = s.brk := by rw [e1, ← hbrk]
  obtain ⟨c1, c2, c3⟩ := coalesce_spec hpre
  have cf := coalesce_frame hpre
  have se := coalesce_sameEnv s1 (endAddr (s1.heap_lo + 48) bs)
  rw [hx] at c1 c2 c3 cf se
  obtain ⟨se1, se2, se3, se4, se5⟩ := se
  have hnot : s.brk + ext_size words ∉ fl.erase (s.brk - freeSize bs.getLast?) := by
    intro hmem
    obtain ⟨d, hd⟩ := h.fl_blk _ (List.mem_of_mem_erase hmem)
    have := h.mem_facts hd
    omega
  have hfs := freeSize_last_bound h
  simp only [List.head?_nil, freeSize_none, Nat.add_zero, dropFreeR_nil, List.append_nil] at c2 cf
  rw [List.erase_of_not_mem hnot] at c2
  refine ⟨c1, c2, se1.trans e1, se2.trans e2, se3.trans e3, se5.trans e4, ?_, ?_⟩
  · intro y c hy hc q hq1 hq2
    have fy := h.mem_facts hy
    rw [c3 y c (by rw [e1, List.append_nil, addrs_append]; exact List.mem_append_left _ hy)
      hc q hq1 hq2]
    exact out q (by omega)
  · have hg : GET s1.mem (s.brk - 4) = ext_size words := by
      rw [e5, GET_PUT_disj _ _ _ _ (by omega), GET_PUT_disj _ _ _ _ (by omega),
        GET_PUT_PACK _ _ _ _ h8 hszlt (by omega)]
      rfl
    rw [← hg]
    apply GET_congr
    intro q hq1 hq2
    apply cf q (by omega)
    · intro z hz
      rcases List.mem_cons.mp hz with rfl | hz
      · omega
      · obtain ⟨d, hd⟩ := h.fl_blk _ hz
        have := h.mem_facts hd
        omega
    · intro hne
      omega

/-! ## Initialisation -/

theorem init_tail (s2 s : State) (h : HeapCore s2 [] [])
    (hi : (match extend_heap s2 (CHUNKSIZE / WSIZE) with
      | (0, s3) => ((-1 : Int), s3)
      | (_ + 1, s3) => (0, s3)) = (0, s)) :
    Inv s [⟨24, false⟩] [s2.brk] ∧ s.heap_lo = s2.heap_lo ∧ s.brk = s2.brk + 24 ∧
      s.heap_max = s2.heap_max ∧ s.sbrk_log = 24 :: s2.sbrk_log ∧
      s2.brk + 24 ≤ s2.heap_max ∧ s = (extend_heap s2 (CHUNKSIZE / WSIZE)).2 := by
  have hb := h.bounds
  by_cases hfit : s2.brk + ext_size (CHUNKSIZE / WSIZE) ≤ s2.heap_max
  · obtain ⟨c1, c2, c3, c4, c5, c6, -, -⟩ :=
      extend_heap_spec h (by simp [freeAddrs, addrs]) List.chain'_nil (CHUNKSIZE / WSIZE) hfit
    rw [ext_size_init] at c2 c4 c6 hfit
    simp only [List.getLast?_nil, freeSize_none, Nat.sub_zero, dropFreeL, List.nil_append,
      Nat.zero_add, List.erase_nil] at c1 c2
    rcases hr : extend_heap s2 (CHUNKSIZE / WSIZE) with ⟨p, s3⟩
    rw [hr] at hi c1 c2 c3 c4 c5 c6
    simp only at c1 c2 c3 c4 c5 c6
    cases p with
    | zero => omega
    | succ p =>
      simp only [Prod.mk.injEq, true_and] at hi
      subst hi
      exact ⟨c2, c3, c4, c5, c6, hfit, rfl⟩
  · rw [extend_heap_fail s2 _ (by omega)] at hi
    simp at hi

theorem PACK_24_1 : PACK BLOCKSIZE 1 = 25 := by decide

theorem PACK_0_1 : PACK 0 1 = 1 := by decide

/-- The heap that `mm_init` builds. -/
theorem mm_init_spec (m0 : Mem) (lo cap : Nat) (s : State) (hf : fresh_machine m0 lo cap)
    (hi : mm_init (machine m0 lo cap) = (0, s)) :
    Inv s [⟨24, false⟩] [lo + 48] ∧ s.heap_lo = lo ∧ s.brk = lo + 72 ∧
      s.heap_max = lo + cap ∧ s.sbrk_log = [24, 48] ∧ 72 ≤ cap := by
  obtain ⟨f1, f2, f3, f4⟩ := hf
  unfold mm_init mem_sbrk at hi
  simp only [machine, BLOCKSIZE, WSIZE, DSIZE] at hi
  by_cases hc : lo + 2 * 24 ≤ lo + cap
  · rw [if_pos hc] at hi
    simp only at hi
    have hz : ∀ a, lo ≤ a → a < lo + cap → rd8 m0 a = 0 := fun a h1 h2 => f4 a h1 h2
    have := init_tail _ s ?_ hi
    · obtain ⟨t1, t2, t3, t4, t5, t6, -⟩ := this
      simp only at t1 t2 t3 t4 t5 t6
      refine ⟨?_, t2, by omega, t4, t5, by omega⟩
      have e : lo + 2 * 24 = lo + 48 := by omega
      rw [e] at t1
      exact t1
    · refine ⟨f1, rfl, hc, f2, ?_, ?_, ?_, ?_, trivial, rfl, ?_, List.nodup_nil, ?_⟩
      · show lo + cap - lo < 2 ^ 31
        omega
      · show GET _ (lo + 4) = 25
        rw [GET_PUT_disj _ _ _ _ (by omega), GET_PUT_disj _ _ _ _ (by omega),
          GET_PUT_disj _ _ _ _ (by omega), GET_PUT_disj _ _ _ _ (by omega), GET_PUT_same]
        decide
      · show GET _ (lo + 24) = 25
        rw [GET_PUT_disj _ _ _ _ (by omega), GET_PUT_same]
        decide
      · show GET _ (lo + 40) = 0
        rw [GET_PUT_disj _ _ _ _ (by omega), GET_PUT_disj _ _ _ _ (by omega),
          GET_PUT_disj _ _ _ _ (by omega), GET_PUT_disj _ _ _ _ (by omega),
          GET_PUT_disj _ _ _ _ (by omega), GET_PUT_disj _ _ _ _ (by omega)]
        unfold GET
        rw [hz _ (by omega) (by omega), hz _ (by omega) (by omega), hz _ (by omega) (by omega),
          hz _ (by omega) (by omega)]
      · show freeChain _ (lo + 8) 0 (lo + 8) []
        rfl
      · intro x hx
        simp at hx
  · rw [if_neg hc] at hi
    simp at hi

theorem Good_init (m0 : Mem) (lo cap : Nat) (s : State) (hf : fresh_machine m0 lo cap)
    (hi : mm_init (machine m0 lo cap) = (0, s)) : Good s [] := by
  obtain ⟨h, e1, -⟩ := mm_init_spec m0 lo cap s hf hi
  refine ⟨List.nodup_nil, _, _, h, ?_⟩
  intro p
  simp [allocAddrs, addrs]

/-! ## The growth log -/

theorem place_sameEnv (s : State) (bp asize : Nat) : sameEnv s (place s bp asize) := by
  unfold place
  simp only
  split
  · exact sameEnv_trans (sameEnv_trans (sameEnv_trans (sameEnv_mem _ _) (remove_block_sameEnv _ _))
      (sameEnv_mem _ _)) (coalesce_sameEnv _ _)
  · exact sameEnv_trans (sameEnv_mem _ _) (remove_block_sameEnv _ _)

theorem mm_free_sameEnv (s : State) (bp : Nat) : sameEnv s (mm_free s bp) := by
  unfold mm_free
  split
  · exact sameEnv_refl s
  · exact sameEnv_trans (sameEnv_mem _ _) (coalesce_sameEnv _ _)

theorem place_log (s : State) (bp asize : Nat) : (place s bp asize).sbrk_log = s.sbrk_log :=
  (place_sameEnv s bp asize).2.2.2.2

theorem mm_free_log (s : State) (bp : Nat) : (mm_free s bp).sbrk_log = s.sbrk_log :=
  (mm_free_sameEnv s bp).2.2.2.2

theorem extend_heap_log (s : State) (words : Nat) :
    (extend_heap s words).2.sbrk_log = ext_size words :: s.sbrk_log ∧
      (extend_heap s words).2.heap_lo = s.heap_lo ∧
      (extend_heap s words).2.heap_max = s.heap_max ∧
      (extend_heap s words).2.heap_listp = s.heap_listp := by
  rw [extend_heap_unfold]
  unfold mem_sbrk
  by_cases hfit : s.brk + ext_size words ≤ s.heap_max
  · rw [if_pos hfit]
    simp only
    obtain ⟨a1, a2, a3, a4, a5⟩ := coalesce_sameEnv
      { s with brk := s.brk + ext_size words, sbrk_log := ext_size words :: s.sbrk_log,
               mem := (PUT (PUT (PUT s.mem (HDRP s.brk) (PACK (ext_size words) 0))
                (FTRP (PUT s.mem (HDRP s.brk) (PACK (ext_size words) 0)) s.brk)
                  (PACK (ext_size words) 0))
                (HDRP (NEXT_BLKP (PUT (PUT s.mem (HDRP s.brk) (PACK (ext_size words) 0))
                  (FTRP (PUT s.mem (HDRP s.brk) (PACK (ext_size words) 0)) s.brk)
                  (PACK (ext_size words) 0)) s.brk)) (PACK 0 1)) } s.brk
    exact ⟨a5, a1, a3, a4⟩
  · rw [if_neg hfit]
    exact ⟨rfl, rfl, rfl, rfl⟩

/-- A failed growth call inside `mm_malloc` leaves the allocator as it was. -/
theorem malloc_growth_failed (s s1 : State) (n q : Nat) (h : mm_malloc s n = some (q, s1))
    (hf : growth_failed s s1) :
    q = 0 ∧ s1.mem = s.mem ∧ s1.free_listp = s.free_listp ∧ s1.brk = s.brk ∧
      s1.heap_listp = s.heap_listp := by
  obtain ⟨k, hk1, hk2⟩ := hf
  unfold mm_malloc at h
  split at h
  · simp only [Option.some.injEq, Prod.mk.injEq] at h
    obtain ⟨-, rfl⟩ := h
    exact absurd hk1.symm (List.cons_ne_self _ _)
  · simp only at h
    split at h
    · simp at h
    · simp only [Option.some.injEq, Prod.mk.injEq] at h
      obtain ⟨-, rfl⟩ := h
      rw [place_log] at hk1
      exact absurd hk1.symm (List.cons_ne_self _ _)
    · have hlog := (extend_heap_log s (MAX (adjusted n) CHUNKSIZE / WSIZE)).1
      by_cases hfit : s.brk + ext_size (MAX (adjusted n) CHUNKSIZE / WSIZE) ≤ s.heap_max
      · exfalso
        have hk : k = ext_size (MAX (adjusted n) CHUNKSIZE / WSIZE) := by
          split at h
          · simp only [Option.some.injEq, Prod.mk.injEq] at h
            obtain ⟨-, rfl⟩ := h
            rename_i hx
            rw [hx] at hlog
            simp only at hlog
            rw [hlog] at hk1
            simp only [List.cons.injEq, and_true] at hk1
            exact hk1.symm
          · simp only [Option.some.injEq, Prod.mk.injEq] at h
            obtain ⟨-, rfl⟩ := h
            rename_i hx
            rw [hx] at hlog
            simp only at hlog
            rw [place_log, hlog] at hk1
            simp only [List.cons.injEq, and_true] at hk1
            exact hk1.symm
        omega
      · rw [extend_heap_fail s _ (by omega)] at h
        simp only [Option.some.injEq, Prod.mk.injEq] at h
        obtain ⟨rfl, rfl⟩ := h
        exact ⟨rfl, rfl, rfl, rfl, rfl⟩

theorem growth_failed_congr (s s1 s2 : State) (h : s2.sbrk_log = s1.sbrk_log)
    (hf : growth_failed s s2) : growth_failed s s1 := by
  obtain ⟨k, hk1, hk2⟩ := hf
  exact ⟨k, h ▸ hk1, hk2⟩

theorem not_growth_failed_of_log (s s1 : State) (h : s1.sbrk_log = s.sbrk_log) :
    ¬ growth_failed s s1 := by
  rintro ⟨k, hk1, -⟩
  rw [h] at hk1
  exact absurd hk1.symm (List.cons_ne_self _ _)

/-- A failed growth call inside `mm_realloc` leaves the allocator as it was. -/
theorem realloc_growth_failed (s s1 : State) (p n q : Nat)
    (h : mm_realloc s p n = some (q, s1)) (hf : growth_failed s s1) :
    q = 0 ∧ s1.mem = s.mem ∧ s1.free_listp = s.free_listp ∧ s1.brk = s.brk ∧
      s1.heap_listp = s.heap_listp := by
  unfold mm_realloc at h
  simp only at h
  split at h
  · simp only [Option.some.injEq, Prod.mk.injEq] at h
    obtain ⟨-, rfl⟩ := h
    exact absurd hf (not_growth_failed_of_log _ _ (mm_free_log s p))
  · split at h
    · exact malloc_growth_failed s s1 n q h hf
    · split at h
      · simp only [Option.some.injEq, Prod.mk.injEq] at h
        obtain ⟨-, rfl⟩ := h
        exact absurd hf (not_growth_failed_of_log _ _ rfl)
      · split at h
        · split at h
          · simp only [Option.some.injEq, Prod.mk.injEq] at h
            obtain ⟨-, rfl⟩ := h
            exact absurd hf (not_growth_failed_of_log _ _ rfl)
          · simp only [Option.some.injEq, Prod.mk.injEq] at h
            obtain ⟨-, rfl⟩ := h
            exact absurd hf (not_growth_failed_of_log _ _ (mm_free_log _ _))
        · split at h
          · simp at h
          · rename_i hm
            simp only [Option.some.injEq, Prod.mk.injEq] at h
            obtain ⟨rfl, rfl⟩ := h
            exact malloc_growth_failed s _ n 0 hm hf
          · rename_i hm
            simp only [Option.some.injEq, Prod.mk.injEq] at h
            obtain ⟨-, rfl⟩ := h
            have hf2 := growth_failed_congr s _ _ (mm_free_log _ _) hf
            have := (malloc_growth_failed s _ n _ hm hf2).1
            omega

/-! ## The search of the free list -/

theorem find_fit_loop_spec (m : Mem) (a stop : Nat) (fl : List Nat) (prev cur fuel : Nat)
    (hc : freeChain m stop prev cur fl) (hfree : ∀ x, x ∈ fl → GET_ALLOC m (HDRP x) = 0)
    (hstop : GET_ALLOC m (HDRP stop) ≠ 0) (hfuel : fl.length < fuel) :
    find_fit_loop m a fuel cur =
      some ((fl.find? (fun x => decide (a ≤ GET_SIZE m (HDRP x)))).getD 0) := by
  induction fl generalizing prev cur fuel with
  | nil =>
    simp only [freeChain] at hc
    subst hc
    cases fuel with
    | zero => simp at hfuel
    | succ f => simp [find_fit_loop, hstop]
  | cons x xs ih =>
    simp only [freeChain] at hc
    obtain ⟨rfl, -, h3⟩ := hc
    cases fuel with
    | zero => simp at hfuel
    | succ f =>
      have h0 := hfree cur (List.mem_cons_self _ _)
      simp only [find_fit_loop, h0, if_true]
      by_cases hsz : a ≤ GET_SIZE m (HDRP cur)
      · simp [hsz, List.find?]
      · rw [if_neg hsz]
        rw [ih cur (NEXT_FBLKP m cur) f h3 (fun y hy => hfree y (List.mem_cons_of_mem _ hy))
          (by simpa using hfuel)]
        simp [List.find?, hsz]

theorem nodup_length_le (l : List Nat) (lo hi : Nat) (hnd : l.Nodup)
    (h : ∀ x, x ∈ l → lo ≤ x ∧ x < hi) : l.length ≤ hi - lo := by
  rw [← List.toFinset_card_of_nodup hnd, ← Nat.card_Ico lo hi]
  apply Finset.card_le_card
  intro x hx
  rw [List.mem_toFinset] at hx
  rw [Finset.mem_Ico]
  exact h x hx

/-- The length of the free list is below the bound of the loop of `find_fit`. -/
theorem HeapCore.fl_length {s : State} {bs : List Blk} {fl : List Nat} (h : HeapCore s bs fl) :
    fl.length < s.brk - s.heap_lo + 1 := by
  have := nodup_length_le fl s.heap_lo s.brk h.nodup (fun x hx => by
    obtain ⟨b, hb⟩ := h.fl_blk x hx
    have := h.mem_facts hb
    omega)
  omega

theorem Heap.prologue_alloc {s : State} {bs : List Blk} {fl : List Nat} (h : HeapCore s bs fl) :
    GET_ALLOC s.mem (HDRP (s.heap_lo + 8)) = 1 ∧ GET_SIZE s.mem (HDRP (s.heap_lo + 8)) = 24 := by
  have e : HDRP (s.heap_lo + 8) = s.heap_lo + 4 := by unfold HDRP WSIZE; omega
  rw [e]
  unfold GET_ALLOC GET_SIZE int_to_size_t
  rw [h.pro_hdr]
  exact ⟨by decide, by decide⟩

theorem Inv.fl_free {s : State} {bs : List Blk} {fl : List Nat} (h : Inv s bs fl) (x : Nat)
    (hx : x ∈ fl) : ∃ c, (x, c) ∈ addrs (s.heap_lo + 48) bs ∧ c.alloc = false :=
  (mem_freeAddrs _ _ _).mp ((h.fl_iff x).mp hx)

/-- The result of `find_fit`: the first entry of the free list that is large
enough, or null. -/
theorem find_fit_spec {s : State} {bs : List Blk} {fl : List Nat} (h : Inv s bs fl) (a : Nat) :
    find_fit s a =
      some ((fl.find? (fun x => decide (a ≤ GET_SIZE s.mem (HDRP x)))).getD 0) := by
  unfold find_fit
  apply find_fit_loop_spec s.mem a (s.heap_lo + 8) fl 0 _ _ h.chain
  · intro x hx
    obtain ⟨c, hc, hf⟩ := h.fl_free x hx
    rw [(h.toHeap.read_block hc).2.1, hf]
    rfl
  · rw [(Heap.prologue_alloc h.toHeap.toHeapCore).1]
    decide
  · exact h.toHeap.toHeapCore.fl_length

/-! ## Tag writes commute with unlinking -/

theorem wrBytes_comm (k1 k2 : Nat) (m : Mem) (a v b w : Nat) (h : a + k1 ≤ b ∨ b + k2 ≤ a) :
    wrBytes k2 (wrBytes k1 m a v) b w = wrBytes k1 (wrBytes k2 m b w) a v := by
  funext x
  simp only [wrBytes]
  split_ifs <;> first | rfl | omega

theorem wrBytes_overwrite (k : Nat) (m : Mem) (a v w : Nat) :
    wrBytes k (wrBytes k m a v) a w = wrBytes k m a w := by
  funext x
  simp only [wrBytes]
  split_ifs <;> rfl

theorem remove_block_PUT (s : State) (x a v : Nat) (hx : a + 4 ≤ x ∨ x + 16 ≤ a)
    (hN : a + 4 ≤ NEXT_FBLKP s.mem x ∨ NEXT_FBLKP s.mem x + 8 ≤ a)
    (hP : a + 4 ≤ PREV_FBLKP s.mem x + 8 ∨ PREV_FBLKP s.mem x + 16 ≤ a)
    (hPx : PREV_FBLKP s.mem x = 0 ∨ PREV_FBLKP s.mem x + 16 ≤ x ∨ x + 16 ≤ PREV_FBLKP s.mem x) :
    remove_block { s with mem := PUT s.mem a v } x =
      { remove_block s x with mem := PUT (remove_block s x).mem a v } := by
  have eP : PREV_FBLKP (PUT s.mem a v) x = PREV_FBLKP s.mem x := by
    unfold PREV_FBLKP
    exact rd64_PUT_disj _ _ _ _ (by omega)
  have eN : NEXT_FBLKP (PUT s.mem a v) x = NEXT_FBLKP s.mem x := by
    unfold NEXT_FBLKP DSIZE
    exact rd64_PUT_disj _ _ _ _ (by omega)
  by_cases hz : PREV_FBLKP s.mem x = 0
  · have e : wr64 (PUT s.mem a v) (NEXT_FBLKP s.mem x) 0 =
        PUT (wr64 s.mem (NEXT_FBLKP s.mem x) 0) a v := by
      unfold PUT wr64
      exact wrBytes_comm 4 8 _ _ _ _ _ (by omega)
    rw [remove_block_head { s with mem := PUT s.mem a v } x (eP.trans hz),
      remove_block_head s x hz]
    simp only [eN, e]
  · have hPx2 : PREV_FBLKP s.mem x + 16 ≤ x ∨ x + 16 ≤ PREV_FBLKP s.mem x := by
      rcases hPx with h | h
      · exact absurd h hz
      · exact h
    have e : wr64 (wr64 (PUT s.mem a v) (PREV_FBLKP s.mem x + 8) (NEXT_FBLKP s.mem x))
          (NEXT_FBLKP s.mem x) (PREV_FBLKP s.mem x) =
        PUT (wr64 (wr64 s.mem (PREV_FBLKP s.mem x + 8) (NEXT_FBLKP s.mem x))
          (NEXT_FBLKP s.mem x) (PREV_FBLKP s.mem x)) a v := by
      unfold PUT wr64
      rw [wrBytes_comm 4 8 _ _ _ _ _ (by omega), wrBytes_comm 4 8 _ _ _ _ _ (by omega)]
    rw [remove_block_inner { s with mem := PUT s.mem a v } x (PREV_FBLKP s.mem x) eP hz hPx2,
      remove_block_inner s x (PREV_FBLKP s.mem x) rfl hz hPx2]
    simp only [eN, e]

/-- Where the links of a free-list entry point. -/
theorem freeChain_links (m : Mem) (stop : Nat) (fl : List Nat) (prev cur x : Nat)
    (hc : freeChain m stop prev cur fl) (hx : x ∈ fl) :
    (PREV_FBLKP m x = prev ∨ PREV_FBLKP m x ∈ fl) ∧
      (NEXT_FBLKP m x = stop ∨ NEXT_FBLKP m x ∈ fl) := by
  induction fl generalizing prev cur with
  | nil => simp at hx
  | cons y ys ih =>
    simp only [freeChain] at hc
    obtain ⟨rfl, h2, h3⟩ := hc
    rcases List.mem_cons.mp hx with rfl | hx
    · refine ⟨Or.inl h2, ?_⟩
      cases ys with
      | nil => left; exact h3
      | cons z zs =>
        right
        simp only [freeChain] at h3
        rw [h3.1]
        simp
    · obtain ⟨i1, i2⟩ := ih cur _ h3 hx
      constructor
      · rcases i1 with i1 | i1
        · right; rw [i1]; simp
        · right; exact List.mem_cons_of_mem _ i1
      · rcases i2 with i2 | i2
        · left; exact i2
        · right; exact List.mem_cons_of_mem _ i2

/-- Writing two tag words before unlinking is the same as writing them after. -/
theorem Heap.remove_block_tags {s : State} {bs : List Blk} {fl : List Nat} (h : Heap s bs fl)
    {x : Nat} (hx : x ∈ fl) (a1 a2 v1 v2 : Nat)
    (h1 : ∀ y, y ∈ fl → a1 + 4 ≤ y ∨ y + 16 ≤ a1) (h2 : ∀ y, y ∈ fl → a2 + 4 ≤ y ∨ y + 16 ≤ a2)
    (hp1 : s.heap_lo + 16 ≤ a1) (hp2 : s.heap_lo + 16 ≤ a2) :
    Malloc.remove_block { s with mem := PUT (PUT s.mem a1 v1) a2 v2 } x =
      { Malloc.remove_block s x with
        mem := PUT (PUT (Malloc.remove_block s x).mem a1 v1) a2 v2 } := by
  obtain ⟨l1, l2⟩ := freeChain_links s.mem _ fl 0 _ x h.chain hx
  have hsep := h.toHeapCore.sep_fl
  have hxs := hsep.1 x hx
  have hP : PREV_FBLKP s.mem x = 0 ∨
      (PREV_FBLKP s.mem x ∈ fl ∧ PREV_FBLKP s.mem x ≠ x) := by
    rcases l1 with l1 | l1
    · exact Or.inl l1
    · by_cases e : PREV_FBLKP s.mem x = 0
      · exact Or.inl e
      · right
        refine ⟨l1, ?_⟩
        intro e2
        -- an entry is not its own predecessor
        obtain ⟨k1, k2, rfl⟩ := List.append_of_mem hx
        have hc := h.chain
        rw [freeChain_append] at hc
        obtain ⟨mid, hc1, hc2⟩ := hc
        simp only [freeChain] at hc2
        have hnd := List.nodup_append.mp h.nodup
        have hxk1 : x ∉ k1 := fun hh => hnd.2.2 hh (List.mem_cons_self _ _)
        by_cases hk : k1 = []
        · subst hk
          simp only [List.getLastD_nil] at hc2
          exact e hc2.2.1
        · have := getLastD_mem k1 0 hk
          rw [hc2.2.1.symm, e2] at this
          exact hxk1 this
  have hPx : PREV_FBLKP s.mem x = 0 ∨ PREV_FBLKP s.mem x + 16 ≤ x ∨
      x + 16 ≤ PREV_FBLKP s.mem x := by
    rcases hP with hP | ⟨hP, hne⟩
    · exact Or.inl hP
    · have := hsep.2 _ hP x hx
      omega
  have hPa : ∀ a, (∀ y, y ∈ fl → a + 4 ≤ y ∨ y + 16 ≤ a) → s.heap_lo + 16 ≤ a →
      (a + 4 ≤ PREV_FBLKP s.mem x + 8 ∨ PREV_FBLKP s.mem x + 16 ≤ a) := by
    intro a ha hpa
    rcases hP with hP | ⟨hP, hne⟩
    · rw [hP]; omega
    · have := ha _ hP
      omega
  have hNa : ∀ a, (∀ y, y ∈ fl → a + 4 ≤ y ∨ y + 16 ≤ a) → s.heap_lo + 16 ≤ a →
      (a + 4 ≤ NEXT_FBLKP s.mem x ∨ NEXT_FBLKP s.mem x + 8 ≤ a) := by
    intro a ha hpa
    rcases l2 with l2 | l2
    · rw [l2]; omega
    · have := ha _ l2
      omega
  have hx1 := h1 x hx
  have hx2 := h2 x hx
  have eP : PREV_FBLKP (PUT s.mem a1 v1) x = PREV_FBLKP s.mem x := by
    unfold PREV_FBLKP
    exact rd64_PUT_disj _ _ _ _ (by omega)
  have eN : NEXT_FBLKP (PUT s.mem a1 v1) x = NEXT_FBLKP s.mem x := by
    unfold NEXT_FBLKP DSIZE
    exact rd64_PUT_disj _ _ _ _ (by omega)
  have r2 := remove_block_PUT { s with mem := PUT s.mem a1 v1 } x a2 v2 (by omega)
    (by rw [eN]; exact hNa a2 h2 hp2) (by rw [eP]; exact hPa a2 h2 hp2) (by rw [eP]; exact hPx)
  have r1 := remove_block_PUT s x a1 v1 (by omega) (hNa a1 h1 hp1) (hPa a1 h1 hp1) hPx
  rw [r2, r1]

/-! ## Placement -/

theorem place_split_eq (s s1 : State) (x a cs : Nat)
    (hcs : GET_SIZE s.mem (HDRP x) = cs) (h8a : a % 8 = 0) (h8c : cs % 8 = 0)
    (hlt : cs < 2 ^ 31) (h24 : 24 ≤ a) (hrem : a + 24 ≤ cs)
    (hcomm : remove_block
        { s with mem := PUT (PUT s.mem (x - 4) (PACK a 1)) (x + a - 8) (PACK a 1) } x =
      { s1 with mem := PUT (PUT s1.mem (x - 4) (PACK a 1)) (x + a - 8) (PACK a 1) }) :
    place s x a =
      (coalesce { s1 with mem := (PUT (PUT (PUT (PUT s1.mem (x - 4) (PACK a 1))
        (x + a - 8) (PACK a 1)) (x + a - 4) (PACK (cs - a) 0))
        (x + cs - 8) (PACK (cs - a) 0)) } (x + a)).2 := by
  have hF1 : ∀ m : Mem, FTRP (PUT m (x - 4) (PACK a 1)) x = x + a - 8 := by
    intro m
    unfold FTRP HDRP WSIZE DSIZE
    rw [GET_SIZE_PUT_PACK _ _ _ _ h8a (by omega) (by omega)]
  have hN : ∀ (m : Mem) (v : Nat),
      NEXT_BLKP (PUT (PUT m (x - 4) (PACK a 1)) (x + a - 8) v) x = x + a := by
    intro m v
    unfold NEXT_BLKP HDRP WSIZE
    rw [GET_SIZE_PUT_disj _ _ _ _ (by omega), GET_SIZE_PUT_PACK _ _ _ _ h8a (by omega) (by omega)]
  have hF2 : ∀ m : Mem, FTRP (PUT m (x + a - 4) (PACK (cs - a) 0)) (x + a) = x + cs - 8 := by
    intro m
    unfold FTRP HDRP WSIZE DSIZE
    rw [GET_SIZE_PUT_PACK _ _ _ _ (by omega) (by omega) (by omega)]
    omega
  have hmod : (cs + 2 ^ 64 - a) % 2 ^ 64 = cs - a := by omega
  unfold place
  simp only [hcs, hmod]
  rw [if_pos (show cs - a ≥ BLOCKSIZE by unfold BLOCKSIZE; omega)]
  have e1 : HDRP x = x - 4 := rfl
  rw [e1, hF1, hcomm]
  simp only [hN]
  have e2 : HDRP (x + a) = x + a - 4 := rfl
  rw [e2, hF2]

theorem place_nosplit_eq (s s1 : State) (x a cs : Nat)
    (hcs : GET_SIZE s.mem (HDRP x) = cs) (h8c : cs % 8 = 0)
    (hlt : cs < 2 ^ 31) (ha : a ≤ cs) (hrem : cs < a + 24)
    (hcomm : remove_block
        { s with mem := PUT (PUT s.mem (x - 4) (PACK cs 1)) (x + cs - 8) (PACK cs 1) } x =
      { s1 with mem := PUT (PUT s1.mem (x - 4) (PACK cs 1)) (x + cs - 8) (PACK cs 1) }) :
    place s x a =
      { s1 with mem := PUT (PUT s1.mem (x - 4) (PACK cs 1)) (x + cs - 8) (PACK cs 1) } := by
  have hF1 : ∀ m : Mem, FTRP (PUT m (x - 4) (PACK cs 1)) x = x + cs - 8 := by
    intro m
    unfold FTRP HDRP WSIZE DSIZE
    rw [GET_SIZE_PUT_PACK _ _ _ _ h8c (by omega) (by omega)]
  have hmod : (cs + 2 ^ 64 - a) % 2 ^ 64 = cs - a := by omega
  unfold place
  simp only [hcs, hmod]
  rw [if_neg (show ¬ cs - a ≥ BLOCKSIZE by unfold BLOCKSIZE; omega)]
  have e1 : HDRP x = x - 4 := rfl
  rw [e1, hF1, hcomm]

/-- The address after a free block is not in the free list. -/
theorem Inv.next_not_free {s : State} {pre post : List Blk} {c : Blk} {fl : List Nat}
    (h : Inv s (pre ++ [c] ++ post) fl) (hc : c.alloc = false) :
    (∀ R, R ∈ post.head? → R.alloc = true) ∧
      endAddr (s.heap_lo + 48) pre + c.size ∉ fl := by
  have hco := (noAdjFree_mid pre post c).mp h.coalesced
  have hR : ∀ R, R ∈ post.head? → R.alloc = true := by
    intro R hR
    rcases hco.2.2.2 R hR with h1 | h1
    · rw [hc] at h1; exact absurd h1 (by simp)
    · exact h1
  refine ⟨hR, ?_⟩
  intro hmem
  have hbl := h.blocks
  rw [List.append_assoc, heapBlocks_append] at hbl
  simp only [List.singleton_append, heapBlocks] at hbl
  obtain ⟨hpre, h24, -, -, -, hpost⟩ := hbl
  rw [h.fl_iff, mem_freeAddrs_mid] at hmem
  rcases hmem with h1 | ⟨-, h1⟩ | h1
  · have := mem_freeAddrs_range s.mem _ pre _ hpre h1
    omega
  · unfold BLOCKSIZE at h24
    omega
  · cases post with
    | nil => simp [freeAddrs, addrs] at h1
    | cons R post1 =>
      rw [mem_freeAddrs_cons] at h1
      rcases h1 with ⟨h2, -⟩ | h2
      · rw [hR R (by simp)] at h2; exact absurd h2 (by simp)
      · simp only [heapBlocks, BLOCKSIZE] at hpost
        have := mem_freeAddrs_range s.mem _ post1 _ hpost.2.2.2.2 h2
        omega

theorem mem_fl_of_free {s : State} {pre post : List Blk} {c : Blk} {fl : List Nat}
    (h : Inv s (pre ++ [c] ++ post) fl) (hc : c.alloc = false) :
    endAddr (s.heap_lo + 48) pre ∈ fl := by
  rw [h.fl_iff, mem_freeAddrs_mid]
  exact Or.inr (Or.inl ⟨hc, rfl⟩)

/-- Tag words of a block are outside the link fields of every free-list entry. -/
theorem Heap.tag_sep {s : State} {bs : List Blk} {fl : List Nat} (h : Heap s bs fl)
    {x : Nat} {c : Blk} (hx : (x, c) ∈ addrs (s.heap_lo + 48) bs) (a : Nat)
    (ha : a = x - 4 ∨ (x + 16 ≤ a ∧ a + 4 ≤ x + c.size)) :
    (∀ y, y ∈ fl → a + 4 ≤ y ∨ y + 16 ≤ a) ∧ s.heap_lo + 16 ≤ a := by
  have fx := h.toHeapCore.mem_facts hx
  refine ⟨?_, by omega⟩
  intro y hy
  obtain ⟨d, hd⟩ := h.fl_blk y hy
  have fy := h.toHeapCore.mem_facts hd
  rcases addrs_disjoint s.mem _ bs x y c d h.blocks hx hd with ⟨rfl, rfl⟩ | hd1 | hd1 <;> omega

theorem freeAddrs_snoc_alloc (a : Nat) (pre : List Blk) (b : Blk) (hb : b.alloc = true) :
    freeAddrs a (pre ++ [b]) = freeAddrs a pre := by
  rw [freeAddrs_append, freeAddrs_cons, hb]
  simp [freeAddrs, addrs]

theorem noAdjFree_snoc_alloc (pre : List Blk) (b : Blk) (hb : b.alloc = true)
    (h : noAdjFree pre) : noAdjFree (pre ++ [b]) := by
  have := (noAdjFree_mid pre [] b).mpr ⟨h, List.chain'_nil, fun _ _ => Or.inr hb, by simp⟩
  simpa using this

/-- Placement with a split: the block becomes an allocated block of size `a`,
followed by a free block that is the new head of the free list. -/
theorem place_split {s : State} {pre post : List Blk} {c : Blk} {fl : List Nat}
    (h : Inv s (pre ++ [c] ++ post) fl) (hc : c.alloc = false) (a : Nat)
    (h24 : 24 ≤ a) (h8 : a % 8 = 0) (hrem : a + 24 ≤ c.size) :
    Inv (place s (endAddr (s.heap_lo + 48) pre) a)
        (pre ++ [⟨a, true⟩] ++ [⟨c.size - a, false⟩] ++ post)
        ((endAddr (s.heap_lo + 48) pre + a) :: fl.erase (endAddr (s.heap_lo + 48) pre)) ∧
      ∀ y d, (y, d) ∈ addrs (s.heap_lo + 48) (pre ++ [c] ++ post) → d.alloc = true →
        ∀ q, y - 4 ≤ q → q < y + d.size - 4 →
          rd8 (place s (endAddr (s.heap_lo + 48) pre) a).mem q = rd8 s.mem q := by
  have hm := mem_mid (s.heap_lo + 48) pre post c
  have fc := h.toHeap.toHeapCore.mem_facts hm
  have rb := h.toHeap.read_block hm
  have hxfl := mem_fl_of_free h hc
  obtain ⟨hRa, hnext⟩ := h.next_not_free hc
  have hco := (noAdjFree_mid pre post c).mp h.coalesced
  obtain ⟨s1, hs1⟩ : ∃ s1, s1 = remove_block s (endAddr (s.heap_lo + 48) pre) := ⟨_, rfl⟩
  obtain ⟨t1, t2⟩ := h.toHeap.tag_sep hm (endAddr (s.heap_lo + 48) pre - 4) (Or.inl rfl)
  obtain ⟨t3, t4⟩ := h.toHeap.tag_sep hm (endAddr (s.heap_lo + 48) pre + a - 8)
    (Or.inr ⟨by omega, by omega⟩)
  have hcomm := h.toHeap.remove_block_tags hxfl _ _ (PACK a 1) (PACK a 1) t1 t3 t2 t4
  rw [← hs1] at hcomm
  rw [place_split_eq s s1 _ a c.size rb.1 h8 fc.2.2.2.1 fc.2.2.2.2.1 h24 hrem hcomm]
  obtain ⟨h1, hfr1, e1, -, -, -⟩ := h.toHeap.remove_block hxfl
  rw [← hs1] at h1 hfr1 e1
  clear hcomm hs1
  have h2 := h1.split true false (endAddr (s.heap_lo + 48) pre) a (by rw [e1]) h24 h8 hrem
  -- the state handed to `coalesce`
  generalize hs4 : ({ s1 with mem := (PUT (PUT (PUT (PUT s1.mem
      (endAddr (s.heap_lo + 48) pre - 4) (PACK a 1))
      (endAddr (s.heap_lo + 48) pre + a - 8) (PACK a 1))
      (endAddr (s.heap_lo + 48) pre + a - 4) (PACK (c.size - a) 0))
      (endAddr (s.heap_lo + 48) pre + c.size - 8) (PACK (c.size - a) 0)) } : State) = s4
  have h2 : Heap s4 (pre ++ [⟨a, true⟩, ⟨c.size - a, false⟩] ++ post)
      (fl.erase (endAddr (s.heap_lo + 48) pre)) := by rw [← hs4]; exact h2
  have e4 : s4.heap_lo = s.heap_lo := by rw [← hs4]; exact e1
  have hm4 : ∀ q, (q < endAddr (s.heap_lo + 48) pre - 4 ∨
      endAddr (s.heap_lo + 48) pre + c.size - 4 ≤ q) → rd8 s4.mem q = rd8 s1.mem q := by
    intro q hq
    rw [← hs4]
    simp only [PUT]
    rw [rd8_wrBytes_out _ _ _ _ _ (by omega), rd8_wrBytes_out _ _ _ _ _ (by omega),
      rd8_wrBytes_out _ _ _ _ _ (by omega), rd8_wrBytes_out _ _ _ _ _ (by omega)]
  clear hs4
  have hxa : endAddr (s4.heap_lo + 48) (pre ++ [⟨a, true⟩]) =
      endAddr (s.heap_lo + 48) pre + a := by
    rw [e4, endAddr_snoc]
  have hbs : pre ++ [⟨a, true⟩, ⟨c.size - a, false⟩] ++ post =
      pre ++ [⟨a, true⟩] ++ [⟨c.size - a, false⟩] ++ post := by simp
  rw [hbs] at h2
  have hpre : PreCo s4 (pre ++ [⟨a, true⟩]) ⟨c.size - a, false⟩ post
      (fl.erase (endAddr (s.heap_lo + 48) pre)) := by
    refine ⟨h2, rfl, ?_, ?_, noAdjFree_snoc_alloc pre _ rfl hco.1, hco.2.1⟩
    · rw [hxa]
      intro hmem
      obtain ⟨d, hd⟩ := h.fl_blk _ (List.mem_of_mem_erase hmem)
      have fd := h.toHeap.toHeapCore.mem_facts hd
      rcases addrs_disjoint s.mem _ _ _ _ c d h.blocks hm hd with ⟨e, -⟩ | hd1 | hd1 <;> omega
    · intro y
      rw [hxa, freeAddrs_snoc_alloc _ _ _ rfl, e4, h.nodup.mem_erase_iff, h.fl_iff,
        mem_freeAddrs_mid]
      have e : endAddr (s.heap_lo + 48) pre + a + (c.size - a) =
          endAddr (s.heap_lo + 48) pre + c.size := by omega
      show _ ↔ _ ∨ y ∈ freeAddrs (endAddr (s.heap_lo + 48) pre + a + (c.size - a)) post
      rw [e]
      have hbl := h.blocks
      rw [List.append_assoc, heapBlocks_append] at hbl
      simp only [List.singleton_append, heapBlocks] at hbl
      constructor
      · rintro ⟨hne, h1 | ⟨-, h1⟩ | h1⟩
        · exact Or.inl h1
        · exact absurd h1 hne
        · exact Or.inr h1
      · rintro (h1 | h1)
        · refine ⟨?_, Or.inl h1⟩
          have := mem_freeAddrs_range s.mem _ pre y hbl.1 h1
          omega
        · refine ⟨?_, Or.inr (Or.inr h1)⟩
          have := mem_freeAddrs_range s.mem _ post y hbl.2.2.2.2.2 h1
          omega
  have hL : ∀ L, L ∈ (pre ++ [(⟨a, true⟩ : Blk)]).getLast? → L.alloc = true := by
    intro L hL
    simp at hL
    rw [← hL]
  obtain ⟨c1, c2, c3⟩ := coalesce_case1 hpre hL hRa
  obtain ⟨-, -, cf⟩ := coalesce_spec hpre
  rw [hxa] at c1 c2 c3 cf
  refine ⟨c2, ?_⟩
  intro y d hy hd q hq1 hq2
  have hsep : ∀ z e, (z, e) ∈ addrs (s.heap_lo + 48) (pre ++ [c] ++ post) → e.alloc = false →
      (q < z - 4 ∨ z + e.size - 4 ≤ q) ∧ 24 ≤ e.size ∧ s.heap_lo + 48 ≤ z ∧ s.heap_lo + 44 ≤ q :=
    fun z e hz he => alloc_free_sep h.toHeap.toHeapCore hy hd hz he q hq1 hq2
  have hyc := hsep _ c hm hc
  -- the block `(y, d)` is in the new heap as well
  have hy4 : (y, d) ∈ addrs (s4.heap_lo + 48)
      (pre ++ [⟨a, true⟩] ++ [⟨c.size - a, false⟩] ++ post) := by
    rw [e4]
    have e : endAddr (endAddr (s.heap_lo + 48) pre) [⟨a, true⟩, ⟨c.size - a, false⟩] =
        endAddr (endAddr (s.heap_lo + 48) pre) [c] := by
      simp only [endAddr]; omega
    rw [← hbs, mem_addrs_append3, e]
    rcases (mem_addrs_append3 _ pre [c] post y d).mp hy with h1 | h1 | h1
    · exact Or.inl h1
    · simp only [addrs, List.mem_singleton, Prod.mk.injEq] at h1
      rw [h1.2, hc] at hd
      exact absurd hd (by simp)
    · exact Or.inr (Or.inr h1)
  rw [cf y d hy4 hd q hq1 hq2, hm4 q (by omega)]
  apply hfr1 q _ (by omega)
  intro z hz
  obtain ⟨e, hze, he⟩ := h.fl_free z hz
  have := hsep z e hze he
  omega

/-- Placement without a split: the whole block becomes allocated. -/
theorem place_nosplit {s : State} {pre post : List Blk} {c : Blk} {fl : List Nat}
    (h : Inv s (pre ++ [c] ++ post) fl) (hc : c.alloc = false) (a : Nat)
    (ha : a ≤ c.size) (hrem : c.size < a + 24) :
    Inv (place s (endAddr (s.heap_lo + 48) pre) a)
        (pre ++ [⟨c.size, true⟩] ++ post) (fl.erase (endAddr (s.heap_lo + 48) pre)) ∧
      ∀ y d, (y, d) ∈ addrs (s.heap_lo + 48) (pre ++ [c] ++ post) → d.alloc = true →
        ∀ q, y - 4 ≤ q → q < y + d.size - 4 →
          rd8 (place s (endAddr (s.heap_lo + 48) pre) a).mem q = rd8 s.mem q := by
  have hm := mem_mid (s.heap_lo + 48) pre post c
  have fc := h.toHeap.toHeapCore.mem_facts hm
  have rb := h.toHeap.read_block hm
  have hxfl := mem_fl_of_free h hc
  have hco := (noAdjFree_mid pre post c).mp h.coalesced
  obtain ⟨s1, hs1⟩ : ∃ s1, s1 = remove_block s (endAddr (s.heap_lo + 48) pre) := ⟨_, rfl⟩
  obtain ⟨t1, t2⟩ := h.toHeap.tag_sep hm (endAddr (s.heap_lo + 48) pre - 4) (Or.inl rfl)
  obtain ⟨t3, t4⟩ := h.toHeap.tag_sep hm (endAddr (s.heap_lo + 48) pre + c.size - 8)
    (Or.inr ⟨by omega, by omega⟩)
  have hcomm := h.toHeap.remove_block_tags hxfl _ _ (PACK c.size 1) (PACK c.size 1) t1 t3 t2 t4
  rw [← hs1] at hcomm
  rw [place_nosplit_eq s s1 _ a c.size rb.1 fc.2.2.2.1 fc.2.2.2.2.1 ha hrem hcomm]
  obtain ⟨h1, hfr1, e1, -, -, -⟩ := h.toHeap.remove_block hxfl
  rw [← hs1] at h1 hfr1 e1
  clear hcomm hs1
  have h2 := h1.settag (by simp) true (endAddr (s.heap_lo + 48) pre) c.size (by rw [e1])
    (by simp [endAddr]) (by
      intro y _ b hyb
      simp only [addrs, List.mem_singleton, Prod.mk.injEq] at hyb
      exact hyb.1)
  constructor
  · refine ⟨h2, ?_, ?_⟩
    · intro y
      show y ∈ fl.erase _ ↔ y ∈ freeAddrs (s1.heap_lo + 48) (pre ++ [⟨c.size, true⟩] ++ post)
      rw [e1, h.nodup.mem_erase_iff, h.fl_iff, mem_freeAddrs_mid, mem_freeAddrs_mid]
      have hbl := h.blocks
      rw [List.append_assoc, heapBlocks_append] at hbl
      simp only [List.singleton_append, heapBlocks] at hbl
      constructor
      · rintro ⟨hne, h1 | ⟨-, h1⟩ | h1⟩
        · exact Or.inl h1
        · exact absurd h1 hne
        · exact Or.inr (Or.inr h1)
      · rintro (h1 | ⟨h1, -⟩ | h1)
        · refine ⟨?_, Or.inl h1⟩
          have := mem_freeAddrs_range s.mem _ pre y hbl.1 h1
          omega
        · simp at h1
        · refine ⟨?_, Or.inr (Or.inr h1)⟩
          have := mem_freeAddrs_range s.mem _ post y hbl.2.2.2.2.2 h1
          omega
    · rw [noAdjFree_mid]
      exact ⟨hco.1, hco.2.1, fun _ _ => Or.inr rfl, fun _ _ => Or.inl rfl⟩
  · intro y d hy hd q hq1 hq2
    have hsep : ∀ z e, (z, e) ∈ addrs (s.heap_lo + 48) (pre ++ [c] ++ post) → e.alloc = false →
        (q < z - 4 ∨ z + e.size - 4 ≤ q) ∧ 24 ≤ e.size ∧ s.heap_lo + 48 ≤ z ∧
          s.heap_lo + 44 ≤ q :=
      fun z e hz he => alloc_free_sep h.toHeap.toHeapCore hy hd hz he q hq1 hq2
    have hyc := hsep _ c hm hc
    show rd8 (PUT (PUT s1.mem _ _) _ _) q = _
    simp only [PUT]
    rw [rd8_wrBytes_out _ _ _ _ _ (by omega), rd8_wrBytes_out _ _ _ _ _ (by omega)]
    apply hfr1 q _ (by omega)
    intro z hz
    obtain ⟨e, hze, he⟩ := h.fl_free z hz
    have := hsep z e hze he
    omega

/-- What `place` does to a free block that is large enough. -/
theorem place_good {s : State} {pre post : List Blk} {c : Blk} {fl : List Nat}
    (h : Inv s (pre ++ [c] ++ post) fl) (hc : c.alloc = false) (a : Nat)
    (h24 : 24 ≤ a) (h8 : a % 8 = 0) (ha : a ≤ c.size) :
    ∃ bs1 fl1 c1, Inv (place s (endAddr (s.heap_lo + 48) pre) a) bs1 fl1 ∧
      (endAddr (s.heap_lo + 48) pre, c1) ∈ addrs (s.heap_lo + 48) bs1 ∧ c1.alloc = true ∧
      a ≤ c1.size ∧ c1.size ≤ c.size ∧
      (∀ q, q ∈ allocAddrs (s.heap_lo + 48) bs1 ↔
        q = endAddr (s.heap_lo + 48) pre ∨ q ∈ allocAddrs (s.heap_lo + 48) (pre ++ [c] ++ post)) ∧
      (∀ y d, (y, d) ∈ addrs (s.heap_lo + 48) (pre ++ [c] ++ post) → d.alloc = true →
        (y, d) ∈ addrs (s.heap_lo + 48) bs1 ∧
        ∀ q, y - 4 ≤ q → q < y + d.size - 4 →
          rd8 (place s (endAddr (s.heap_lo + 48) pre) a).mem q = rd8 s.mem q) := by
  have hm := mem_mid (s.heap_lo + 48) pre post c
  have fc := h.toHeap.toHeapCore.mem_facts hm
  have hold : ∀ q, q ∈ allocAddrs (s.heap_lo + 48) (pre ++ [c] ++ post) ↔
      q ∈ allocAddrs (s.heap_lo + 48) pre ∨
        q ∈ allocAddrs (endAddr (s.heap_lo + 48) pre + c.size) post := by
    intro q
    rw [mem_allocAddrs_mid]
    simp [hc]
  have hmem : ∀ y d (mid : List Blk),
      endAddr (endAddr (s.heap_lo + 48) pre) mid = endAddr (endAddr (s.heap_lo + 48) pre) [c] →
      (y, d) ∈ addrs (s.heap_lo + 48) (pre ++ [c] ++ post) → d.alloc = true →
      (y, d) ∈ addrs (s.heap_lo + 48) (pre ++ mid ++ post) := by
    intro y d mid e hy hd
    rw [mem_addrs_append3, e]
    rcases (mem_addrs_append3 _ pre [c] post y d).mp hy with h1 | h1 | h1
    · exact Or.inl h1
    · simp only [addrs, List.mem_singleton, Prod.mk.injEq] at h1
      rw [h1.2, hc] at hd
      exact absurd hd (by simp)
    · exact Or.inr (Or.inr h1)
  by_cases hrem : a + 24 ≤ c.size
  · obtain ⟨g1, g2⟩ := place_split h hc a h24 h8 hrem
    refine ⟨_, _, ⟨a, true⟩, g1, ?_, rfl, Nat.le_refl _, ha, ?_, ?_⟩
    · rw [List.append_assoc, List.append_assoc]
      have := mem_mid (s.heap_lo + 48) pre ([⟨c.size - a, false⟩] ++ post) ⟨a, true⟩
      rw [List.append_assoc] at this
      exact this
    · intro q
      rw [hold]
      have e : pre ++ [(⟨a, true⟩ : Blk)] ++ [⟨c.size - a, false⟩] ++ post =
          pre ++ [⟨a, true⟩] ++ (⟨c.size - a, false⟩ :: post) := by simp
      rw [e, mem_allocAddrs_mid, mem_allocAddrs_cons]
      have e2 : endAddr (s.heap_lo + 48) pre + a + (c.size - a) =
          endAddr (s.heap_lo + 48) pre + c.size := by omega
      show _ ∨ _ ∨ (_ ∨ q ∈ allocAddrs (endAddr (s.heap_lo + 48) pre + a + (c.size - a)) post)
        ↔ _
      rw [e2]
      simp only [true_and, Bool.false_eq_true, false_and, false_or]
      tauto
    · intro y d hy hd
      refine ⟨?_, g2 y d hy hd⟩
      have := hmem y d [⟨a, true⟩, ⟨c.size - a, false⟩] (by simp only [endAddr]; omega) hy hd
      simpa using this
  · obtain ⟨g1, g2⟩ := place_nosplit h hc a ha (by omega)
    refine ⟨_, _, ⟨c.size, true⟩, g1, mem_mid _ pre post _, rfl, ha, Nat.le_refl _, ?_, ?_⟩
    · intro q
      rw [hold, mem_allocAddrs_mid]
      simp only [true_and]
      tauto
    · intro y d hy hd
      exact ⟨hmem y d [⟨c.size, true⟩] (by simp [endAddr]) hy hd, g2 y d hy hd⟩

/-! ## Freeing a block -/

theorem freeSize_le_endAddr (a : Nat) (pre : List Blk) :
    a + freeSize pre.getLast? ≤ endAddr a pre := by
  rcases left_cases pre with hL | ⟨pre1, L, rfl, hL⟩
  · rw [freeSize_of_alloc _ hL]
    exact le_endAddr a pre
  · rw [freeSize_snoc _ _ hL, endAddr_snoc]
    have := le_endAddr a pre1
    omega

/-- The allocated blocks after merging a free block with its free neighbours. -/
theorem allocAddrs_merged (a : Nat) (pre post : List Blk) (sz : Nat) :
    allocAddrs a (dropFreeL pre ++ [⟨freeSize pre.getLast? + sz + freeSize post.head?, false⟩] ++
        dropFreeR post) =
      allocAddrs a pre ++ allocAddrs (endAddr a pre + sz) post := by
  have h1 := freeSize_le_endAddr a pre
  rw [allocAddrs_append, allocAddrs_append, allocAddrs_cons, allocAddrs_dropFreeL, endAddr_snoc,
    endAddr_dropFreeL]
  have e : endAddr a pre - freeSize pre.getLast? +
      (freeSize pre.getLast? + sz + freeSize post.head?) =
      endAddr a pre + sz + freeSize post.head? := by
    show _ - _ + (_ + _ + _) = _
    omega
  simp only [e, allocAddrs_dropFreeR]
  simp [allocAddrs, addrs]

theorem endAddr_merged (a : Nat) (pre post : List Blk) (sz : Nat) :
    endAddr a (dropFreeL pre ++ [⟨freeSize pre.getLast? + sz + freeSize post.head?, false⟩] ++
        dropFreeR post) = endAddr (endAddr a pre + sz) post := by
  have h1 := freeSize_le_endAddr a pre
  rw [endAddr_append, endAddr_snoc, endAddr_dropFreeL]
  have e : endAddr a pre - freeSize pre.getLast? +
      (freeSize pre.getLast? + sz + freeSize post.head?) =
      endAddr a pre + sz + freeSize post.head? := by
    show _ - _ + (_ + _ + _) = _
    omega
  simp only [e]
  rcases right_cases post with hR | ⟨R, post1, rfl, hR⟩
  · rw [dropFreeR_of_alloc _ hR, freeSize_of_alloc _ hR, Nat.add_zero]
  · rw [dropFreeR_cons _ _ hR, freeSize_cons _ _ hR]
    simp only [endAddr]

theorem mm_free_eq (s : State) (x cs : Nat) (hx : x ≠ 0) (hcs : GET_SIZE s.mem (HDRP x) = cs)
    (h8 : cs % 8 = 0) (hlt : cs < 2 ^ 31) :
    mm_free s x =
      (coalesce { s with mem := (PUT (PUT s.mem (x - 4) (PACK cs 0)) (x + cs - 8) (PACK cs 0)) }
        x).2 := by
  have hF1 : ∀ m : Mem, FTRP (PUT m (x - 4) (PACK cs 0)) x = x + cs - 8 := by
    intro m
    unfold FTRP HDRP WSIZE DSIZE
    rw [GET_SIZE_PUT_PACK _ _ _ _ h8 hlt (by omega)]
  unfold mm_free
  rw [if_neg hx]
  simp only [hcs]
  have e1 : HDRP x = x - 4 := rfl
  rw [e1, hF1]

theorem Inv.alloc_not_free {s : State} {bs : List Blk} {fl : List Nat} (h : Inv s bs fl)
    {x : Nat} {c : Blk} (hx : (x, c) ∈ addrs (s.heap_lo + 48) bs) (hc : c.alloc = true) :
    x ∉ fl := by
  intro hmem
  obtain ⟨d, hd, hdf⟩ := h.fl_free x hmem
  have f1 := h.toHeap.toHeapCore.mem_facts hx
  have f2 := h.toHeap.toHeapCore.mem_facts hd
  rcases addrs_disjoint s.mem _ bs x x c d h.blocks hx hd with ⟨-, rfl⟩ | hd1 | hd1
  · rw [hc] at hdf; exact absurd hdf (by simp)
  · omega
  · omega

/-- The state in which `mm_free` calls `coalesce`. -/
theorem Inv.free_pre {s : State} {pre post : List Blk} {c : Blk} {fl : List Nat}
    (h : Inv s (pre ++ [c] ++ post) fl) (hc : c.alloc = true) :
    PreCo { s with mem := (PUT (PUT s.mem (endAddr (s.heap_lo + 48) pre - 4) (PACK c.size 0))
        (endAddr (s.heap_lo + 48) pre + c.size - 8) (PACK c.size 0)) }
      pre ⟨c.size, false⟩ post fl := by
  have hm := mem_mid (s.heap_lo + 48) pre post c
  have hco := (noAdjFree_mid pre post c).mp h.coalesced
  have h2 := h.toHeap.settag (by simp) false (endAddr (s.heap_lo + 48) pre) c.size rfl
    (by simp [endAddr]) (by
      intro y _ b hyb
      simp only [addrs, List.mem_singleton, Prod.mk.injEq] at hyb
      exact hyb.1)
  refine ⟨h2, rfl, h.alloc_not_free hm hc, ?_, hco.1, hco.2.1⟩
  intro y
  show y ∈ fl ↔ y ∈ freeAddrs (s.heap_lo + 48) pre ∨
    y ∈ freeAddrs (endAddr (s.heap_lo + 48) pre + c.size) post
  rw [h.fl_iff, mem_freeAddrs_mid]
  simp [hc]

/-- What `mm_free` does to an allocated block: the block is merged with its free
neighbours, the merged block is the head of the free list, and no byte of
another allocated block changes. -/
theorem mm_free_spec {s : State} {pre post : List Blk} {c : Blk} {fl : List Nat}
    (h : Inv s (pre ++ [c] ++ post) fl) (hc : c.alloc = true) :
    Inv (mm_free s (endAddr (s.heap_lo + 48) pre))
        (dropFreeL pre ++ [⟨freeSize pre.getLast? + c.size + freeSize post.head?, false⟩] ++
          dropFreeR post)
        ((endAddr (s.heap_lo + 48) pre - freeSize pre.getLast?) ::
          (fl.erase (endAddr (s.heap_lo + 48) pre - freeSize pre.getLast?)).erase
            (endAddr (s.heap_lo + 48) pre + c.size)) ∧
      (mm_free s (endAddr (s.heap_lo + 48) pre)).free_listp =
        endAddr (s.heap_lo + 48) pre - freeSize pre.getLast? ∧
      ∀ y d, (y, d) ∈ addrs (s.heap_lo + 48) (pre ++ [c] ++ post) → d.alloc = true →
        y ≠ endAddr (s.heap_lo + 48) pre →
        ∀ q, y - 4 ≤ q → q < y + d.size - 4 →
          rd8 (mm_free s (endAddr (s.heap_lo + 48) pre)).mem q = rd8 s.mem q := by
  have hm := mem_mid (s.heap_lo + 48) pre post c
  have fc := h.toHeap.toHeapCore.mem_facts hm
  have rb := h.toHeap.read_block hm
  have hpre := h.free_pre hc
  rw [mm_free_eq s _ c.size (by omega) rb.1 fc.2.2.2.1 fc.2.2.2.2.1]
  generalize hs1 : ({ s with mem := (PUT (PUT s.mem (endAddr (s.heap_lo + 48) pre - 4)
      (PACK c.size 0)) (endAddr (s.heap_lo + 48) pre + c.size - 8) (PACK c.size 0)) } : State)
      = s1 at hpre ⊢
  have e1 : s1.heap_lo = s.heap_lo := by rw [← hs1]
  have hm1 : ∀ q, (q < endAddr (s.heap_lo + 48) pre - 4 ∨
      endAddr (s.heap_lo + 48) pre + c.size - 4 ≤ q) → rd8 s1.mem q = rd8 s.mem q := by
    intro q hq
    rw [← hs1]
    simp only [PUT]
    rw [rd8_wrBytes_out _ _ _ _ _ (by omega), rd8_wrBytes_out _ _ _ _ _ (by omega)]
  clear hs1
  obtain ⟨c1, c2, c3⟩ := coalesce_spec hpre
  rw [e1] at c1 c2 c3
  refine ⟨c2, ?_, ?_⟩
  · have := c2.chain
    simp only [freeChain] at this
    exact this.1
  · intro y d hy hd hne q hq1 hq2
    have hy1 : (y, d) ∈ addrs (s.heap_lo + 48) (pre ++ [⟨c.size, false⟩] ++ post) := by
      rw [mem_addrs_append3]
      rcases (mem_addrs_append3 _ pre [c] post y d).mp hy with h1 | h1 | h1
      · exact Or.inl h1
      · simp only [addrs, List.mem_singleton, Prod.mk.injEq] at h1
        exact absurd h1.1 hne
      · exact Or.inr (Or.inr h1)
    rw [c3 y d hy1 hd q hq1 hq2]
    apply hm1
    have fy := h.toHeap.toHeapCore.mem_facts hy
    rcases addrs_disjoint s.mem _ _ y _ d c h.blocks hy hm with ⟨e, -⟩ | hd1 | hd1
    · exact absurd e hne
    · omega
    · omega

theorem allocAddrs_lt_of_mem {s : State} {bs : List Blk} {fl : List Nat} (h : HeapCore s bs fl)
    (q : Nat) (hq : q ∈ allocAddrs (s.heap_lo + 48) bs) : s.heap_lo + 48 ≤ q ∧ q < s.brk := by
  obtain ⟨d, hd, -⟩ := (mem_allocAddrs _ _ _).mp hq
  have := h.mem_facts hd
  omega

/-- `mm_free` of a live pointer keeps the invariant of reachable states. -/
theorem Good_free {s : State} {live : List Nat} (h : Good s live) (p : Nat)
    (hp : p = 0 ∨ p ∈ live) : Good (mm_free s p) (live.erase p) := by
  obtain ⟨hnd, bs, fl, hi, hl⟩ := h
  by_cases h0 : p = 0
  · subst h0
    have hnot : 0 ∉ live := by
      intro hmem
      have := allocAddrs_lt_of_mem hi.toHeap.toHeapCore 0 ((hl 0).mp hmem)
      omega
    rw [List.erase_of_not_mem hnot]
    have : mm_free s 0 = s := by simp [mm_free]
    rw [this]
    exact ⟨hnd, bs, fl, hi, hl⟩
  · have hpl : p ∈ live := by
      rcases hp with hp | hp
      · exact absurd hp h0
      · exact hp
    obtain ⟨c, hpc, hc⟩ := (mem_allocAddrs _ _ _).mp ((hl p).mp hpl)
    obtain ⟨pre, post, rfl, rfl⟩ := addrs_split _ _ _ _ hpc
    have hi2 : Inv s (pre ++ [c] ++ post) fl := by simpa using hi
    obtain ⟨g1, -, -⟩ := mm_free_spec hi2 hc
    have se := mm_free_sameEnv s (endAddr (s.heap_lo + 48) pre)
    refine ⟨hnd.erase _, _, _, g1, ?_⟩
    intro q
    rw [se.1, allocAddrs_merged, hnd.mem_erase_iff, hl q, List.mem_append]
    have hbl := hi2.blocks
    rw [List.append_assoc, heapBlocks_append] at hbl
    simp only [List.singleton_append, heapBlocks, BLOCKSIZE] at hbl
    have e : pre ++ c :: post = pre ++ [c] ++ post := by simp
    rw [e, mem_allocAddrs_mid]
    constructor
    · rintro ⟨hne, h1 | ⟨-, h1⟩ | h1⟩
      · exact Or.inl h1
      · exact absurd h1 hne
      · exact Or.inr h1
    · rintro (h1 | h1)
      · refine ⟨?_, Or.inl h1⟩
        have := mem_allocAddrs_range s.mem _ pre q hbl.1 h1
        omega
      · refine ⟨?_, Or.inr (Or.inr h1)⟩
        have := mem_allocAddrs_range s.mem _ post q hbl.2.2.2.2.2 h1
        omega

/-! ## Allocation -/

theorem MAX_adjusted (n : Nat) : MAX (adjusted n) CHUNKSIZE = adjusted n := by
  have := (adjusted_facts n).1
  unfold MAX CHUNKSIZE
  rw [if_pos (by omega)]

theorem ext_size_adjusted (n : Nat) :
    ext_size (MAX (adjusted n) CHUNKSIZE / WSIZE) = adjusted n := by
  obtain ⟨h1, h2, h3⟩ := adjusted_facts n
  rw [MAX_adjusted, ext_size_of_size _ h2 h1 h3]

theorem Inv.set_log {s : State} {bs : List Blk} {fl : List Nat} (h : Inv s bs fl)
    (l : List Nat) : Inv { s with sbrk_log := l } bs fl :=
  ⟨⟨⟨h.lo_pos, h.listp, h.brk_le, h.max_le, h.cap_lt, h.pro_hdr, h.pro_ftr, h.gap, h.blocks,
    h.brk_eq, h.chain, h.nodup, h.fl_blk⟩, h.epilogue⟩, h.fl_iff, h.coalesced⟩

theorem addrs_dropFreeL_alloc (a : Nat) (bs : List Blk) (y : Nat) (d : Blk)
    (hy : (y, d) ∈ addrs a bs) (hd : d.alloc = true) : (y, d) ∈ addrs a (dropFreeL bs) := by
  rcases left_cases bs with hL | ⟨pre1, L, rfl, hL⟩
  · rw [dropFreeL_of_alloc _ hL]; exact hy
  · rw [dropFreeL_snoc _ _ hL]
    rw [addrs_append] at hy
    rcases List.mem_append.mp hy with h1 | h1
    · exact h1
    · simp only [addrs, List.mem_singleton, Prod.mk.injEq] at h1
      rw [h1.2, hL] at hd
      exact absurd hd (by simp)

/-- What the search found, when it found a block. -/
theorem find_fit_found {s : State} {bs : List Blk} {fl : List Nat} (h : Inv s bs fl)
    (a r : Nat) (hr : find_fit s a = some r) (hne : r ≠ 0) :
    r ∈ fl ∧ a ≤ GET_SIZE s.mem (HDRP r) := by
  rw [find_fit_spec h a] at hr
  simp only [Option.some.injEq] at hr
  cases hf : fl.find? (fun x => decide (a ≤ GET_SIZE s.mem (HDRP x))) with
  | none => rw [hf] at hr; exact absurd hr.symm hne
  | some x =>
    rw [hf] at hr
    simp only [Option.getD_some] at hr
    subst hr
    have h1 := List.find?_some hf
    exact ⟨List.mem_of_find?_eq_some hf, by simpa using h1⟩

/-- What the search established, when it returned null. -/
theorem find_fit_none {s : State} {bs : List Blk} {fl : List Nat} (h : Inv s bs fl)
    (a : Nat) (hr : find_fit s a = some 0) :
    ∀ x, x ∈ fl → GET_SIZE s.mem (HDRP x) < a := by
  rw [find_fit_spec h a] at hr
  simp only [Option.some.injEq] at hr
  cases hf : fl.find? (fun x => decide (a ≤ GET_SIZE s.mem (HDRP x))) with
  | none =>
    intro x hx
    have := List.find?_eq_none.mp hf x hx
    simpa using this
  | some x =>
    rw [hf] at hr
    simp only [Option.getD_some] at hr
    subst hr
    have hx := List.mem_of_find?_eq_some hf
    obtain ⟨c, hc, -⟩ := h.fl_free 0 hx
    have := h.toHeap.toHeapCore.mem_facts hc
    omega

theorem find_fit_total {s : State} {bs : List Blk} {fl : List Nat} (h : Inv s bs fl) (a : Nat) :
    ∃ r, find_fit s a = some r := ⟨_, find_fit_spec h a⟩

/-- Allocation from the free list. -/
theorem malloc_fit {s : State} {bs : List Blk} {fl : List Nat} (h : Inv s bs fl)
    (n r : Nat) (hn : n ≠ 0) (hr : find_fit s (adjusted n) = some r) (hne : r ≠ 0) :
    mm_malloc s n = some (r, place s r (adjusted n)) ∧
      ∃ bs1 fl1 c1, Inv (place s r (adjusted n)) bs1 fl1 ∧
        (r, c1) ∈ addrs (s.heap_lo + 48) bs1 ∧ c1.alloc = true ∧ adjusted n ≤ c1.size ∧
        (∀ q, q ∈ allocAddrs (s.heap_lo + 48) bs1 ↔ q = r ∨ q ∈ allocAddrs (s.heap_lo + 48) bs) ∧
        r ∉ allocAddrs (s.heap_lo + 48) bs ∧
        (∀ y d, (y, d) ∈ addrs (s.heap_lo + 48) bs → d.alloc = true →
          (y, d) ∈ addrs (s.heap_lo + 48) bs1 ∧
          ∀ q, y - 4 ≤ q → q < y + d.size - 4 →
            rd8 (place s r (adjusted n)).mem q = rd8 s.mem q) := by
  obtain ⟨a24, a8, alt⟩ := adjusted_facts n
  obtain ⟨hrfl, hsz⟩ := find_fit_found h _ r hr hne
  constructor
  · unfold mm_malloc
    rw [if_neg hn]
    simp only [hr]
    obtain ⟨k, rfl⟩ : ∃ k, r = k + 1 := ⟨r - 1, by omega⟩
    rfl
  · obtain ⟨c, hc, hcf⟩ := h.fl_free r hrfl
    obtain ⟨pre, post, rfl, rfl⟩ := addrs_split _ _ _ _ hc
    have h2 : Inv s (pre ++ [c] ++ post) fl := by simpa using h
    have hm := mem_mid (s.heap_lo + 48) pre post c
    rw [(h2.toHeap.read_block hm).1] at hsz
    obtain ⟨bs1, fl1, c1, g1, g2, g3, g4, g5, g6, g7⟩ := place_good h2 hcf _ a24 a8 hsz
    have e : pre ++ c :: post = pre ++ [c] ++ post := by simp
    rw [e]
    refine ⟨bs1, fl1, c1, g1, g2, g3, g4, g6, ?_, g7⟩
    intro hmem
    obtain ⟨d, hd, hda⟩ := (mem_allocAddrs _ _ _).mp hmem
    exact h2.alloc_not_free hd hda hrfl

/-- Allocation when no block fits and the heap cannot grow. -/
theorem malloc_nofit_fail {s : State} (n : Nat) (hn : n ≠ 0)
    (hr : find_fit s (adjusted n) = some 0) (hfail : s.heap_max < s.brk + adjusted n) :
    mm_malloc s n = some (0, { s with sbrk_log := adjusted n :: s.sbrk_log }) := by
  unfold mm_malloc
  rw [if_neg hn]
  simp only [hr]
  rw [extend_heap_fail s _ (by rw [ext_size_adjusted]; exact hfail), ext_size_adjusted]

/-- Allocation when no block fits and the heap grows. -/
theorem malloc_nofit_grow {s : State} {bs : List Blk} {fl : List Nat} (h : Inv s bs fl)
    (n : Nat) (hn : n ≠ 0) (hr : find_fit s (adjusted n) = some 0)
    (hfit : s.brk + adjusted n ≤ s.heap_max) :
    ∃ p s1, mm_malloc s n = some (p, s1) ∧ p ≠ 0 ∧
      s1.sbrk_log = adjusted n :: s.sbrk_log ∧ s1.brk = s.brk + adjusted n ∧
      s1.heap_lo = s.heap_lo ∧
      ∃ bs1 fl1 c1, Inv s1 bs1 fl1 ∧
        (p, c1) ∈ addrs (s.heap_lo + 48) bs1 ∧ c1.alloc = true ∧ adjusted n ≤ c1.size ∧
        (∀ q, q ∈ allocAddrs (s.heap_lo + 48) bs1 ↔ q = p ∨ q ∈ allocAddrs (s.heap_lo + 48) bs) ∧
        p ∉ allocAddrs (s.heap_lo + 48) bs ∧
        (∀ y d, (y, d) ∈ addrs (s.heap_lo + 48) bs → d.alloc = true →
          (y, d) ∈ addrs (s.heap_lo + 48) bs1 ∧
          ∀ q, y - 4 ≤ q → q < y + d.size - 4 → rd8 s1.mem q = rd8 s.mem q) := by
  obtain ⟨a24, a8, alt⟩ := adjusted_facts n
  have hb := h.toHeap.toHeapCore.bounds
  have hfit2 : s.brk + ext_size (MAX (adjusted n) CHUNKSIZE / WSIZE) ≤ s.heap_max := by
    rw [ext_size_adjusted]; exact hfit
  obtain ⟨x1, x2, x3, x4, x5, x6, x7, -⟩ :=
    extend_heap_spec h.toHeap.toHeapCore h.fl_iff h.coalesced _ hfit2
  rw [ext_size_adjusted] at x2 x4 x6
  have hfs := freeSize_last_bound h.toHeap.toHeapCore
  have hx0 : s.brk - freeSize bs.getLast? ≠ 0 := by omega
  obtain ⟨k, hk⟩ : ∃ k, s.brk - freeSize bs.getLast? = k + 1 :=
    ⟨s.brk - freeSize bs.getLast? - 1, by omega⟩
  rcases hx : extend_heap s (MAX (adjusted n) CHUNKSIZE / WSIZE) with ⟨p, s1⟩
  rw [hx] at x1 x2 x3 x4 x5 x6 x7
  simp only at x1 x2 x3 x4 x5 x6 x7
  have hmal : mm_malloc s n = some (p, place s1 p (adjusted n)) := by
    unfold mm_malloc
    rw [if_neg hn]
    simp only [hr, hx]
    rw [x1, hk]
  have hx2 : Inv s1 (dropFreeL bs ++ [⟨freeSize bs.getLast? + adjusted n, false⟩] ++ [])
      ((s.brk - freeSize bs.getLast?) :: fl.erase (s.brk - freeSize bs.getLast?)) := by
    simpa using x2
  have hp : p = endAddr (s1.heap_lo + 48) (dropFreeL bs) := by
    rw [x1, x3, endAddr_dropFreeL, ← h.brk_eq]
  obtain ⟨bs1, fl1, c1, g1, g2, g3, g4, g5, g6, g7⟩ :=
    place_good hx2 rfl (adjusted n) a24 a8 (by show adjusted n ≤ _ + adjusted n; omega)
  rw [← hp] at g1 g2 g6 g7
  rw [x3] at g2 g6 g7
  have se := place_sameEnv s1 p (adjusted n)
  have hal : ∀ q, q ∈ allocAddrs (s.heap_lo + 48)
      (dropFreeL bs ++ [⟨freeSize bs.getLast? + adjusted n, false⟩] ++ []) ↔
      q ∈ allocAddrs (s.heap_lo + 48) bs := by
    intro q
    rw [List.append_nil, allocAddrs_append, allocAddrs_dropFreeL]
    simp [allocAddrs, addrs]
  refine ⟨p, _, hmal, by omega, se.2.2.2.2.trans x6, se.2.1.trans x4, se.1.trans x3,
    bs1, fl1, c1, g1, g2, g3, g4, ?_, ?_, ?_⟩
  · intro q
    rw [g6 q, hal q]
  · intro hmem
    have hpa := (hal p).mpr hmem
    obtain ⟨d, hd, hda⟩ := (mem_allocAddrs _ _ _).mp hpa
    rw [← x3] at hd
    have := hx2.alloc_not_free hd hda
    rw [x1] at this
    exact this (List.mem_cons_self _ _)
  · intro y d hy hd
    have hy1 : (y, d) ∈ addrs (s.heap_lo + 48)
        (dropFreeL bs ++ [⟨freeSize bs.getLast? + adjusted n, false⟩] ++ []) := by
      rw [List.append_nil, addrs_append]
      exact List.mem_append_left _ (addrs_dropFreeL_alloc _ _ _ _ hy hd)
    obtain ⟨k1, k2⟩ := g7 y d hy1 hd
    refine ⟨k1, ?_⟩
    intro q hq1 hq2
    rw [k2 q hq1 hq2]
    exact x7 y d hy hd q hq1 hq2

/-! ## The invariant of reachable states under `mm_malloc` -/

theorem Good.size_of_live {s : State} {live : List Nat} {bs : List Blk} {fl : List Nat}
    (hi : Inv s bs fl) (hl : ∀ p, p ∈ live ↔ p ∈ allocAddrs (s.heap_lo + 48) bs)
    (y : Nat) (hy : y ∈ live) :
    ∃ d, (y, d) ∈ addrs (s.heap_lo + 48) bs ∧ d.alloc = true ∧
      GET_SIZE s.mem (HDRP y) = d.size := by
  obtain ⟨d, hd, hda⟩ := (mem_allocAddrs _ _ _).mp ((hl y).mp hy)
  exact ⟨d, hd, hda, (hi.toHeap.read_block hd).1⟩

/-- A successful `mm_malloc` in a reachable state: the returned block is new,
it is large enough, and the live blocks keep their bytes. -/
theorem malloc_post {s : State} {live : List Nat} (h : Good s live) (n p : Nat) (s1 : State)
    (hn : n ≠ 0) (hm : mm_malloc s n = some (p, s1)) (hp : p ≠ 0) :
    p ∉ live ∧ s1.heap_lo = s.heap_lo ∧ Good s1 (p :: live) ∧
      adjusted n ≤ GET_SIZE s1.mem (HDRP p) ∧
      (∀ y, y ∈ live → ∀ q, y - 4 ≤ q → q < y + GET_SIZE s.mem (HDRP y) - 4 →
        rd8 s1.mem q = rd8 s.mem q) := by
  obtain ⟨hnd, bs, fl, hi, hl⟩ := h
  -- the common part of the two successful paths
  have key : ∀ (bs1 : List Blk) (fl1 : List Nat) (c1 : Blk), s1.heap_lo = s.heap_lo →
      Inv s1 bs1 fl1 → (p, c1) ∈ addrs (s.heap_lo + 48) bs1 → c1.alloc = true →
      adjusted n ≤ c1.size →
      (∀ q, q ∈ allocAddrs (s.heap_lo + 48) bs1 ↔ q = p ∨ q ∈ allocAddrs (s.heap_lo + 48) bs) →
      p ∉ allocAddrs (s.heap_lo + 48) bs →
      (∀ y d, (y, d) ∈ addrs (s.heap_lo + 48) bs → d.alloc = true →
        (y, d) ∈ addrs (s.heap_lo + 48) bs1 ∧
        ∀ q, y - 4 ≤ q → q < y + d.size - 4 → rd8 s1.mem q = rd8 s.mem q) →
      p ∉ live ∧ s1.heap_lo = s.heap_lo ∧ Good s1 (p :: live) ∧
        adjusted n ≤ GET_SIZE s1.mem (HDRP p) ∧
        (∀ y, y ∈ live → ∀ q, y - 4 ≤ q → q < y + GET_SIZE s.mem (HDRP y) - 4 →
          rd8 s1.mem q = rd8 s.mem q) := by
    intro bs1 fl1 c1 e1 g1 g2 g3 g4 g5 g6 g7
    have hpl : p ∉ live := fun hmem => g6 ((hl p).mp hmem)
    refine ⟨hpl, e1, ⟨List.nodup_cons.mpr ⟨hpl, hnd⟩, bs1, fl1, g1, ?_⟩, ?_, ?_⟩
    · intro q
      rw [e1, g5 q, List.mem_cons, hl q]
    · have := (g1.toHeap.read_block (e1.symm ▸ g2)).1
      rw [this]; exact g4
    · intro y hy q hq1 hq2
      obtain ⟨d, hd, hda, hsz⟩ := Good.size_of_live hi hl y hy
      rw [hsz] at hq2
      exact (g7 y d hd hda).2 q hq1 hq2
  obtain ⟨r, hr⟩ := find_fit_total hi (adjusted n)
  by_cases hr0 : r = 0
  · subst hr0
    by_cases hfit : s.brk + adjusted n ≤ s.heap_max
    · obtain ⟨p', s1', k1, k2, k3, k4, k5, bs1, fl1, c1, g1, g2, g3, g4, g5, g6, g7⟩ :=
        malloc_nofit_grow hi n hn hr hfit
      rw [hm] at k1
      simp only [Option.some.injEq, Prod.mk.injEq] at k1
      obtain ⟨rfl, rfl⟩ := k1
      exact key bs1 fl1 c1 k5 g1 g2 g3 g4 g5 g6 g7
    · rw [malloc_nofit_fail n hn hr (by omega)] at hm
      simp only [Option.some.injEq, Prod.mk.injEq] at hm
      exact absurd hm.1.symm hp
  · obtain ⟨k1, bs1, fl1, c1, g1, g2, g3, g4, g5, g6, g7⟩ := malloc_fit hi n r hn hr hr0
    rw [hm] at k1
    simp only [Option.some.injEq, Prod.mk.injEq] at k1
    obtain ⟨rfl, rfl⟩ := k1
    exact key bs1 fl1 c1 (place_sameEnv s p (adjusted n)).1 g1 g2 g3 g4 g5 g6 g7

/-- A failed `mm_malloc`: only the growth log changed. -/
theorem malloc_null {s : State} {live : List Nat} (h : Good s live) (n : Nat) (s1 : State)
    (hm : mm_malloc s n = some (0, s1)) :
    s1 = s ∨ s1 = { s with sbrk_log := adjusted n :: s.sbrk_log } := by
  obtain ⟨hnd, bs, fl, hi, hl⟩ := h
  by_cases hn : n = 0
  · subst hn
    left
    simp [mm_malloc] at hm
    exact hm.symm
  · right
    obtain ⟨r, hr⟩ := find_fit_total hi (adjusted n)
    by_cases hr0 : r = 0
    · subst hr0
      by_cases hfit : s.brk + adjusted n ≤ s.heap_max
      · obtain ⟨p', s1', k1, k2, -⟩ := malloc_nofit_grow hi n hn hr hfit
        rw [hm] at k1
        simp only [Option.some.injEq, Prod.mk.injEq] at k1
        exact absurd k1.1.symm k2
      · rw [malloc_nofit_fail n hn hr (by omega)] at hm
        simp only [Option.some.injEq, Prod.mk.injEq, true_and] at hm
        exact hm.symm
    · obtain ⟨k1, -⟩ := malloc_fit hi n r hn hr hr0
      rw [hm] at k1
      simp only [Option.some.injEq, Prod.mk.injEq] at k1
      exact absurd k1.1.symm hr0

theorem Good.with_log {s : State} {live : List Nat} (h : Good s live) (l : List Nat) :
    Good { s with sbrk_log := l } live := by
  obtain ⟨hnd, bs, fl, hi, hl⟩ := h
  exact ⟨hnd, bs, fl, hi.set_log l, hl⟩

/-- In a well-formed heap `mm_malloc` returns. -/
theorem malloc_total {s : State} {live : List Nat} (h : Good s live) (n : Nat) :
    ∃ p s1, mm_malloc s n = some (p, s1) := by
  obtain ⟨hnd, bs, fl, hi, hl⟩ := h
  by_cases hn : n = 0
  · exact ⟨0, s, by simp [mm_malloc, hn]⟩
  · obtain ⟨r, hr⟩ := find_fit_total hi (adjusted n)
    by_cases hr0 : r = 0
    · subst hr0
      by_cases hfit : s.brk + adjusted n ≤ s.heap_max
      · obtain ⟨p', s1', k1, -⟩ := malloc_nofit_grow hi n hn hr hfit
        exact ⟨_, _, k1⟩
      · exact ⟨_, _, malloc_nofit_fail n hn hr (by omega)⟩
    · exact ⟨_, _, (malloc_fit hi n r hn hr hr0).1⟩

/-- `mm_malloc` keeps the invariant of reachable states. -/
theorem Good_malloc {s : State} {live : List Nat} (h : Good s live) (n p : Nat) (s1 : State)
    (hm : mm_malloc s n = some (p, s1)) : Good s1 (if p = 0 then live else p :: live) := by
  by_cases hp : p = 0
  · subst hp
    rw [if_pos rfl]
    rcases malloc_null h n s1 hm with rfl | rfl
    · exact h
    · exact h.with_log _
  · rw [if_neg hp]
    have hn : n ≠ 0 := by
      rintro rfl
      simp [mm_malloc] at hm
      exact hp hm.1.symm
    exact (malloc_post h n p s1 hn hm hp).2.2.1

/-! ## Writes of the client -/

/-- A change confined to the payload of a live block keeps the invariant. -/
theorem Good.write_payload {s : State} {live : List Nat} (h : Good s live) (p : Nat)
    (hp : p ∈ live) (m1 : Mem)
    (hm : ∀ q, (q < p ∨ p + GET_SIZE s.mem (HDRP p) - 8 ≤ q) → rd8 m1 q = rd8 s.mem q) :
    Good { s with mem := m1 } live := by
  obtain ⟨hnd, bs, fl, hi, hl⟩ := h
  obtain ⟨d, hd, hda, hsz⟩ := Good.size_of_live hi hl p hp
  rw [hsz] at hm
  exact ⟨hnd, bs, fl, hi.payload_write hd hda m1 hm, hl⟩

theorem rd8_store8_out (m : Mem) (a v q : Nat) (h : q ≠ a) :
    rd8 (store8 m a v) q = rd8 m q := by
  unfold store8
  exact rd8_wrBytes_out 1 m a v q (by omega)

theorem rd8_bzero_out (m : Mem) (p n q : Nat) (h : q < p ∨ p + n ≤ q) :
    rd8 (bzero m p n) q = rd8 m q := by
  unfold rd8 bzero
  rw [if_neg (by omega)]

theorem rd8_memcpy_out (m : Mem) (dst src n q : Nat) (h : q < dst ∨ dst + n ≤ q) :
    rd8 (memcpy m dst src n) q = rd8 m q := by
  unfold rd8 memcpy
  rw [if_neg (by omega)]

theorem Good_store {s : State} {live : List Nat} (h : Good s live) (p i v : Nat)
    (hp : p ∈ live) (hi : i < GET_SIZE s.mem (HDRP p) - DSIZE) :
    Good { s with mem := store8 s.mem (p + i) v } live := by
  unfold DSIZE at hi
  apply h.write_payload p hp
  intro q hq
  exact rd8_store8_out _ _ _ _ (by omega)

theorem bzero_zero (m : Mem) (p : Nat) : bzero m p 0 = m := by
  funext x
  unfold bzero
  rw [if_neg (by omega)]

/-- `mm_calloc` keeps the invariant when the cleared range is inside the block. -/
theorem Good_calloc {s : State} {live : List Nat} (h : Good s live) (nmemb size p : Nat)
    (s1 : State) (hd : calloc_defined s nmemb size)
    (hm : mm_calloc s nmemb size = some (p, s1)) :
    Good s1 (if p = 0 then live else p :: live) := by
  unfold mm_calloc at hm
  unfold calloc_defined at hd
  rcases hmal : mm_malloc s (nmemb * size % 2 ^ 64) with _ | ⟨p', s1'⟩
  · rw [hmal] at hm; simp at hm
  · rw [hmal] at hm hd
    simp only [Option.some.injEq, Prod.mk.injEq] at hm hd
    obtain ⟨rfl, rfl⟩ := hm
    have hg := Good_malloc h _ _ _ hmal
    rcases hd with h0 | ⟨hp, hle⟩
    · rw [h0, bzero_zero]
      exact hg
    · rw [if_neg hp] at hg ⊢
      unfold DSIZE at hle
      apply hg.write_payload p' (List.mem_cons_self _ _)
      intro q hq
      exact rd8_bzero_out _ _ _ _ (by omega)

/-! ## Resizing -/

theorem PUT_overwrite (m : Mem) (a v w : Nat) : PUT (PUT m a v) a w = PUT m a w := by
  unfold PUT
  exact wrBytes_overwrite 4 m a v w

theorem realloc_same (s : State) (p n : Nat) (hn : n ≠ 0) (hp : p ≠ 0)
    (h : adjusted n ≤ GET_SIZE s.mem (HDRP p))
    (h2 : GET_SIZE s.mem (HDRP p) ≤ adjusted n + 24) :
    mm_realloc s p n = some (p, s) := by
  unfold mm_realloc
  simp only [hn, hp, if_false]
  by_cases e : adjusted n = GET_SIZE s.mem (HDRP p)
  · rw [if_pos e]
  · rw [if_neg e, if_pos h, if_pos]
    unfold BLOCKSIZE
    omega

theorem realloc_shrink_eq_aux (s : State) (p n cs a : Nat) (hn : n ≠ 0) (hp : p ≠ 0)
    (ha : adjusted n = a) (a24 : 24 ≤ a) (a8 : a % 8 = 0)
    (hcs : GET_SIZE s.mem (HDRP p) = cs) (h8c : cs % 8 = 0) (hlt : cs < 2 ^ 31)
    (hrem : a + 24 < cs) :
    mm_realloc s p n = some (p,
      (coalesce { s with mem := (PUT (PUT (PUT (PUT s.mem (p - 4) (PACK a 1))
        (p + a - 8) (PACK a 1))
        (p + a - 4) (PACK (cs - a) 0))
        (p + cs - 8) (PACK (cs - a) 0)) } (p + a)).2) := by
  have hF1 : ∀ m : Mem, FTRP (PUT m (p - 4) (PACK a 1)) p = p + a - 8 := by
    intro m
    unfold FTRP HDRP WSIZE DSIZE
    rw [GET_SIZE_PUT_PACK _ _ _ _ a8 (by omega) (by omega)]
  have hN : ∀ (m : Mem) (v : Nat),
      NEXT_BLKP (PUT (PUT m (p - 4) (PACK a 1)) (p + a - 8) v) p = p + a := by
    intro m v
    unfold NEXT_BLKP HDRP WSIZE
    rw [GET_SIZE_PUT_disj _ _ _ _ (by omega), GET_SIZE_PUT_PACK _ _ _ _ a8 (by omega) (by omega)]
  have hN2 : ∀ (m : Mem) (v w : Nat),
      NEXT_BLKP (PUT (PUT (PUT m (p - 4) (PACK a 1)) (p + a - 8) v) (p + a - 4) w) p = p + a := by
    intro m v w
    unfold NEXT_BLKP HDRP WSIZE
    rw [GET_SIZE_PUT_disj _ _ _ _ (by omega), GET_SIZE_PUT_disj _ _ _ _ (by omega),
      GET_SIZE_PUT_PACK _ _ _ _ a8 (by omega) (by omega)]
  have hmod : (cs + 2 ^ 64 - a) % 2 ^ 64 = cs - a := by omega
  have hG : ∀ m : Mem, GET_SIZE (PUT m (p + a - 4) (PACK (cs - a) 1)) (HDRP (p + a)) = cs - a := by
    intro m
    unfold HDRP WSIZE
    rw [GET_SIZE_PUT_PACK _ _ _ _ (by omega) (by omega) (by omega)]
  unfold mm_realloc
  simp only [hn, hp, if_false, hcs, ha, hmod]
  rw [if_neg (by omega), if_pos (by omega), if_neg (by unfold BLOCKSIZE; omega)]
  have e1 : HDRP p = p - 4 := rfl
  have e2 : HDRP (p + a) = p + a - 4 := rfl
  rw [e1, hF1]
  simp only [hN, hN2, e2]
  have hfree := mm_free_eq
    { s with mem := (PUT (PUT (PUT s.mem (p - 4) (PACK a 1)) (p + a - 8) (PACK a 1))
        (p + a - 4) (PACK (cs - a) 1)) }
    (p + a) (cs - a) (by omega) (hG _) (by omega) (by omega)
  rw [hfree]
  simp only [PUT_overwrite]
  have e3 : p + a + (cs - a) - 8 = p + cs - 8 := by omega
  rw [e3]

theorem realloc_shrink_eq (s : State) (p n cs : Nat) (hn : n ≠ 0) (hp : p ≠ 0)
    (hcs : GET_SIZE s.mem (HDRP p) = cs) (h8c : cs % 8 = 0) (hlt : cs < 2 ^ 31)
    (hrem : adjusted n + 24 < cs) :
    mm_realloc s p n = some (p,
      (coalesce { s with mem := (PUT (PUT (PUT (PUT s.mem (p - 4) (PACK (adjusted n) 1))
        (p + adjusted n - 8) (PACK (adjusted n) 1))
        (p + adjusted n - 4) (PACK (cs - adjusted n) 0))
        (p + cs - 8) (PACK (cs - adjusted n) 0)) } (p + adjusted n)).2) :=
  realloc_shrink_eq_aux s p n cs (adjusted n) hn hp rfl (adjusted_facts n).1
    (adjusted_facts n).2.1 hcs h8c hlt hrem

theorem realloc_grow_null (s s1 : State) (p n : Nat) (hn : n ≠ 0) (hp : p ≠ 0)
    (h : GET_SIZE s.mem (HDRP p) < adjusted n) (hm : mm_malloc s n = some (0, s1)) :
    mm_realloc s p n = some (0, s1) := by
  unfold mm_realloc
  simp only [hn, hp, if_false]
  rw [if_neg (by omega), if_neg (by omega)]
  simp only [hm]

theorem realloc_grow_eq (s s1 : State) (p n q : Nat) (hn : n ≠ 0) (hp : p ≠ 0)
    (h : GET_SIZE s.mem (HDRP p) < adjusted n) (hm : mm_malloc s n = some (q, s1))
    (hq : q ≠ 0) :
    mm_realloc s p n =
      some (q, mm_free { s1 with mem := (memcpy s1.mem q p
        (if n < GET_SIZE s.mem (HDRP p) then n else GET_SIZE s.mem (HDRP p))) } p) := by
  obtain ⟨k, rfl⟩ : ∃ k, q = k + 1 := ⟨q - 1, by omega⟩
  unfold mm_realloc
  simp only [hn, hp, if_false]
  rw [if_neg (by omega), if_neg (by omega)]
  simp only [hm]

/-- The state in which the shrinking `mm_realloc` calls `coalesce`. -/
theorem Inv.shrink_pre {s : State} {pre post : List Blk} {c : Blk} {fl : List Nat}
    (h : Inv s (pre ++ [c] ++ post) fl) (hc : c.alloc = true) (a : Nat)
    (h24 : 24 ≤ a) (h8 : a % 8 = 0) (hrem : a + 24 ≤ c.size) :
    PreCo { s with mem := (PUT (PUT (PUT (PUT s.mem (endAddr (s.heap_lo + 48) pre - 4) (PACK a 1))
        (endAddr (s.heap_lo + 48) pre + a - 8) (PACK a 1))
        (endAddr (s.heap_lo + 48) pre + a - 4) (PACK (c.size - a) 0))
        (endAddr (s.heap_lo + 48) pre + c.size - 8) (PACK (c.size - a) 0)) }
      (pre ++ [⟨a, true⟩]) ⟨c.size - a, false⟩ post fl := by
  have hm := mem_mid (s.heap_lo + 48) pre post c
  have fc := h.toHeap.toHeapCore.mem_facts hm
  have hco := (noAdjFree_mid pre post c).mp h.coalesced
  have h2 := h.toHeap.split true false (endAddr (s.heap_lo + 48) pre) a rfl h24 h8 hrem
  have hbs : pre ++ [⟨a, true⟩, ⟨c.size - a, false⟩] ++ post =
      pre ++ [⟨a, true⟩] ++ [⟨c.size - a, false⟩] ++ post := by simp
  rw [hbs] at h2
  refine ⟨h2, rfl, ?_, ?_, noAdjFree_snoc_alloc pre _ rfl hco.1, hco.2.1⟩
  · show endAddr (s.heap_lo + 48) (pre ++ [⟨a, true⟩]) ∉ fl
    rw [endAddr_snoc]
    intro hmem
    obtain ⟨d, hd⟩ := h.fl_blk _ hmem
    have fd := h.toHeap.toHeapCore.mem_facts hd
    rcases addrs_disjoint s.mem _ _ _ _ c d h.blocks hm hd with ⟨e, -⟩ | hd1 | hd1 <;>
      simp only at * <;> omega
  · intro y
    show y ∈ fl ↔ y ∈ freeAddrs (s.heap_lo + 48) (pre ++ [⟨a, true⟩]) ∨
      y ∈ freeAddrs (endAddr (s.heap_lo + 48) (pre ++ [⟨a, true⟩]) + (c.size - a)) post
    rw [endAddr_snoc, freeAddrs_snoc_alloc _ _ _ rfl, h.fl_iff, mem_freeAddrs_mid]
    have e : endAddr (s.heap_lo + 48) pre + a + (c.size - a) =
        endAddr (s.heap_lo + 48) pre + c.size := by omega
    show _ ↔ _ ∨ y ∈ freeAddrs (endAddr (s.heap_lo + 48) pre + a + (c.size - a)) post
    rw [e]
    simp [hc]

/-- What the shrinking `mm_realloc` does when it splits the block. -/
theorem realloc_shrink_spec {s : State} {pre post : List Blk} {c : Blk} {fl : List Nat}
    (h : Inv s (pre ++ [c] ++ post) fl) (hc : c.alloc = true) (n : Nat) (hn : n ≠ 0)
    (hrem : adjusted n + 24 < c.size) :
    ∃ s1, mm_realloc s (endAddr (s.heap_lo + 48) pre) n =
        some (endAddr (s.heap_lo + 48) pre, s1) ∧ s1.heap_lo = s.heap_lo ∧
      Inv s1 (pre ++ [⟨adjusted n, true⟩] ++
          [⟨c.size - adjusted n + freeSize post.head?, false⟩] ++ dropFreeR post)
        ((endAddr (s.heap_lo + 48) pre + adjusted n) ::
          fl.erase (endAddr (s.heap_lo + 48) pre + c.size)) ∧
      (∀ y d, (y, d) ∈ addrs (s.heap_lo + 48) (pre ++ [c] ++ post) → d.alloc = true →
        ∀ q, y - 4 ≤ q → q < y + d.size - 4 →
          (y ≠ endAddr (s.heap_lo + 48) pre ∨
            (endAddr (s.heap_lo + 48) pre ≤ q ∧
              q < endAddr (s.heap_lo + 48) pre + adjusted n - 8)) →
          rd8 s1.mem q = rd8 s.mem q) := by
  obtain ⟨a24, a8, alt⟩ := adjusted_facts n
  have hm := mem_mid (s.heap_lo + 48) pre post c
  have fc := h.toHeap.toHeapCore.mem_facts hm
  have rb := h.toHeap.read_block hm
  have hpre := h.shrink_pre hc (adjusted n) a24 a8 (by omega)
  refine ⟨_, realloc_shrink_eq s _ n c.size hn (by omega) rb.1 fc.2.2.2.1 fc.2.2.2.2.1 hrem, ?_⟩
  generalize adjusted n = a at *
  generalize hs4 : ({ s with mem := (PUT (PUT (PUT (PUT s.mem
      (endAddr (s.heap_lo + 48) pre - 4) (PACK a 1))
      (endAddr (s.heap_lo + 48) pre + a - 8) (PACK a 1))
      (endAddr (s.heap_lo + 48) pre + a - 4) (PACK (c.size - a) 0))
      (endAddr (s.heap_lo + 48) pre + c.size - 8) (PACK (c.size - a) 0)) } : State) = s4
      at hpre ⊢
  have e4 : s4.heap_lo = s.heap_lo := by rw [← hs4]
  have hm4 : ∀ q, (q < endAddr (s.heap_lo + 48) pre - 4 ∨
      endAddr (s.heap_lo + 48) pre + c.size - 4 ≤ q ∨
      (endAddr (s.heap_lo + 48) pre ≤ q ∧ q < endAddr (s.heap_lo + 48) pre + a - 8)) →
      rd8 s4.mem q = rd8 s.mem q := by
    intro q hq
    rw [← hs4]
    simp only [PUT]
    rw [rd8_wrBytes_out _ _ _ _ _ (by omega), rd8_wrBytes_out _ _ _ _ _ (by omega),
      rd8_wrBytes_out _ _ _ _ _ (by omega), rd8_wrBytes_out _ _ _ _ _ (by omega)]
  clear hs4
  have hxa : endAddr (s4.heap_lo + 48) (pre ++ [⟨a, true⟩]) =
      endAddr (s.heap_lo + 48) pre + a := by
    rw [e4, endAddr_snoc]
  obtain ⟨c1, c2, c3⟩ := coalesce_spec hpre
  have se := coalesce_sameEnv s4 (endAddr (s4.heap_lo + 48) (pre ++ [⟨a, true⟩]))
  have hL : ∀ L, L ∈ (pre ++ [(⟨a, true⟩ : Blk)]).getLast? → L.alloc = true := by
    intro L hL
    simp at hL
    rw [← hL]
  rw [hxa] at c1 c2 c3 se
  rw [freeSize_of_alloc _ hL, dropFreeL_of_alloc _ hL, Nat.sub_zero, Nat.zero_add] at c2
  have hnot : endAddr (s.heap_lo + 48) pre + a ∉ fl := by
    have := hpre.notin
    rw [hxa] at this
    exact this
  rw [List.erase_of_not_mem hnot] at c2
  have e : endAddr (s.heap_lo + 48) pre + a + (c.size - a) =
      endAddr (s.heap_lo + 48) pre + c.size := by omega
  have c2 : Inv (coalesce s4 (endAddr (s.heap_lo + 48) pre + a)).2
      (pre ++ [⟨a, true⟩] ++ [⟨c.size - a + freeSize post.head?, false⟩] ++ dropFreeR post)
      ((endAddr (s.heap_lo + 48) pre + a) ::
        fl.erase (endAddr (s.heap_lo + 48) pre + a + (c.size - a))) := c2
  rw [e] at c2
  refine ⟨se.1.trans e4, c2, ?_⟩
  intro y d hy hd q hq1 hq2 hq3
  have fy := h.toHeap.toHeapCore.mem_facts hy
  rcases (mem_addrs_append3 _ pre [c] post y d).mp hy with h1 | h1 | h1
  · have hbl := h.blocks
    rw [List.append_assoc, heapBlocks_append] at hbl
    have f1 := mem_addrs_facts s.mem _ pre y d hbl.1 h1
    have hy4 : (y, d) ∈ addrs (s4.heap_lo + 48)
        (pre ++ [⟨a, true⟩] ++ [⟨c.size - a, false⟩] ++ post) := by
      rw [e4, List.append_assoc, List.append_assoc, addrs_append]
      exact List.mem_append_left _ h1
    rw [c3 y d hy4 hd q hq1 hq2]
    apply hm4 q
    have f2 := f1.2.1
    clear * - f2 hq2
    omega
  · simp only [addrs, List.mem_singleton, Prod.mk.injEq] at h1
    obtain ⟨rfl, rfl⟩ := h1
    rcases hq3 with hq3 | hq3
    · exact absurd rfl hq3
    · have hy4 : (endAddr (s.heap_lo + 48) pre, (⟨a, true⟩ : Blk)) ∈ addrs (s4.heap_lo + 48)
          (pre ++ [⟨a, true⟩] ++ [⟨d.size - a, false⟩] ++ post) := by
        rw [e4, List.append_assoc, List.append_assoc]
        have := mem_mid (s.heap_lo + 48) pre ([⟨d.size - a, false⟩] ++ post) ⟨a, true⟩
        rw [List.append_assoc] at this
        exact this
      have hq4 : q < endAddr (s.heap_lo + 48) pre + (⟨a, true⟩ : Blk).size - 4 := by
        show q < endAddr (s.heap_lo + 48) pre + a - 4
        clear * - hq3
        omega
      rw [c3 (endAddr (s.heap_lo + 48) pre) ⟨a, true⟩ hy4 rfl q (by clear * - hq3; omega) hq4]
      exact hm4 q (Or.inr (Or.inr hq3))
  · have hbl := h.blocks
    rw [List.append_assoc, heapBlocks_append, heapBlocks_append] at hbl
    have f1 := mem_addrs_facts s.mem _ post y d hbl.2.2 h1
    simp only [endAddr] at f1 h1
    have hy4 : (y, d) ∈ addrs (s4.heap_lo + 48)
        (pre ++ [⟨a, true⟩] ++ [⟨c.size - a, false⟩] ++ post) := by
      rw [e4, addrs_append, endAddr_append, endAddr_snoc]
      simp only [endAddr]
      rw [e]
      exact List.mem_append_right _ h1
    rw [c3 y d hy4 hd q hq1 hq2]
    apply hm4 q
    have f2 := f1.1
    clear * - f2 hq1
    omega

/-! ## The invariant of reachable states -/

theorem realloc_zero (s : State) (p : Nat) : mm_realloc s p 0 = some (0, mm_free s p) := by
  unfold mm_realloc
  simp

theorem realloc_null_ptr (s : State) (n : Nat) : mm_realloc s 0 n = mm_malloc s n := by
  unfold mm_realloc
  by_cases hn : n = 0
  · subst hn
    simp [mm_malloc, mm_free]
  · simp [hn]

theorem Good.zero_not_live {s : State} {live : List Nat} (h : Good s live) : 0 ∉ live := by
  obtain ⟨hnd, bs, fl, hi, hl⟩ := h
  intro hmem
  have := allocAddrs_lt_of_mem hi.toHeap.toHeapCore 0 ((hl 0).mp hmem)
  omega

theorem Good.relist {s : State} {live live1 : List Nat} (h : Good s live)
    (hnd : live1.Nodup) (hm : ∀ x, x ∈ live1 ↔ x ∈ live) : Good s live1 := by
  obtain ⟨-, bs, fl, hi, hl⟩ := h
  exact ⟨hnd, bs, fl, hi, fun x => (hm x).trans (hl x)⟩

theorem nodup_cons_erase (live : List Nat) (p : Nat) (hnd : live.Nodup) (hp : p ∈ live) :
    (p :: live.erase p).Nodup ∧ ∀ x, x ∈ p :: live.erase p ↔ x ∈ live := by
  refine ⟨List.nodup_cons.mpr ⟨hnd.not_mem_erase, hnd.erase p⟩, ?_⟩
  intro x
  rw [List.mem_cons, hnd.mem_erase_iff]
  constructor
  · rintro (rfl | ⟨-, h⟩)
    · exact hp
    · exact h
  · intro h
    by_cases e : x = p
    · exact Or.inl e
    · exact Or.inr ⟨e, h⟩

/-- `mm_realloc` keeps the invariant of reachable states. -/
theorem Good_realloc {s : State} {live : List Nat} (h : Good s live) (p n q : Nat) (s1 : State)
    (hp : p = 0 ∨ p ∈ live) (hr : mm_realloc s p n = some (q, s1)) :
    Good s1 (live_after_realloc live p n q) := by
  unfold live_after_realloc
  by_cases hn : n = 0
  · subst hn
    rw [realloc_zero] at hr
    simp only [Option.some.injEq, Prod.mk.injEq] at hr
    obtain ⟨rfl, rfl⟩ := hr
    rw [if_pos rfl]
    exact Good_free h p hp
  · rw [if_neg hn]
    by_cases hp0 : p = 0
    · subst hp0
      rw [realloc_null_ptr] at hr
      rw [List.erase_of_not_mem h.zero_not_live]
      exact Good_malloc h n q s1 hr
    · have hpl : p ∈ live := by
        rcases hp with hp | hp
        · exact absurd hp hp0
        · exact hp
      have h0 := h
      obtain ⟨hnd, bs, fl, hi, hl⟩ := h
      obtain ⟨c, hpc, hc⟩ := (mem_allocAddrs _ _ _).mp ((hl p).mp hpl)
      have fc := hi.toHeap.toHeapCore.mem_facts hpc
      have rb := hi.toHeap.read_block hpc
      obtain ⟨a24, a8, alt⟩ := adjusted_facts n
      obtain ⟨nd1, hm1⟩ := nodup_cons_erase live p hnd hpl
      by_cases hgrow : GET_SIZE s.mem (HDRP p) < adjusted n
      · -- a new block is allocated
        obtain ⟨q', s1', hmal⟩ := malloc_total h0 n
        by_cases hq : q' = 0
        · subst hq
          rw [realloc_grow_null s s1' p n hn hp0 hgrow hmal] at hr
          simp only [Option.some.injEq, Prod.mk.injEq] at hr
          obtain ⟨rfl, rfl⟩ := hr
          rw [if_pos rfl]
          exact Good_malloc h0 n 0 _ hmal
        · rw [realloc_grow_eq s s1' p n q' hn hp0 hgrow hmal hq] at hr
          simp only [Option.some.injEq, Prod.mk.injEq] at hr
          obtain ⟨rfl, rfl⟩ := hr
          rw [if_neg hq]
          obtain ⟨k1, k2, k3, k4, k5⟩ := malloc_post h0 n q' s1' hn hmal hq
          have hne : q' ≠ p := fun e => k1 (e ▸ hpl)
          have hw := k3.write_payload q' (List.mem_cons_self _ _)
            (memcpy s1'.mem q' p
              (if n < GET_SIZE s.mem (HDRP p) then n else GET_SIZE s.mem (HDRP p)))
            (by
              intro x hx
              apply rd8_memcpy_out
              have hc8 := fc.2.2.2.1
              rw [rb.1] at hgrow ⊢
              clear * - hx hgrow k4 a8 hc8
              split <;> omega)
          have := Good_free hw p (Or.inr (List.mem_cons_of_mem _ hpl))
          rw [List.erase_cons_tail (by simpa using hne)] at this
          exact this
      · by_cases hsame : GET_SIZE s.mem (HDRP p) ≤ adjusted n + 24
        · rw [realloc_same s p n hn hp0 (by omega) hsame] at hr
          simp only [Option.some.injEq, Prod.mk.injEq] at hr
          obtain ⟨rfl, rfl⟩ := hr
          rw [if_neg hp0]
          exact h0.relist nd1 hm1
        · obtain ⟨pre, post, rfl, rfl⟩ := addrs_split _ _ _ _ hpc
          have hi2 : Inv s (pre ++ [c] ++ post) fl := by simpa using hi
          rw [rb.1] at hsame
          obtain ⟨s2, g1, g2, g3, -⟩ := realloc_shrink_spec hi2 hc n hn (by omega)
          rw [g1] at hr
          simp only [Option.some.injEq, Prod.mk.injEq] at hr
          obtain ⟨rfl, rfl⟩ := hr
          rw [if_neg hp0]
          refine ⟨nd1, _, _, g3, ?_⟩
          intro x
          rw [hm1 x, hl x, g2]
          have e1 : pre ++ c :: post = pre ++ [c] ++ post := by simp
          have e2 : pre ++ [(⟨adjusted n, true⟩ : Blk)] ++
              [⟨c.size - adjusted n + freeSize post.head?, false⟩] ++ dropFreeR post =
              pre ++ [⟨adjusted n, true⟩] ++
                (⟨c.size - adjusted n + freeSize post.head?, false⟩ :: dropFreeR post) := by
            simp
          rw [e1, e2, mem_allocAddrs_mid, mem_allocAddrs_mid, mem_allocAddrs_cons]
          have e3 : endAddr (s.heap_lo + 48) pre + adjusted n +
              (c.size - adjusted n + freeSize post.head?) =
              endAddr (s.heap_lo + 48) pre + c.size + freeSize post.head? := by
            clear * - hsame
            omega
          show _ ↔ _ ∨ _ ∨ (_ ∨ x ∈ allocAddrs (endAddr (s.heap_lo + 48) pre + adjusted n +
            (c.size - adjusted n + freeSize post.head?)) (dropFreeR post))
          rw [e3, allocAddrs_dropFreeR]
          simp [hc]

/-- Every reachable state is a well-formed heap whose allocated blocks are the
live pointers. -/
theorem reachable_good {s : State} {live : List Nat} (h : Reachable s live) : Good s live := by
  induction h with
  | init m0 lo cap s hf hi => exact Good_init m0 lo cap s hf hi
  | malloc s live n p s1 _ _ hm ih => exact Good_malloc ih n p s1 hm
  | free s live p _ hp ih => exact Good_free ih p hp
  | realloc s live p n q s1 _ hp _ hr ih => exact Good_realloc ih p n q s1 hp hr
  | calloc s live nmemb size p s1 _ _ _ hd hm ih => exact Good_calloc ih nmemb size p s1 hd hm
  | store s live p i v _ hp hi ih => exact Good_store ih p i v hp hi

/-! ## The walks over the heap and over the free list -/

theorem HeapCore.head_eq {s : State} {bs : List Blk} {x : Nat} {fl : List Nat}
    (h : HeapCore s bs (x :: fl)) : s.free_listp = x := h.chain.1

theorem fresh_zmem : fresh_machine zmem 1000 4096 :=
  ⟨by decide, by norm_num, by norm_num, fun _ _ _ => rfl⟩

set_option maxRecDepth 100000 in
theorem s0_init : mm_init (machine zmem 1000 4096) = (0, s0) :=
  Prod.ext (by decide) rfl

theorem s0_reachable : Reachable s0 [] :=
  Reachable.init zmem 1000 4096 s0 fresh_zmem s0_init

theorem fresh_lowmem : fresh_machine lowmem 1000 72 := by
  refine ⟨by decide, by norm_num, by norm_num, fun a h1 h2 => ?_⟩
  unfold lowmem
  rw [if_neg (by omega)]

set_option maxRecDepth 100000 in
theorem sfull_init : mm_init (machine lowmem 1000 72) = (0, sfull) :=
  Prod.ext (by decide) rfl

theorem sfull_reachable : Reachable sfull [] :=
  Reachable.init lowmem 1000 72 sfull fresh_lowmem sfull_init

set_option maxRecDepth 100000 in
theorem s100_eq : mm_malloc s0 100 = some (1048, s100) := by rfl

theorem s100_reachable : Reachable s100 [1048] :=
  Reachable.malloc s0 [] 100 1048 s100 s0_reachable (by norm_num) s100_eq

set_option maxRecDepth 100000 in
theorem s100w_reachable : Reachable s100w [1048] :=
  Reachable.store s100 [1048] 1048 16 170 s100_reachable (by simp) (by decide)

/-! ## The claims -/

set_option maxRecDepth 100000 in
/-- C1 (does not hold for requests close to `2^64`): on the freshly initialised
heap `s0`, a reachable state, `mm_malloc(2^64 - 1)` returns the block at 1048,
and the size stored in its header is 24: the region between header and footer
has 16 bytes, fewer than the request. -/
theorem malloc_huge_request_small_block :
    Reachable s0 [] ∧
      (mm_malloc s0 (2 ^ 64 - 1)).map (fun r => (r.1, GET_SIZE r.2.mem (HDRP r.1)))
        = some (1048, 24) :=
  ⟨s0_reachable, by decide⟩

/-- C5: if the growth primitive signals failure during `mm_malloc(n)` or during
`mm_realloc(p, n)`, the call returns null and the bytes of memory, `free_listp`,
the end of the managed range and `heap_listp` are what they were before the call. -/
theorem growth_failure_atomic (s s1 : State) (p n q : Nat)
    (h : mm_malloc s n = some (q, s1) ∨ mm_realloc s p n = some (q, s1))
    (hf : growth_failed s s1) :
    q = 0 ∧ s1.mem = s.mem ∧ s1.free_listp = s.free_listp ∧ s1.brk = s.brk ∧
      s1.heap_listp = s.heap_listp := by
  rcases h with h | h
  · exact malloc_growth_failed s s1 n q h hf
  · exact realloc_growth_failed s s1 p n q h hf

set_option maxRecDepth 100000 in
/-- Witness for C5: on the heap `sfull`, whose range cannot grow, `mm_malloc(100)`
finds no fit, the growth request for 112 bytes fails, and the call returns null
with the state unchanged. -/
theorem growth_failure_atomic_witness :
    (mm_malloc sfull 100 = some (0, stateOf sfull (mm_malloc sfull 100)) ∨
        mm_realloc sfull 0 100 = some (0, stateOf sfull (mm_malloc sfull 100))) ∧
      growth_failed sfull (stateOf sfull (mm_malloc sfull 100)) ∧
      (0 = 0 ∧ (stateOf sfull (mm_malloc sfull 100)).mem = sfull.mem ∧
        (stateOf sfull (mm_malloc sfull 100)).free_listp = sfull.free_listp ∧
        (stateOf sfull (mm_malloc sfull 100)).brk = sfull.brk ∧
        (stateOf sfull (mm_malloc sfull 100)).heap_listp = sfull.heap_listp) :=
  ⟨Or.inl (by rfl), ⟨112, by decide, by decide⟩,
    growth_failure_atomic sfull (stateOf sfull (mm_malloc sfull 100)) 0 100 0 (Or.inl (by rfl))
      ⟨112, by decide, by decide⟩⟩

set_option maxRecDepth 100000 in
/-- C10 (does not hold when the bigger size is close to `2^64`): the block at
1048 comes from `mm_malloc(100)` on the fresh heap and holds the byte 170 at
offset 16.  `mm_realloc(1048, 2^64 - 1)` returns 1048, and then
`mm_realloc(1048, 100)` returns 1072, where the byte at offset 16 is 25. -/
theorem realloc_round_trip_loses_data :
    Reachable s100w [1048] ∧ rd8 s100w.mem (1048 + 16) = 170 ∧
      (mm_realloc s100w 1048 (2 ^ 64 - 1)).map Prod.fst = some 1048 ∧
      (mm_realloc s100r 1048 100).map (fun r => (r.1, rd8 r.2.mem (r.1 + 16)))
        = some (1072, 25) :=
  ⟨s100w_reachable, by decide, by decide, by decide⟩

/-- C11: `mm_realloc(NULL, n)` is `mm_malloc(n)`, `mm_realloc(p, 0)` returns null
and leaves the state of `mm_free(p)`, and `mm_free(NULL)` changes nothing. -/
theorem realloc_degenerate (s : State) (p n : Nat) :
    mm_realloc s 0 n = mm_malloc s n ∧ mm_realloc s p 0 = some (0, mm_free s p) ∧
      mm_free s 0 = s := by
  refine ⟨?_, ?_, ?_⟩
  · unfold mm_realloc
    by_cases hn : n = 0
    · subst hn
      simp [mm_malloc, mm_free]
    · simp [hn]
  · unfold mm_realloc
    simp
  · unfold mm_free
    simp

set_option maxRecDepth 100000 in
/-- C14 (does not hold): on the freshly initialised heap, whose range starts at
1000, `mm_checkheap` first reads the word at 996, prints "Bad prologue header"
and "Bad epilogue header", and its free-list walk stops at the prologue block
1008, whose header holds size 24. -/
theorem checkheap_fresh_heap :
    Reachable s0 [] ∧ s0.heap_lo = 1000 ∧
      (mm_checkheap s0).map (fun r => (r.1, r.2.1.head?, r.2.2, GET_SIZE s0.mem (HDRP r.2.2)))
        = some ([Diag.bad_prologue, Diag.bad_epilogue], some 996, 1008, 24) :=
  ⟨s0_reachable, by decide, by decide⟩

set_option maxRecDepth 100000 in
/-- C20 (does not hold): on the heap `sfull`, whose range cannot grow,
`mm_malloc(40)` returns null, and `mm_calloc(10, 4)` returns null after `bzero`
cleared memory from address 0: the byte at address 5 was 1 and is 0 afterwards. -/
theorem calloc_null_writes :
    Reachable sfull [] ∧ (mm_malloc sfull 40).map Prod.fst = some 0 ∧
      rd8 sfull.mem 5 = 1 ∧
      (mm_calloc sfull 10 4).map (fun r => (r.1, rd8 r.2.mem 5)) = some (0, 0) :=
  ⟨sfull_reachable, by decide, by decide, by decide⟩

set_option maxRecDepth 100000 in
theorem s40_eq : mm_malloc s0 40 = some (1048, s40) := by rfl

theorem s40_reachable : Reachable s40 [1048] :=
  Reachable.malloc s0 [] 40 1048 s40 s0_reachable (by norm_num) s40_eq

set_option maxRecDepth 100000 in
/-- C9 (does not hold when the remainder is exactly the minimum block size):
the block at 1048 comes from `mm_malloc(40)` on the fresh heap and has size 48;
in that call `place` split a free block of size 72 and left the remainder of
24 bytes as the free block 1096.  `mm_realloc(1048, 16)` has the adjusted size
24, so the remainder is 24 bytes, and the call returns 1048 with the size 48
unchanged: the test `oldsize - size <= BLOCKSIZE` also returns when the
remainder is equal to the minimum block size. -/
theorem realloc_shrink_by_min_block :
    Reachable s40 [1048] ∧ GET_SIZE s40.mem (HDRP 1048) = 48 ∧
      GET_SIZE s40.mem (HDRP 1096) = 24 ∧ GET_ALLOC s40.mem (HDRP 1096) = 0 ∧
      adjusted 16 = 24 ∧
      (mm_realloc s40 1048 16).map (fun r => (r.1, GET_SIZE r.2.mem (HDRP r.1),
        heap_walk r.2)) = some (1048, 48, some ([1048, 1096], 1120)) :=
  ⟨s40_reachable, by decide, by decide, by decide, by decide, by decide⟩

/-- A growth call in a reachable state: the header of the new free block is
written over the epilogue header, the last word of the range before the call,
and the new epilogue header is the last word of the grown range. -/
theorem extend_heap_overwrites_epilogue (s : State) (live : List Nat) (h : Reachable s live)
    (words : Nat) (hfit : s.brk + ext_size words ≤ s.heap_max) :
    GET s.mem (s.brk - 4) = 1 ∧
      GET (extend_heap s words).2.mem (s.brk - 4) = ext_size words ∧
      (extend_heap s words).2.brk = s.brk + ext_size words ∧
      GET (extend_heap s words).2.mem ((extend_heap s words).2.brk - 4) = 1 := by
  obtain ⟨-, bs, fl, hi, -⟩ := reachable_good h
  obtain ⟨-, c2, -, c4, -, -, -, c8⟩ :=
    extend_heap_spec hi.toHeap.toHeapCore hi.fl_iff hi.coalesced words hfit
  exact ⟨hi.epilogue, c8, c4, c2.epilogue⟩

set_option maxRecDepth 100000 in
/-- C17 (does not hold for the growth call of `mm_init`): `mm_init` on the
machine whose range starts at 1000 asks the growth primitive for 48 bytes and
writes its epilogue header at 1028; its growth call for 24 bytes returns 1048
and writes the header of the new free block at 1044 and the new epilogue
header at 1068.  The word at 1028 still holds the old epilogue header, and the
words at 1032, 1036 and 1040 lie between it and the new block. -/
theorem init_growth_leaves_gap :
    mm_init (machine zmem 1000 4096) = (0, s0) ∧ s0.sbrk_log = [24, 48] ∧ s0.brk = 1072 ∧
      GET s0.mem 1028 = PACK 0 1 ∧ GET s0.mem 1044 = PACK 24 0 ∧
      GET s0.mem 1068 = PACK 0 1 ∧
      GET s0.mem 1032 = 0 ∧ GET s0.mem 1036 = 0 ∧ GET s0.mem 1040 = 0 ∧
      heap_walk s0 = some ([1048], 1072) :=
  ⟨s0_init, by decide, by decide, by decide, by decide, by decide, by decide, by decide,
    by decide, by decide⟩

end Malloc
